import Mathlib

/-!
# Fenwick tree and its two naive baselines

A shallow embedding of `fenwick_tree.cpp`.

* A C++ `int` is an `Int` kept in `[-2^31, 2^31)`: every `int` addition,
  subtraction and negation of the source is followed by `wrap32`, the
  two's-complement reduction modulo `2^32`.
* A `vector<int>` is a `List Int`; `v[i]` with an `int` index is bounds
  checked (`readAt`), and an access outside the vector is the result `fault`.
* A loop is a step function on the loop's variables, iterated by `runLoop`
  with a step bound; running out of steps is the result `timeout`.
-/

namespace FenwickTree

/-! ## Machine integers -/

/-- The `int` that a 32-bit two's-complement machine holds for the integer `x`. -/
def wrap32 (x : Int) : Int := (x + 2147483648) % 4294967296 - 2147483648

/-- The 32-bit pattern of `x`, read as an unsigned number. -/
def bits32 (x : Int) : Nat := (x % 4294967296).toNat

/-- The source's `lsb`: `x & -x` on 32-bit two's-complement `int`. -/
def lsb (x : Int) : Int :=
  wrap32 (Int.ofNat (Nat.land (bits32 x) (bits32 (wrap32 (-x)))))

/-- The `size_t` (64 bits) that an `int` converts to. -/
def toSizeT (x : Int) : Nat := (x % 18446744073709551616).toNat

/-! ## Vectors, loops and results -/

/-- Result of running a piece of the program with a step bound. -/
inductive Outcome (α : Type) where
  | ok (a : α)
  | fault
  | timeout
  deriving DecidableEq

/-- Sequencing of two runs. -/
def Outcome.bind {α β : Type} (x : Outcome α) (f : α → Outcome β) : Outcome β :=
  match x with
  | .ok a => f a
  | .fault => .fault
  | .timeout => .timeout

/-- The element `v[i]` for an `int` index: the index converts to `size_t`, so a
negative index is beyond every vector. -/
def readAt (v : List Int) (i : Int) : Option Int :=
  if 0 ≤ i then v[i.toNat]? else none

/-- The vector after `v[i] = x`, for an index already checked by `readAt`. -/
def writeAt (v : List Int) (i : Int) (x : Int) : List Int :=
  v.set i.toNat x

/-- One pass through a loop: the body ran and the loop goes on, the guard was
false and the loop is left, or the body read outside a vector. -/
inductive Step (σ ρ : Type) where
  | next (s : σ)
  | exit (r : ρ)
  | fault
  deriving DecidableEq

/-- At most `fuel` passes through a loop. -/
def runLoop {σ ρ : Type} (step : σ → Step σ ρ) : Nat → σ → Outcome ρ
  | 0, _ => .timeout
  | fuel + 1, s =>
    match step s with
    | .next s' => runLoop step fuel s'
    | .exit r => .ok r
    | .fault => .fault

/-! ## `Fenwick1D` -/

/-- The members of `class Fenwick1D`. -/
structure Fenwick1D where
  fenw : List Int
  n : Int
  deriving DecidableEq

/-- The constructor `Fenwick1D(int size) : fenw(size + 1, 0), n(size)`; a
negative vector length makes the allocation throw, which is `none`. -/
def Fenwick1D.new (size : Int) : Option Fenwick1D :=
  if 0 ≤ wrap32 (size + 1) then
    some { fenw := List.replicate (wrap32 (size + 1)).toNat 0, n := size }
  else none

/-- The variables of the loop of `Fenwick1D::update`. -/
structure UpdateLoop where
  fenw : List Int
  i : Int
  deriving DecidableEq

/-- One pass of `for (...; i <= n; i += lsb(i)) fenw[i] += delta;`. -/
def Fenwick1D.updateStep (n delta : Int) (s : UpdateLoop) : Step UpdateLoop (List Int) :=
  if s.i ≤ n then
    match readAt s.fenw s.i with
    | none => .fault
    | some v =>
      .next { fenw := writeAt s.fenw s.i (wrap32 (v + delta)), i := wrap32 (s.i + lsb s.i) }
  else .exit s.fenw

/-- The method `Fenwick1D::update`: the loop starts at `i + 1`. -/
def Fenwick1D.update (fuel : Nat) (t : Fenwick1D) (i delta : Int) : Outcome Fenwick1D :=
  (runLoop (Fenwick1D.updateStep t.n delta) fuel { fenw := t.fenw, i := wrap32 (i + 1) }).bind
    fun fenw => .ok { fenw := fenw, n := t.n }

/-- The variables of a summing loop: the position and the running sum. -/
structure SumLoop where
  i : Int
  sum : Int
  deriving DecidableEq

/-- One pass of `for (...; i > 0; i -= lsb(i)) sum += fenw[i];`. -/
def Fenwick1D.prefixStep (fenw : List Int) (s : SumLoop) : Step SumLoop Int :=
  if 0 < s.i then
    match readAt fenw s.i with
    | none => .fault
    | some v => .next { i := wrap32 (s.i - lsb s.i), sum := wrap32 (s.sum + v) }
  else .exit s.sum

/-- The method `Fenwick1D::prefix_sum`: `sum` starts at 0 and the loop at `i + 1`. -/
def Fenwick1D.prefix_sum (fuel : Nat) (t : Fenwick1D) (i : Int) : Outcome Int :=
  runLoop (Fenwick1D.prefixStep t.fenw) fuel { i := wrap32 (i + 1), sum := 0 }

/-- The method `Fenwick1D::range_sum`: 0 when `l > r`, else
`prefix_sum(r) - prefix_sum(l - 1)`. -/
def Fenwick1D.range_sum (fuel : Nat) (t : Fenwick1D) (l r : Int) : Outcome Int :=
  if l > r then .ok 0
  else
    (t.prefix_sum fuel r).bind fun a =>
      (t.prefix_sum fuel (wrap32 (l - 1))).bind fun b => .ok (wrap32 (a - b))

/-! ## `Naive1D_SumOnQuery` -/

/-- The member of `class Naive1D_SumOnQuery`. -/
structure Naive1D_SumOnQuery where
  arr : List Int
  deriving DecidableEq

/-- The constructor `Naive1D_SumOnQuery(int size) : arr(size, 0)`. -/
def Naive1D_SumOnQuery.new (size : Int) : Option Naive1D_SumOnQuery :=
  if 0 ≤ size then some { arr := List.replicate size.toNat 0 } else none

/-- The method `Naive1D_SumOnQuery::update`: `arr[i] += delta`. -/
def Naive1D_SumOnQuery.update (t : Naive1D_SumOnQuery) (i delta : Int) :
    Outcome Naive1D_SumOnQuery :=
  match readAt t.arr i with
  | none => .fault
  | some v => .ok { arr := writeAt t.arr i (wrap32 (v + delta)) }

/-- One pass of `for (int j = 0; j <= i; j++) sum += arr[j];`; the loop
variable `j` is the field `i` of `SumLoop`. -/
def Naive1D_SumOnQuery.prefixStep (arr : List Int) (i : Int) (s : SumLoop) : Step SumLoop Int :=
  if s.i ≤ i then
    match readAt arr s.i with
    | none => .fault
    | some v => .next { i := wrap32 (s.i + 1), sum := wrap32 (s.sum + v) }
  else .exit s.sum

/-- The method `Naive1D_SumOnQuery::prefix_sum`: `sum` and `j` start at 0. -/
def Naive1D_SumOnQuery.prefix_sum (fuel : Nat) (t : Naive1D_SumOnQuery) (i : Int) :
    Outcome Int :=
  runLoop (Naive1D_SumOnQuery.prefixStep t.arr i) fuel { i := 0, sum := 0 }

/-! ## `Naive1D_PrefixArray` -/

/-- The members of `class Naive1D_PrefixArray`; `sums` is the source's vector
`prefix`. -/
structure Naive1D_PrefixArray where
  arr : List Int
  sums : List Int
  deriving DecidableEq

/-- The constructor `Naive1D_PrefixArray(int size) : arr(size, 0), prefix(size + 1, 0)`. -/
def Naive1D_PrefixArray.new (size : Int) : Option Naive1D_PrefixArray :=
  if 0 ≤ size ∧ 0 ≤ wrap32 (size + 1) then
    some { arr := List.replicate size.toNat 0,
           sums := List.replicate (wrap32 (size + 1)).toNat 0 }
  else none

/-- The variables of the loop of `Naive1D_PrefixArray::update`; `j` is a `size_t`. -/
structure RebuildLoop where
  sums : List Int
  j : Nat
  deriving DecidableEq

/-- One pass of
`for (size_t j = ...; j < prefix.size(); j++) prefix[j] = prefix[j - 1] + arr[j - 1];`,
where `j - 1` is taken on `size_t`. -/
def Naive1D_PrefixArray.updateStep (arr : List Int) (s : RebuildLoop) :
    Step RebuildLoop (List Int) :=
  if s.j < s.sums.length then
    match s.sums[(s.j + 18446744073709551615) % 18446744073709551616]?,
        arr[(s.j + 18446744073709551615) % 18446744073709551616]? with
    | some p, some a =>
      .next { sums := s.sums.set s.j (wrap32 (p + a)), j := (s.j + 1) % 18446744073709551616 }
    | _, _ => .fault
  else .exit s.sums

/-- The method `Naive1D_PrefixArray::update`: `arr[i] += delta`, then the loop from
`size_t j = i + 1`. -/
def Naive1D_PrefixArray.update (fuel : Nat) (t : Naive1D_PrefixArray) (i delta : Int) :
    Outcome Naive1D_PrefixArray :=
  match readAt t.arr i with
  | none => .fault
  | some v =>
    (runLoop (Naive1D_PrefixArray.updateStep (writeAt t.arr i (wrap32 (v + delta)))) fuel
        { sums := t.sums, j := toSizeT (wrap32 (i + 1)) }).bind
      fun sums => .ok { arr := writeAt t.arr i (wrap32 (v + delta)), sums := sums }

/-- The method `Naive1D_PrefixArray::prefix_sum`: `prefix[i + 1]`. -/
def Naive1D_PrefixArray.prefix_sum (t : Naive1D_PrefixArray) (i : Int) : Outcome Int :=
  match readAt t.sums (wrap32 (i + 1)) with
  | none => .fault
  | some v => .ok v

/-! ## Sequences of calls and reference sums -/

/-- A run of `update(i, delta)` calls in order, each with the step bound `fuel`. -/
def Fenwick1D.updates (fuel : Nat) (t : Fenwick1D) : List (Int × Int) → Outcome Fenwick1D
  | [] => .ok t
  | op :: ops => (t.update fuel op.1 op.2).bind fun t' => Fenwick1D.updates fuel t' ops

/-- Sum of the deltas of the calls `(i, delta)` whose position `i` satisfies `P`. -/
def sumWhere (P : Int → Bool) (ops : List (Int × Int)) : Int :=
  ((ops.filter fun op => P op.1).map Prod.snd).sum

/-- Sum of all deltas applied to positions `<= j`. -/
def deltaSum (ops : List (Int × Int)) (j : Int) : Int :=
  sumWhere (fun i => decide (i ≤ j)) ops

/-- The 1-indexed position `k` is responsible for the 1-indexed position `p`:
`k - lsb k < p <= k`. -/
def covers (k p : Int) : Bool := decide (k - lsb k < p) && decide (p ≤ k)

/-- Sum of the deltas applied inside the block of the 1-indexed position `k`. -/
def blockSum (ops : List (Int × Int)) (k : Int) : Int :=
  sumWhere (fun i => covers k (i + 1)) ops

/-- The tree `t` of size `n` holds the block sums of the calls `ops`. -/
def HoldsBlocks (t : Fenwick1D) (n : Int) (ops : List (Int × Int)) : Prop :=
  t.n = n ∧ (t.fenw.length : Int) = n + 1 ∧
    ∀ k : Int, 1 ≤ k → k ≤ n → readAt t.fenw k = some (wrap32 (blockSum ops k))

/-- Sum of all deltas applied to positions in `[l, r]`: the sum of the logical
array elements at positions `l..r`. -/
def rangeDeltaSum (ops : List (Int × Int)) (l r : Int) : Int :=
  sumWhere (fun i => decide (l ≤ i) && decide (i ≤ r)) ops

/-- The states a `Fenwick1D` object of size `n >= 0` can be in: `n + 1` fits an
`int`, `fenw` has `n + 1` elements, and every element is an `int`. -/
def Fenwick1D.WF (t : Fenwick1D) : Prop :=
  0 ≤ t.n ∧ t.n < 2147483647 ∧ (t.fenw.length : Int) = t.n + 1 ∧ ∀ x ∈ t.fenw, wrap32 x = x

/-! ## Mixed runs on the three structures -/

/-- An operation of a workload: `update(i, delta)` or `prefix_sum(j)`. -/
inductive Op where
  | update (i delta : Int)
  | query (j : Int)
  deriving DecidableEq

/-- The operation is within the size `n`: `i` in `[0, n)`, `j` in `[-1, n)`. -/
def Op.inRange (n : Int) : Op → Bool
  | .update i _ => decide (0 ≤ i) && decide (i < n)
  | .query j => decide (-1 ≤ j) && decide (j < n)

/-- The results of the queries of a workload on a `Fenwick1D`, in order. -/
def Fenwick1D.run (fuel : Nat) : Fenwick1D → List Op → Outcome (List Int)
  | _, [] => .ok []
  | t, .update i delta :: ops =>
    (t.update fuel i delta).bind fun t' => Fenwick1D.run fuel t' ops
  | t, .query j :: ops =>
    (t.prefix_sum fuel j).bind fun v => (Fenwick1D.run fuel t ops).bind fun vs => .ok (v :: vs)

/-- The results of the queries of a workload on a `Naive1D_SumOnQuery`, in order. -/
def Naive1D_SumOnQuery.run (fuel : Nat) : Naive1D_SumOnQuery → List Op → Outcome (List Int)
  | _, [] => .ok []
  | t, .update i delta :: ops =>
    (t.update i delta).bind fun t' => Naive1D_SumOnQuery.run fuel t' ops
  | t, .query j :: ops =>
    (t.prefix_sum fuel j).bind fun v =>
      (Naive1D_SumOnQuery.run fuel t ops).bind fun vs => .ok (v :: vs)

/-- The results of the queries of a workload on a `Naive1D_PrefixArray`, in order. -/
def Naive1D_PrefixArray.run (fuel : Nat) : Naive1D_PrefixArray → List Op → Outcome (List Int)
  | _, [] => .ok []
  | t, .update i delta :: ops =>
    (t.update fuel i delta).bind fun t' => Naive1D_PrefixArray.run fuel t' ops
  | t, .query j :: ops =>
    (t.prefix_sum j).bind fun v =>
      (Naive1D_PrefixArray.run fuel t ops).bind fun vs => .ok (v :: vs)

/-- The reference results of a workload that follows the updates `past`: each
query `j` answers the sum of the deltas applied so far to positions `<= j`. -/
def refRun (past : List (Int × Int)) : List Op → List Int
  | [] => []
  | .update i delta :: ops => refRun (past ++ [(i, delta)]) ops
  | .query j :: ops => wrap32 (deltaSum past j) :: refRun past ops

/-- Sum of the deltas applied to the position `k`. -/
def cellSum (ops : List (Int × Int)) (k : Int) : Int :=
  sumWhere (fun i => decide (i = k)) ops

/-- The array of size `n` holds the sums of the deltas applied to each position. -/
def HoldsCells (arr : List Int) (n : Int) (ops : List (Int × Int)) : Prop :=
  (arr.length : Int) = n ∧
    ∀ k : Int, 0 ≤ k → k < n → readAt arr k = some (wrap32 (cellSum ops k))

/-- The vector of `n + 1` sums holds, at `k`, the sum of the deltas applied
below position `k`. -/
def HoldsPrefixes (sums : List Int) (n : Int) (ops : List (Int × Int)) : Prop :=
  (sums.length : Int) = n + 1 ∧
    ∀ k : Int, 0 ≤ k → k ≤ n → readAt sums k = some (wrap32 (deltaSum ops (k - 1)))

/-! ## Passes of a loop -/

/-- The loop variables after `k` passes through the body; `none` when the loop
was left, or read outside a vector, before that. -/
def loopState {σ ρ : Type} (step : σ → Step σ ρ) : Nat → σ → Option σ
  | 0, s => some s
  | k + 1, s =>
    match step s with
    | .next s' => loopState step k s'
    | .exit _ => none
    | .fault => none

/-- The loop variables at each entry into the body, in order, over at most
`fuel` passes; a pass that reads outside a vector is the last one listed. -/
def loopEntries {σ ρ : Type} (step : σ → Step σ ρ) : Nat → σ → List σ
  | 0, _ => []
  | fuel + 1, s =>
    match step s with
    | .next s' => s :: loopEntries step fuel s'
    | .exit _ => []
    | .fault => [s]

/-- The positions at which `Fenwick1D::update` accesses `fenw`, in order. -/
def Fenwick1D.updateTouches (fuel : Nat) (t : Fenwick1D) (i delta : Int) : List Int :=
  (loopEntries (Fenwick1D.updateStep t.n delta) fuel
    { fenw := t.fenw, i := wrap32 (i + 1) }).map fun s => s.i

/-- The positions at which `Fenwick1D::prefix_sum` accesses `fenw`, in order. -/
def Fenwick1D.prefixTouches (fuel : Nat) (t : Fenwick1D) (i : Int) : List Int :=
  (loopEntries (Fenwick1D.prefixStep t.fenw) fuel { i := wrap32 (i + 1), sum := 0 }).map
    fun s => s.i

/-- The chain of positions `j`, `j + lsb j`, ... as long as they are `<= n`, cut
after `fuel` positions. -/
def chain (n : Int) : Nat → Int → List Int
  | 0, _ => []
  | fuel + 1, j => if j ≤ n then j :: chain n fuel (j + lsb j) else []

/-- The number of set bits among the low `w` bits of `m`. -/
def popcountLow : Nat → Nat → Nat
  | 0, _ => 0
  | w + 1, m => m % 2 + popcountLow w (m / 2)

/-- The number of set bits of the 32-bit pattern of an `int`. -/
def popcount (x : Int) : Nat := popcountLow 32 (bits32 x)

/-! ## The logical array -/

/-- Sum of the elements of `arr` at the 0-indexed positions `lo <= m < hi`. -/
def segSum (arr : List Int) (lo hi : Int) : Int :=
  ((List.range (hi - lo).toNat).map fun (m : Nat) => (readAt arr (lo + (m : Int))).getD 0).sum

/-- The Fenwick decomposition: `arr` has `n` elements and, for every 1-indexed
position `k` in `[1, n]`, `fenw[k]` is the `int` sum of the 1-indexed elements
`k - lsb k + 1 .. k` of `arr`, which are the 0-indexed `k - lsb k .. k - 1`. -/
def Decomposed (t : Fenwick1D) (arr : List Int) : Prop :=
  (arr.length : Int) = t.n ∧
    ∀ k : Int, 1 ≤ k → k ≤ t.n →
      readAt t.fenw k = some (wrap32 (segSum arr (k - lsb k) k))

/-- The consistency of a `Naive1D_PrefixArray` of size `n`: `arr` has `n`
elements, `prefix` has `n + 1`, `prefix[0] = 0`, and `prefix[k]` is the `int` sum
`arr[0] + ... + arr[k - 1]` for every `k` in `[1, n]`. -/
def PrefixConsistent (p : Naive1D_PrefixArray) (n : Int) : Prop :=
  (p.arr.length : Int) = n ∧ (p.sums.length : Int) = n + 1 ∧ readAt p.sums 0 = some 0 ∧
    ∀ k : Int, 1 ≤ k → k ≤ n → readAt p.sums k = some (wrap32 (segSum p.arr 0 k))

/-- The positions of `prefix` that `Naive1D_PrefixArray::update` writes, in order. -/
def Naive1D_PrefixArray.updateWrites (fuel : Nat) (t : Naive1D_PrefixArray) (i delta : Int) :
    List Nat :=
  match readAt t.arr i with
  | none => []
  | some v =>
    (loopEntries (Naive1D_PrefixArray.updateStep (writeAt t.arr i (wrap32 (v + delta)))) fuel
      { sums := t.sums, j := toSizeT (wrap32 (i + 1)) }).map fun s => s.j

/-! ## The benchmark harness

The harness is modelled by the operations it issues to each structure. The
generator `rng` is a stream of draws together with the number of draws taken so
far. The distributions are library code: a call `dist(rng)` is a function from
the generator to a value and the generator after the call, and the three
distributions of `run_benchmark` are parameters. Clocks and output are left
out. -/

/-- The generator: its stream of draws and the number of draws taken so far. -/
structure Rng where
  draws : Nat → Nat
  pos : Nat

/-- The distributions `idx_dist(0, n - 1)`, `op_dist(0, 1)` and
`delta_dist(1, 10)` of `run_benchmark`, each as its call `dist(rng)`. -/
structure Dists where
  idx_dist : Rng → Int × Rng
  op_dist : Rng → Int × Rng
  delta_dist : Rng → Int × Rng

/-- The stream without its first `c` draws. -/
def dropDraws (c : Nat) (draws : Nat → Nat) : Nat → Nat := fun k => draws (c + k)

/-- The stream without the `c` draws from position `s` on. -/
def cutDraws (s c : Nat) (draws : Nat → Nat) : Nat → Nat :=
  fun k => if k < s then draws k else draws (c + k)

/-- A piece of code that uses the generator reads the stream from the
generator's position on: it leaves the stream as it is; on the stream without
its first `c` draws it does what it does `c` positions further on on the whole
stream; and its value and the number of draws it takes depend only on the draws
it takes. -/
def ReadsStream {α : Type} (f : Rng → α × Rng) : Prop :=
  ∀ (draws : Nat → Nat) (p : Nat),
    (f { draws := draws, pos := p }).2.draws = draws ∧
      (∀ c : Nat,
        (f { draws := dropDraws c draws, pos := p }).1 =
            (f { draws := draws, pos := c + p }).1 ∧
          (f { draws := dropDraws c draws, pos := p }).2.pos + c =
            (f { draws := draws, pos := c + p }).2.pos) ∧
      ∀ draws' : Nat → Nat,
        (∀ q : Nat, p ≤ q → q < (f { draws := draws, pos := p }).2.pos → draws' q = draws q) →
        (f { draws := draws', pos := p }).1 = (f { draws := draws, pos := p }).1 ∧
          (f { draws := draws', pos := p }).2.pos = (f { draws := draws, pos := p }).2.pos

/-- The three distributions read the stream from the generator's position on,
as a distribution object without state of its own does, however many draws a
call takes. -/
def Dists.ReadStream (D : Dists) : Prop :=
  ReadsStream D.idx_dist ∧ ReadsStream D.op_dist ∧ ReadsStream D.delta_dist

/-- An example of a distribution call that reads the stream: it takes one draw
and reduces it into `[lo, hi]`. It is not the algorithm of the library, which
may take several draws per call. -/
def uniform (lo hi : Int) (g : Rng) : Int × Rng :=
  (lo + ((g.draws g.pos : Nat) : Int) % (hi - lo + 1), { draws := g.draws, pos := g.pos + 1 })

/-- Example distributions for `run_benchmark`, over the ranges of the source,
each call taking one draw. -/
def oneDrawDists : Dists :=
  { idx_dist := uniform 0 (100000 - 1), op_dist := uniform 0 1, delta_dist := uniform 1 10 }

/-- The loop of test 1 on one structure, `k` passes:
`int idx = idx_dist(rng); s.prefix_sum(idx);`. -/
def benchQueries (D : Dists) : Nat → Rng → List Op × Rng
  | 0, g => ([], g)
  | k + 1, g =>
    let idx := D.idx_dist g
    let rest := benchQueries D k idx.2
    (Op.query idx.1 :: rest.1, rest.2)

/-- The loop of test 2 on one structure, `k` passes:
`int idx = idx_dist(rng); int delta = delta_dist(rng); s.update(idx, delta);`. -/
def benchUpdates (D : Dists) : Nat → Rng → List Op × Rng
  | 0, g => ([], g)
  | k + 1, g =>
    let idx := D.idx_dist g
    let delta := D.delta_dist idx.2
    let rest := benchUpdates D k delta.2
    (Op.update idx.1 delta.1 :: rest.1, rest.2)

/-- The loop of test 3 on one structure, `k` passes: `int idx = idx_dist(rng);`
then `s.prefix_sum(idx)` if `op_dist(rng) == 0`, else
`int delta = delta_dist(rng); s.update(idx, delta);`. -/
def benchMixed (D : Dists) : Nat → Rng → List Op × Rng
  | 0, g => ([], g)
  | k + 1, g =>
    let idx := D.idx_dist g
    let op := D.op_dist idx.2
    if op.1 = 0 then
      let rest := benchMixed D k op.2
      (Op.query idx.1 :: rest.1, rest.2)
    else
      let delta := D.delta_dist op.2
      let rest := benchMixed D k delta.2
      (Op.update idx.1 delta.1 :: rest.1, rest.2)

/-- The operations one test issues to each of the three structures, with the
position of the generator when the test starts, the number of draws the loop on
`fenw` takes, and the number the loops on `fenw` and `naive1` take together. -/
structure Workloads where
  fenw : List Op
  naive1 : List Op
  naive2 : List Op
  start : Nat
  taken1 : Nat
  taken2 : Nat
  deriving DecidableEq

/-- One test: its loop on `fenw`, then on `naive1`, then on `naive2`, all on the
one generator. -/
def benchTest (loop : Nat → Rng → List Op × Rng) (operations : Nat) (g : Rng) :
    Workloads × Rng :=
  let a := loop operations g
  let b := loop operations a.2
  let c := loop operations b.2
  ({ fenw := a.1, naive1 := b.1, naive2 := c.1, start := g.pos,
     taken1 := a.2.pos - g.pos, taken2 := b.2.pos - g.pos }, c.2)

/-- The three tests of `run_benchmark` for a number of operations, on the
generator stream `draws`. -/
def benchmark (D : Dists) (operations : Nat) (draws : Nat → Nat) :
    Workloads × Workloads × Workloads :=
  let t1 := benchTest (benchQueries D) operations { draws := draws, pos := 0 }
  let t2 := benchTest (benchUpdates D) operations t1.2
  let t3 := benchTest (benchMixed D) operations t2.2
  (t1.1, t2.1, t3.1)

/-- The function `run_benchmark`, with its `operations = 50000`; its `n = 100000`
is in the parameter `idx_dist`. -/
def run_benchmark (D : Dists) (draws : Nat → Nat) : Workloads × Workloads × Workloads :=
  benchmark D 50000 draws

/-- The three tests of `run_benchmark`: test 1 (many queries), test 2 (many
updates), test 3 (mixed). -/
inductive Test where
  | queries
  | updates
  | mixed
  deriving DecidableEq

/-- The workloads of one test in the result of `run_benchmark`. -/
def Test.workloads (T : Test) (W : Workloads × Workloads × Workloads) : Workloads :=
  match T with
  | .queries => W.1
  | .updates => W.2.1
  | .mixed => W.2.2

/-! ## Machine arithmetic -/

theorem wrap32_of_range {x : Int} (h0 : -2147483648 ≤ x) (h1 : x < 2147483648) : wrap32 x = x := by
  unfold wrap32; omega

theorem wrap32_range (x : Int) : -2147483648 ≤ wrap32 x ∧ wrap32 x < 2147483648 := by
  unfold wrap32; omega

theorem wrap32_wrap32 (x : Int) : wrap32 (wrap32 x) = wrap32 x := by
  unfold wrap32; omega

theorem wrap32_add_left (a b : Int) : wrap32 (wrap32 a + b) = wrap32 (a + b) := by
  unfold wrap32; omega

theorem wrap32_add_right (a b : Int) : wrap32 (a + wrap32 b) = wrap32 (a + b) := by
  unfold wrap32; omega

theorem wrap32_sub_left (a b : Int) : wrap32 (wrap32 a - b) = wrap32 (a - b) := by
  unfold wrap32; omega

theorem wrap32_sub_right (a b : Int) : wrap32 (a - wrap32 b) = wrap32 (a - b) := by
  unfold wrap32; omega

theorem land_double (x y : Nat) : Nat.land (2 * x) (2 * y) = 2 * Nat.land x y := by
  have h := Nat.land_bit false x false y
  simpa [Nat.bit_val] using h

theorem land_double_succ (x y : Nat) :
    Nat.land (2 * x + 1) (2 * y + 1) = 2 * Nat.land x y + 1 := by
  have h := Nat.land_bit true x true y
  simpa [Nat.bit_val] using h

theorem land_compl (w x : Nat) (h : x < 2 ^ w) : Nat.land x (2 ^ w - (x + 1)) = 0 := by
  apply Nat.eq_of_testBit_eq
  intro i
  have := Nat.testBit_two_pow_sub_succ h i
  show (x &&& (2 ^ w - (x + 1))).testBit i = _
  rw [Nat.testBit_and, this]
  cases x.testBit i <;> simp

theorem lowbit_spec (a : Nat) : ∀ w : Nat, 0 < a → a < 2 ^ w →
    ∃ t, Nat.land a (2 ^ w - a) = 2 ^ t ∧ 2 ^ t ∣ a ∧ ¬ 2 ^ (t + 1) ∣ a := by
  induction a using Nat.strong_induction_on with
  | _ a ih =>
    intro w h0 hw
    obtain ⟨w, rfl⟩ : ∃ v, w = v + 1 := by
      cases w with
      | zero => simp at hw; omega
      | succ v => exact ⟨v, rfl⟩
    rcases Nat.even_or_odd' a with ⟨b, rfl | rfl⟩
    · have hb : b < 2 ^ w := by rw [pow_succ] at hw; omega
      obtain ⟨t, h1, h2, h3⟩ := ih b (by omega) w (by omega) hb
      refine ⟨t + 1, ?_, ?_, ?_⟩
      · have : 2 ^ (w + 1) - 2 * b = 2 * (2 ^ w - b) := by rw [pow_succ]; omega
        rw [this, land_double, h1, pow_succ]; ring
      · rw [pow_succ, mul_comm]; exact Nat.mul_dvd_mul_left 2 h2
      · intro hd
        apply h3
        rw [pow_succ (2) (t + 1), mul_comm] at hd
        exact (Nat.mul_dvd_mul_iff_left (by norm_num)).1 hd
    · have hb : b < 2 ^ w := by rw [pow_succ] at hw; omega
      refine ⟨0, ?_, by simp, ?_⟩
      · have : 2 ^ (w + 1) - (2 * b + 1) = 2 * (2 ^ w - (b + 1)) + 1 := by rw [pow_succ]; omega
        rw [this, land_double_succ, land_compl w b hb]; simp
      · simp

theorem lsb_zero : lsb 0 = 0 := by decide

theorem lsb_spec {x : Int} (h0 : 0 < x) (h1 : x < 2147483648) :
    ∃ t : Nat, lsb x = 2 ^ t ∧ (2 : Int) ^ t ∣ x ∧ ¬ (2 : Int) ^ (t + 1) ∣ x := by
  obtain ⟨a, rfl⟩ : ∃ a : Nat, x = (a : Int) := ⟨x.toNat, by omega⟩
  have ha0 : 0 < a := by exact_mod_cast h0
  have ha1 : a < 2 ^ 32 := by norm_num; omega
  obtain ⟨t, h1', h2, h3⟩ := lowbit_spec a 32 ha0 ha1
  have hle : 2 ^ t ≤ a := Nat.le_of_dvd ha0 h2
  refine ⟨t, ?_, ?_, ?_⟩
  · have e1 : bits32 (a : Int) = a := by unfold bits32; omega
    have e2 : bits32 (wrap32 (-(a : Int))) = 2 ^ 32 - a := by
      unfold bits32 wrap32; norm_num; omega
    unfold lsb
    rw [e1, e2, h1']
    have : ((2 ^ t : Nat) : Int) = (2 : Int) ^ t := by push_cast; rfl
    rw [Int.ofNat_eq_coe, this]
    apply wrap32_of_range
    · have : (0 : Int) < 2 ^ t := by positivity
      omega
    · have : ((2 ^ t : Nat) : Int) ≤ (a : Int) := by exact_mod_cast hle
      push_cast at this
      omega
  · have : ((2 ^ t : Nat) : Int) ∣ (a : Int) := Int.natCast_dvd_natCast.2 h2
    simpa using this
  · intro hd
    apply h3
    have : ((2 ^ (t + 1) : Nat) : Int) ∣ (a : Int) := by simpa using hd
    exact Int.natCast_dvd_natCast.1 this

theorem lsb_pos {x : Int} (h0 : 0 < x) (h1 : x < 2147483648) : 0 < lsb x := by
  obtain ⟨t, h, -, -⟩ := lsb_spec h0 h1
  rw [h]; positivity

theorem lsb_le {x : Int} (h0 : 0 < x) (h1 : x < 2147483648) : lsb x ≤ x := by
  obtain ⟨t, h, hd, -⟩ := lsb_spec h0 h1
  rw [h]; exact Int.le_of_dvd h0 hd

/-- Between `j` and `j + lsb j` no position has a block reaching down to `j`. -/
theorem lsb_gap {j k : Int} (hj : 0 < j) (hjk : j < k) (hk : k < j + lsb j)
    (hk1 : k < 2147483648) : j ≤ k - lsb k := by
  obtain ⟨t, ht, hdt, -⟩ := lsb_spec hj (by omega)
  obtain ⟨u, hu, hdu, -⟩ := lsb_spec (x := k) (by omega) hk1
  rw [ht] at hk
  rw [hu]
  by_cases htu : t ≤ u
  · exfalso
    have h1 : (2 : Int) ^ t ∣ k := dvd_trans (pow_dvd_pow 2 htu) hdu
    have h2 : (2 : Int) ^ t ∣ k - j := dvd_sub h1 hdt
    have := Int.le_of_dvd (by omega) h2
    omega
  · have h1 : (2 : Int) ^ u ∣ j := dvd_trans (pow_dvd_pow 2 (by omega)) hdt
    have h2 : (2 : Int) ^ u ∣ k - j := dvd_sub hdu h1
    have := Int.le_of_dvd (by omega) h2
    omega

/-- The block of `j + lsb j` is at least twice as long as the block of `j`. -/
theorem lsb_next {j : Int} (hj : 0 < j) (hj0 : j < 2147483648)
    (hj1 : j + lsb j < 2147483648) : 2 * lsb j ≤ lsb (j + lsb j) := by
  have hp := lsb_pos hj hj0
  obtain ⟨t, ht, hdt, hnt⟩ := lsb_spec hj hj0
  obtain ⟨u, hu, hdu, hnu⟩ := lsb_spec (x := j + lsb j) (by omega) hj1
  rw [hu, ht]
  rw [ht] at hdu hnu
  by_cases htu : t + 1 ≤ u
  · have := pow_le_pow_right₀ (show (1 : Int) ≤ 2 by norm_num) htu
    rw [pow_succ] at this
    omega
  · exfalso
    apply hnu
    have hdd : (2 : Int) ^ (t + 1) ∣ j + 2 ^ t := by
      obtain ⟨q, hq⟩ := hdt
      rcases Int.emod_two_eq q with h | h
      · exfalso
        apply hnt
        obtain ⟨q', hq'⟩ : (2 : Int) ∣ q := Int.dvd_of_emod_eq_zero h
        exact ⟨q', by rw [hq, hq', pow_succ]; ring⟩
      · obtain ⟨q', hq'⟩ : (2 : Int) ∣ q + 1 := Int.dvd_of_emod_eq_zero (by omega)
        exact ⟨q', by
          have : j + 2 ^ t = 2 ^ t * (q + 1) := by rw [hq]; ring
          rw [this, hq', pow_succ]; ring⟩
    exact dvd_trans (pow_dvd_pow 2 (by omega)) hdd
/-! ## Vectors -/

theorem readAt_eq_some {v : List Int} {i : Int} (h0 : 0 ≤ i) (h1 : i < v.length) :
    ∃ x, readAt v i = some x := by
  have h : i.toNat < v.length := by omega
  exact ⟨v[i.toNat], by simp [readAt, h0, List.getElem?_eq_getElem h]⟩

theorem readAt_eq_none_of_neg {v : List Int} {i : Int} (h : i < 0) : readAt v i = none := by
  simp [readAt]; omega

theorem readAt_eq_none_of_le {v : List Int} {i : Int} (h : (v.length : Int) ≤ i) :
    readAt v i = none := by
  unfold readAt
  split
  · exact List.getElem?_eq_none (by omega)
  · rfl

theorem length_writeAt (v : List Int) (i x : Int) : (writeAt v i x).length = v.length := by
  simp [writeAt]

theorem readAt_writeAt {v : List Int} {i : Int} (x : Int) {k : Int} (hi0 : 0 ≤ i)
    (hi1 : i < v.length) (hk : 0 ≤ k) :
    readAt (writeAt v i x) k = if k = i then some x else readAt v k := by
  unfold readAt writeAt
  rw [if_pos hk, if_pos hk, List.getElem?_set]
  by_cases h : k = i
  · subst h
    have : k.toNat < v.length := by omega
    simp [this]
  · have : i.toNat ≠ k.toNat := by omega
    simp [this, h]

theorem readAt_mem {v : List Int} {i x : Int} (h : readAt v i = some x) : x ∈ v := by
  unfold readAt at h
  split at h
  · exact List.getElem?_mem h
  · cases h

theorem list_ext_readAt {v w : List Int} (hl : v.length = w.length)
    (h : ∀ k : Int, 0 ≤ k → k < v.length → readAt v k = readAt w k) : v = w := by
  apply List.ext_getElem?
  intro m
  by_cases hm : m < v.length
  · have := h (m : Int) (by omega) (by omega)
    simpa [readAt] using this
  · rw [List.getElem?_eq_none (by omega), List.getElem?_eq_none (by omega)]

theorem readAt_replicate {m : Nat} {i : Int} (h0 : 0 ≤ i) (h1 : i < m) :
    readAt (List.replicate m 0) i = some 0 := by
  unfold readAt
  rw [if_pos h0, List.getElem?_replicate, if_pos (by omega)]

/-! ## Loops -/

theorem runLoop_succ {σ ρ : Type} (step : σ → Step σ ρ) (fuel : Nat) (s : σ) :
    runLoop step (fuel + 1) s =
      match step s with
      | .next s' => runLoop step fuel s'
      | .exit r => .ok r
      | .fault => .fault := rfl

/-- A run that has ended keeps its result under a larger step bound. -/
theorem runLoop_mono {σ ρ : Type} (step : σ → Step σ ρ) :
    ∀ (fuel fuel' : Nat) (s : σ), fuel ≤ fuel' → runLoop step fuel s ≠ .timeout →
      runLoop step fuel' s = runLoop step fuel s := by
  intro fuel
  induction fuel with
  | zero => intro fuel' s _ h; exact absurd rfl h
  | succ f ih =>
    intro fuel' s hle h
    obtain ⟨g, rfl⟩ : ∃ g, fuel' = g + 1 := ⟨fuel' - 1, by omega⟩
    rw [runLoop_succ] at h ⊢
    rw [runLoop_succ]
    cases hs : step s with
    | next s' =>
      rw [hs] at h
      exact ih g s' (by omega) h
    | exit r => rfl
    | fault => rfl

/-! ## The loop of `Fenwick1D::update` -/

theorem covers_iff (k p : Int) : covers k p = true ↔ k - lsb k < p ∧ p ≤ k := by
  simp [covers]

/-- Started at a position `i` whose block holds `p`, the loop of `update` ends
and has added `delta` at exactly the positions from `i` on whose block holds
`p`, when the size is below `2^30`. -/
theorem updateLoop_spec {n : Int} (delta p : Int) (hn : n < 1073741824) (hp : 0 < p) :
    ∀ (fuel : Nat) (fenw : List Int) (i : Int), (fenw.length : Int) = n + 1 →
      i - lsb i < p → p ≤ i → i < 2147483648 → 0 < fuel → n + 1 - i < (fuel : Int) →
      ∃ fenw', runLoop (Fenwick1D.updateStep n delta) fuel { fenw := fenw, i := i } = .ok fenw' ∧
        fenw'.length = fenw.length ∧
        ∀ k : Int, 0 ≤ k → k ≤ n →
          readAt fenw' k =
            if i ≤ k ∧ covers k p = true then (readAt fenw k).map fun v => wrap32 (v + delta)
            else readAt fenw k := by
  intro fuel
  induction fuel with
  | zero =>
    intro fenw i hl h1 h2 h3 hpos hf
    omega
  | succ f ih =>
    intro fenw i hl h1 h2 h3 _ hf
    rw [runLoop_succ]
    by_cases hin : i ≤ n
    · have hi0 : 0 < i := by omega
      obtain ⟨v, hv⟩ := readAt_eq_some (v := fenw) (i := i) (by omega) (by omega)
      have hlp := lsb_pos hi0 h3
      have hll := lsb_le hi0 h3
      have hw : wrap32 (i + lsb i) = i + lsb i := wrap32_of_range (by omega) (by omega)
      have hnx := lsb_next hi0 h3 (by omega)
      simp only [Fenwick1D.updateStep, if_pos hin, hv, hw]
      obtain ⟨fenw', hr, hlen, hk⟩ := ih (writeAt fenw i (wrap32 (v + delta))) (i + lsb i)
        (by rw [length_writeAt]; exact hl) (by omega) (by omega) (by omega) (by omega)
        (by push_cast at hf ⊢; omega)
      refine ⟨fenw', hr, by rw [hlen, length_writeAt], ?_⟩
      intro k hk0 hkn
      rw [hk k hk0 hkn, readAt_writeAt _ (by omega) (by omega) hk0]
      by_cases hki : k = i
      · subst hki
        have hc : covers k p = true := (covers_iff k p).2 ⟨h1, h2⟩
        have e1 : ¬ (k + lsb k ≤ k ∧ covers k p = true) := by intro h; omega
        have e2 : (k ≤ k ∧ covers k p = true) := ⟨le_refl _, hc⟩
        rw [if_neg e1, if_pos rfl, if_pos e2, hv]
        rfl
      · rw [if_neg hki]
        by_cases hlt : k < i
        · have e1 : ¬ (i + lsb i ≤ k ∧ covers k p = true) := by intro h; omega
          have e2 : ¬ (i ≤ k ∧ covers k p = true) := by intro h; omega
          rw [if_neg e1, if_neg e2]
        · by_cases hmid : k < i + lsb i
          · have hg := lsb_gap hi0 (by omega) hmid (by omega)
            have hc : ¬ covers k p = true := by
              intro h
              rw [covers_iff] at h
              exact absurd (lt_of_le_of_lt (le_trans h2 hg) h.1) (lt_irrefl _)
            have e1 : ¬ (i + lsb i ≤ k ∧ covers k p = true) := fun h => hc h.2
            have e2 : ¬ (i ≤ k ∧ covers k p = true) := fun h => hc h.2
            rw [if_neg e1, if_neg e2]
          · by_cases hc : covers k p = true
            · rw [if_pos ⟨by omega, hc⟩, if_pos ⟨by omega, hc⟩]
            · rw [if_neg (fun h => hc h.2), if_neg (fun h => hc h.2)]
    · simp only [Fenwick1D.updateStep, if_neg hin]
      refine ⟨fenw, rfl, rfl, ?_⟩
      intro k hk0 hkn
      have e : ¬ (i ≤ k ∧ covers k p = true) := by intro h; omega
      rw [if_neg e]

/-- An in-range `update` on a tree of size below `2^30` returns, keeps `n` and
the length of `fenw`, and adds `delta` at exactly the positions whose block
holds `i + 1`. -/
theorem update_spec {t : Fenwick1D} {fuel : Nat} {i : Int} (delta : Int)
    (hl : (t.fenw.length : Int) = t.n + 1) (hn : t.n < 1073741824)
    (hi0 : 0 ≤ i) (hi1 : i < t.n) (hf : t.n < (fuel : Int)) :
    ∃ fenw', t.update fuel i delta = .ok { fenw := fenw', n := t.n } ∧
      fenw'.length = t.fenw.length ∧
      ∀ k : Int, 0 ≤ k → k ≤ t.n →
        readAt fenw' k =
          if covers k (i + 1) = true then (readAt t.fenw k).map fun v => wrap32 (v + delta)
          else readAt t.fenw k := by
  have hw : wrap32 (i + 1) = i + 1 := wrap32_of_range (by omega) (by omega)
  have hlp := lsb_pos (x := i + 1) (by omega) (by omega)
  obtain ⟨fenw', hr, hlen, hk⟩ := updateLoop_spec delta (i + 1) hn (by omega) fuel t.fenw (i + 1)
    hl (by omega) (le_refl _) (by omega) (by omega) (by omega)
  refine ⟨fenw', ?_, hlen, ?_⟩
  · simp [Fenwick1D.update, hw, hr, Outcome.bind]
  · intro k hk0 hkn
    rw [hk k hk0 hkn]
    by_cases hc : covers k (i + 1) = true
    · have := (covers_iff _ _).1 hc
      simp [hc, this.2]
    · simp [hc]

/-! ## Sums of deltas -/

theorem sumWhere_nil (P : Int → Bool) : sumWhere P [] = 0 := rfl

theorem sumWhere_cons (P : Int → Bool) (op : Int × Int) (ops : List (Int × Int)) :
    sumWhere P (op :: ops) = (if P op.1 = true then op.2 else 0) + sumWhere P ops := by
  unfold sumWhere
  by_cases h : P op.1 = true
  · simp [List.filter_cons, h]
  · simp [List.filter_cons, h]

theorem sumWhere_append (P : Int → Bool) (xs ys : List (Int × Int)) :
    sumWhere P (xs ++ ys) = sumWhere P xs + sumWhere P ys := by
  unfold sumWhere
  simp [List.filter_append]

theorem sumWhere_eq_zero (P : Int → Bool) (ops : List (Int × Int))
    (h : ∀ op ∈ ops, P op.1 = false) : sumWhere P ops = 0 := by
  induction ops with
  | nil => rfl
  | cons op ops ih =>
    rw [sumWhere_cons, ih (fun o ho => h o (List.mem_cons_of_mem _ ho)),
      h op (List.mem_cons_self _ _)]
    simp

theorem sumWhere_congr (P Q : Int → Bool) (ops : List (Int × Int))
    (h : ∀ op ∈ ops, P op.1 = Q op.1) : sumWhere P ops = sumWhere Q ops := by
  induction ops with
  | nil => rfl
  | cons op ops ih =>
    rw [sumWhere_cons, sumWhere_cons, ih (fun o ho => h o (List.mem_cons_of_mem _ ho)),
      h op (List.mem_cons_self _ _)]

/-- A sum over a condition splits along two disjoint conditions that make it up. -/
theorem sumWhere_split (P Q R : Int → Bool) (ops : List (Int × Int))
    (h : ∀ op ∈ ops, (P op.1 = true ↔ (Q op.1 = true ∨ R op.1 = true)) ∧
      ¬ (Q op.1 = true ∧ R op.1 = true)) :
    sumWhere P ops = sumWhere Q ops + sumWhere R ops := by
  induction ops with
  | nil => rfl
  | cons op ops ih =>
    rw [sumWhere_cons, sumWhere_cons, sumWhere_cons,
      ih (fun o ho => h o (List.mem_cons_of_mem _ ho))]
    obtain ⟨h1, h2⟩ := h op (List.mem_cons_self _ _)
    by_cases hq : Q op.1 = true
    · have hr : ¬ R op.1 = true := fun hr => h2 ⟨hq, hr⟩
      have hp : P op.1 = true := h1.2 (Or.inl hq)
      rw [if_pos hq, if_neg hr, if_pos hp]; ring
    · by_cases hr : R op.1 = true
      · have hp : P op.1 = true := h1.2 (Or.inr hr)
        rw [if_neg hq, if_pos hr, if_pos hp]; ring
      · have hp : ¬ P op.1 = true := fun hp => (h1.1 hp).elim hq hr
        rw [if_neg hq, if_neg hr, if_neg hp]; ring

/-- The block of `i` and the prefix below the block make up the prefix up to `i`. -/
theorem blockSum_add_deltaSum (ops : List (Int × Int)) {i : Int} (h : 0 ≤ lsb i) :
    blockSum ops i + deltaSum ops (i - lsb i - 1) = deltaSum ops (i - 1) := by
  symm
  unfold blockSum deltaSum
  apply sumWhere_split
  intro op _
  simp only [covers_iff, decide_eq_true_eq]
  constructor
  · constructor
    · intro hp
      by_cases hc : op.1 ≤ i - lsb i - 1
      · exact Or.inr hc
      · exact Or.inl ⟨by omega, by omega⟩
    · rintro (hq | hr) <;> omega
  · rintro ⟨hq, hr⟩; omega

theorem deltaSum_neg_one (ops : List (Int × Int)) (h : ∀ op ∈ ops, 0 ≤ op.1) :
    deltaSum ops (-1) = 0 := by
  apply sumWhere_eq_zero
  intro op hop
  have := h op hop
  simp only [decide_eq_false_iff_not]
  omega

/-! ## The tree after a run of updates -/

theorem new_eq {n : Int} (h0 : 0 ≤ n) (h1 : n < 2147483647) :
    Fenwick1D.new n = some { fenw := List.replicate (n + 1).toNat 0, n := n } := by
  have hw : wrap32 (n + 1) = n + 1 := wrap32_of_range (by omega) (by omega)
  unfold Fenwick1D.new
  rw [hw, if_pos (by omega)]

theorem holdsBlocks_new {n : Int} (h0 : 0 ≤ n) :
    HoldsBlocks { fenw := List.replicate (n + 1).toNat 0, n := n } n [] := by
  refine ⟨rfl, ?_, ?_⟩
  · simp only [List.length_replicate]; omega
  · intro k hk0 hk1
    have : wrap32 (blockSum [] k) = 0 := by
      have e : blockSum [] k = 0 := rfl
      rw [e]; decide
    rw [this]
    exact readAt_replicate (by omega) (by omega)

theorem holdsBlocks_update {t : Fenwick1D} {n : Int} {ops : List (Int × Int)} {fuel : Nat}
    {i : Int} (delta : Int) (h : HoldsBlocks t n ops) (hn : n < 1073741824)
    (hi0 : 0 ≤ i) (hi1 : i < n) (hf : n < (fuel : Int)) :
    ∃ t', t.update fuel i delta = .ok t' ∧ HoldsBlocks t' n (ops ++ [(i, delta)]) := by
  obtain ⟨hn', hl, hk⟩ := h
  subst hn'
  obtain ⟨fenw', hr, hlen, hk'⟩ := update_spec delta hl hn hi0 hi1 hf
  refine ⟨_, hr, rfl, by simp only [hlen]; exact hl, ?_⟩
  intro k hk0 hk1
  show readAt fenw' k = _
  rw [hk' k (by omega) hk1, hk k hk0 hk1]
  unfold blockSum
  rw [sumWhere_append, sumWhere_cons, sumWhere_nil]
  by_cases hc : covers k (i + 1) = true
  · simp only [hc, if_true, Option.map_some', wrap32_add_left, add_zero]
  · simp [hc]

theorem holdsBlocks_updates {n : Int} {fuel : Nat} (hn : n < 1073741824)
    (hf : n < (fuel : Int)) :
    ∀ (ops : List (Int × Int)) (t : Fenwick1D) (past : List (Int × Int)),
      HoldsBlocks t n past → (∀ op ∈ ops, 0 ≤ op.1 ∧ op.1 < n) →
      ∃ t', t.updates fuel ops = .ok t' ∧ HoldsBlocks t' n (past ++ ops) := by
  intro ops
  induction ops with
  | nil =>
    intro t past h _
    exact ⟨t, rfl, by simpa using h⟩
  | cons op ops ih =>
    intro t past h hops
    obtain ⟨h0, h1⟩ := hops op (List.mem_cons_self _ _)
    obtain ⟨t1, hr1, hb1⟩ := holdsBlocks_update op.2 h hn h0 h1 hf
    obtain ⟨t', hr, hb⟩ := ih t1 (past ++ [(op.1, op.2)]) hb1
      (fun o ho => hops o (List.mem_cons_of_mem _ ho))
    refine ⟨t', ?_, by simpa using hb⟩
    simp only [Fenwick1D.updates, hr1, Outcome.bind, hr]

/-! ## The loop of `Fenwick1D::prefix_sum` -/

/-- On a tree that holds the block sums of `ops`, the summing loop started at
position `i` with running sum `s` returns `s` plus the deltas below `i`. -/
theorem prefixLoop_spec {n : Int} {fenw : List Int} {ops : List (Int × Int)}
    (hn : n < 2147483648) (hops : ∀ op ∈ ops, 0 ≤ op.1)
    (hinv : ∀ k : Int, 1 ≤ k → k ≤ n → readAt fenw k = some (wrap32 (blockSum ops k))) :
    ∀ (fuel : Nat) (i s : Int), 0 ≤ i → i ≤ n → i < (fuel : Int) → wrap32 s = s →
      runLoop (Fenwick1D.prefixStep fenw) fuel { i := i, sum := s } =
        .ok (wrap32 (s + deltaSum ops (i - 1))) := by
  intro fuel
  induction fuel with
  | zero => intro i s h0 _ hf _; simp at hf; omega
  | succ f ih =>
    intro i s h0 h1 hf hs
    rw [runLoop_succ]
    by_cases hi : 0 < i
    · have hlp := lsb_pos hi (by omega)
      have hll := lsb_le hi (by omega)
      have hw : wrap32 (i - lsb i) = i - lsb i := wrap32_of_range (by omega) (by omega)
      simp only [Fenwick1D.prefixStep, if_pos hi, hinv i (by omega) h1, hw]
      rw [ih (i - lsb i) _ (by omega) (by omega) (by push_cast at hf; omega) (wrap32_wrap32 _),
        wrap32_add_left, ← blockSum_add_deltaSum ops (le_of_lt hlp)]
      congr 1
      unfold wrap32; omega
    · have hi0 : i = 0 := by omega
      subst hi0
      simp only [Fenwick1D.prefixStep, lt_irrefl, if_false]
      have : deltaSum ops (0 - 1) = 0 := deltaSum_neg_one ops hops
      rw [this, add_zero, hs]

theorem prefix_sum_of_holdsBlocks {t : Fenwick1D} {n : Int} {ops : List (Int × Int)}
    {fuel : Nat} {j : Int} (h : HoldsBlocks t n ops) (hn : n < 2147483647)
    (hops : ∀ op ∈ ops, 0 ≤ op.1) (hj0 : -1 ≤ j) (hj1 : j < n) (hf : n < (fuel : Int)) :
    t.prefix_sum fuel j = .ok (wrap32 (deltaSum ops j)) := by
  obtain ⟨-, -, hk⟩ := h
  have hw : wrap32 (j + 1) = j + 1 := wrap32_of_range (by omega) (by omega)
  unfold Fenwick1D.prefix_sum
  rw [hw, prefixLoop_spec (by omega) hops hk fuel (j + 1) 0 (by omega) (by omega) (by omega)
    (by decide)]
  simp

/-! ## Sizes from `2^30` on: the position overflows -/

/-- From position `2^30` the loop of `update` steps to `2^31`, which wraps to
`-2^31`, still `<= n`, and `fenw[-2^31]` is outside the vector. -/
theorem updateLoop_overflow {n : Int} (delta : Int) {fenw : List Int}
    (hl : (fenw.length : Int) = n + 1) (hn : 1073741824 ≤ n) (fuel : Nat) :
    runLoop (Fenwick1D.updateStep n delta) (fuel + 2) { fenw := fenw, i := 1073741824 } =
      .fault := by
  obtain ⟨v, hv⟩ := readAt_eq_some (v := fenw) (i := 1073741824) (by omega) (by omega)
  have hstep : wrap32 (1073741824 + lsb 1073741824) = -2147483648 := by decide
  have hneg : (-2147483648 : Int) ≤ n := by omega
  rw [runLoop_succ]
  simp only [Fenwick1D.updateStep, if_pos hn, hv, hstep]
  rw [runLoop_succ]
  simp only [Fenwick1D.updateStep, if_pos hneg, readAt_eq_none_of_neg (show (-2147483648 : Int) < 0 by decide)]

theorem update_overflow {t : Fenwick1D} (delta : Int)
    (hl : (t.fenw.length : Int) = t.n + 1) (hn : 1073741824 ≤ t.n) :
    (∀ fuel : Nat, 2 ≤ fuel → t.update fuel 1073741823 delta = .fault) ∧
      ∀ (fuel : Nat) (t' : Fenwick1D), t.update fuel 1073741823 delta ≠ .ok t' := by
  have hw : wrap32 (1073741823 + 1) = 1073741824 := by decide
  have h2 : ∀ fuel : Nat, 2 ≤ fuel → t.update fuel 1073741823 delta = .fault := by
    intro fuel hf
    obtain ⟨g, rfl⟩ : ∃ g, fuel = g + 2 := ⟨fuel - 2, by omega⟩
    unfold Fenwick1D.update
    rw [hw, updateLoop_overflow delta hl hn g]
    rfl
  refine ⟨h2, ?_⟩
  intro fuel t' h
  by_cases hf : 2 ≤ fuel
  · rw [h2 fuel hf] at h; cases h
  · obtain ⟨v, hv⟩ := readAt_eq_some (v := t.fenw) (i := 1073741824) (by omega) (by omega)
    have hcase : fuel = 0 ∨ fuel = 1 := by omega
    rcases hcase with rfl | rfl
    · simp [Fenwick1D.update, runLoop, Outcome.bind] at h
    · unfold Fenwick1D.update at h
      rw [hw, runLoop_succ] at h
      simp only [Fenwick1D.updateStep, if_pos hn, hv] at h
      simp [runLoop, Outcome.bind] at h

/-- The fresh tree of size `2^30`. -/
theorem new_large :
    Fenwick1D.new 1073741824 =
      some { fenw := List.replicate 1073741825 0, n := 1073741824 } := 
  new_eq (by decide) (by decide)

theorem length_large :
    ((List.replicate 1073741825 (0 : Int)).length : Int) = 1073741824 + 1 := by
  rw [List.length_replicate]; rfl

theorem updates_overflow {t : Fenwick1D} (delta : Int)
    (hl : (t.fenw.length : Int) = t.n + 1) (hn : 1073741824 ≤ t.n) :
    t.updates 2 [(1073741823, delta)] = .fault ∧
      ∀ (fuel : Nat) (t' : Fenwick1D), t.updates fuel [(1073741823, delta)] ≠ .ok t' := by
  have hov := update_overflow delta hl hn
  constructor
  · simp only [Fenwick1D.updates, hov.1 2 (le_refl _), Outcome.bind]
  · intro fuel t' hr
    cases hu : Fenwick1D.update fuel t 1073741823 delta with
    | ok t1 => exact hov.2 fuel t1 hu
    | fault => simp [Fenwick1D.updates, hu, Outcome.bind] at hr
    | timeout => simp [Fenwick1D.updates, hu, Outcome.bind] at hr
/-! ## Claims about `prefix_sum` after a run of updates -/

/-- C1, for sizes below `2^30`: on the fresh tree of size `n`, after any run of
`update(i, delta)` calls with every `i` in `[0, n)`, `prefix_sum(j)` for `j` in
`[-1, n)` returns the sum of all deltas applied to positions `<= j`, reduced to
a 32-bit `int`; every call returns within `n + 1` passes of its loop. -/
theorem prefix_sum_correct (n : Int) (ops : List (Int × Int)) (j : Int) (fuel : Nat)
    (hn0 : 0 ≤ n) (hn1 : n < 1073741824) (hops : ∀ op ∈ ops, 0 ≤ op.1 ∧ op.1 < n)
    (hj0 : -1 ≤ j) (hj1 : j < n) (hf : n < (fuel : Int)) :
    ∃ t t', Fenwick1D.new n = some t ∧ t.updates fuel ops = .ok t' ∧
      t'.prefix_sum fuel j = .ok (wrap32 (deltaSum ops j)) := by
  obtain ⟨t', hr, hb⟩ := holdsBlocks_updates hn1 hf ops _ [] (holdsBlocks_new hn0) hops
  refine ⟨_, t', new_eq hn0 (by omega), hr, ?_⟩
  exact prefix_sum_of_holdsBlocks hb (by omega) (fun op hop => (hops op hop).1) hj0 hj1 hf

/-- C1 at size 5 after `update(0,5)`, `update(2,3)`, `update(4,1)`, for `prefix_sum(2)`. -/
theorem prefix_sum_correct_witness :
    ∃ t t', Fenwick1D.new 5 = some t ∧ t.updates 6 [(0, 5), (2, 3), (4, 1)] = .ok t' ∧
      t'.prefix_sum 6 2 = .ok (wrap32 (deltaSum [(0, 5), (2, 3), (4, 1)] 2)) :=
  prefix_sum_correct 5 [(0, 5), (2, 3), (4, 1)] 2 6 (by decide) (by decide) (by decide)
    (by decide) (by decide) (by decide)

/-- C1 as stated fails at size `2^30`: on the fresh tree of that size the
in-range call `update(2^30 - 1, 1)` faults, so no step bound lets the run
return and `prefix_sum(0)` has no tree to answer on. -/
theorem prefix_sum_correct_fails_at_large_size :
    (¬ ∃ (fuel : Nat) (t t' : Fenwick1D), Fenwick1D.new 1073741824 = some t ∧
        t.updates fuel [(1073741823, 1)] = .ok t' ∧
        t'.prefix_sum fuel 0 = .ok (wrap32 (deltaSum [(1073741823, 1)] 0))) ∧
      ∃ t, Fenwick1D.new 1073741824 = some t ∧ t.updates 2 [(1073741823, 1)] = .fault := by
  have hov := updates_overflow (t := { fenw := List.replicate 1073741825 0, n := 1073741824 }) 1
    length_large (le_refl _)
  constructor
  · rintro ⟨fuel, t, t', hnew, hr, -⟩
    rw [new_large] at hnew
    have ht := Option.some.inj hnew
    subst ht
    exact hov.2 fuel t' hr
  · exact ⟨_, new_large, hov.1⟩

/-! ## Claims about `range_sum` -/

theorem deltaSum_sub (ops : List (Int × Int)) {l r : Int} (h : l ≤ r) :
    deltaSum ops r = rangeDeltaSum ops l r + deltaSum ops (l - 1) := by
  unfold rangeDeltaSum deltaSum
  apply sumWhere_split
  intro op _
  simp only [Bool.and_eq_true, decide_eq_true_eq]
  constructor
  · constructor
    · intro hp
      by_cases hc : op.1 ≤ l - 1
      · exact Or.inr hc
      · exact Or.inl ⟨by omega, hp⟩
    · rintro (hq | hr) <;> omega
  · rintro ⟨hq, hr⟩; omega

theorem range_sum_of_holdsBlocks {t : Fenwick1D} {n : Int} {ops : List (Int × Int)}
    {fuel : Nat} {l r : Int} (h : HoldsBlocks t n ops) (hn : n < 2147483647)
    (hops : ∀ op ∈ ops, 0 ≤ op.1) (hl0 : 0 ≤ l) (hlr : l ≤ r) (hr : r < n)
    (hf : n < (fuel : Int)) :
    t.range_sum fuel l r = .ok (wrap32 (rangeDeltaSum ops l r)) := by
  have hw : wrap32 (l - 1) = l - 1 := wrap32_of_range (by omega) (by omega)
  unfold Fenwick1D.range_sum
  rw [if_neg (by omega), hw, prefix_sum_of_holdsBlocks h hn hops (by omega) hr hf,
    prefix_sum_of_holdsBlocks h hn hops (by omega) (by omega) hf]
  simp only [Outcome.bind]
  rw [wrap32_sub_left, wrap32_sub_right, deltaSum_sub ops hlr]
  congr 2
  ring

/-- C2, for sizes below `2^30`: on the fresh tree of size `n`, after any run of
in-range updates, `range_sum(l, r)` with `0 <= l <= r < n` returns the sum of
the deltas applied to positions `l..r`, reduced to a 32-bit `int`. -/
theorem range_sum_correct (n : Int) (ops : List (Int × Int)) (l r : Int) (fuel : Nat)
    (hn0 : 0 ≤ n) (hn1 : n < 1073741824) (hops : ∀ op ∈ ops, 0 ≤ op.1 ∧ op.1 < n)
    (hl0 : 0 ≤ l) (hlr : l ≤ r) (hr : r < n) (hf : n < (fuel : Int)) :
    ∃ t t', Fenwick1D.new n = some t ∧ t.updates fuel ops = .ok t' ∧
      t'.range_sum fuel l r = .ok (wrap32 (rangeDeltaSum ops l r)) := by
  obtain ⟨t', hrun, hb⟩ := holdsBlocks_updates hn1 hf ops _ [] (holdsBlocks_new hn0) hops
  refine ⟨_, t', new_eq hn0 (by omega), hrun, ?_⟩
  exact range_sum_of_holdsBlocks hb (by omega) (fun op hop => (hops op hop).1) hl0 hlr hr hf

/-- C2 at size 5 after `update(0,5)`, `update(2,3)`, `update(4,1)`, for `range_sum(1,3)`. -/
theorem range_sum_correct_witness :
    ∃ t t', Fenwick1D.new 5 = some t ∧ t.updates 6 [(0, 5), (2, 3), (4, 1)] = .ok t' ∧
      t'.range_sum 6 1 3 = .ok (wrap32 (rangeDeltaSum [(0, 5), (2, 3), (4, 1)] 1 3)) :=
  range_sum_correct 5 [(0, 5), (2, 3), (4, 1)] 1 3 6 (by decide) (by decide) (by decide)
    (by decide) (by decide) (by decide) (by decide)

/-- C2 as stated fails at size `2^30`: after the in-range call
`update(2^30 - 1, 7)` on the fresh tree there is no tree on which
`range_sum(0, 0)` could return, since that call faults. -/
theorem range_sum_correct_fails_at_large_size :
    (¬ ∃ (fuel : Nat) (t t' : Fenwick1D), Fenwick1D.new 1073741824 = some t ∧
        t.updates fuel [(1073741823, 7)] = .ok t' ∧
        t'.range_sum fuel 0 0 = .ok (wrap32 (rangeDeltaSum [(1073741823, 7)] 0 0))) ∧
      ∃ t, Fenwick1D.new 1073741824 = some t ∧ t.update 2 1073741823 7 = .fault := by
  have hov := updates_overflow (t := { fenw := List.replicate 1073741825 0, n := 1073741824 }) 7
    length_large (le_refl _)
  have hov' := update_overflow (t := { fenw := List.replicate 1073741825 0, n := 1073741824 }) 7
    length_large (le_refl _)
  constructor
  · rintro ⟨fuel, t, t', hnew, hr, -⟩
    rw [new_large] at hnew
    have ht := Option.some.inj hnew
    subst ht
    exact hov.2 fuel t' hr
  · exact ⟨_, new_large, hov'.1 2 (le_refl _)⟩

/-! ## The concrete scenario -/

/-- The scenario of C4 evaluated with the step bound 4. -/
theorem scenario_eval :
    (Fenwick1D.updates 4 { fenw := [0, 0, 0, 0, 0, 0], n := 5 } [(0, 5), (2, 3), (4, 1)] =
        .ok { fenw := [0, 5, 5, 3, 8, 1], n := 5 }) ∧
      Fenwick1D.prefix_sum 4 { fenw := [0, 5, 5, 3, 8, 1], n := 5 } 4 = .ok 9 ∧
      Fenwick1D.range_sum 4 { fenw := [0, 5, 5, 3, 8, 1], n := 5 } 1 3 = .ok 3 := by
  decide

/-- C4: on the fresh tree of size 5, `update(0,5)`, `update(2,3)`, `update(4,1)`
in that order return, and then `prefix_sum(0) = 5`, `prefix_sum(1) = 5`,
`prefix_sum(2) = 8`, `prefix_sum(4) = 9` and `range_sum(1,3) = 3`, under every
step bound above 5. -/
theorem scenario_size_five (fuel : Nat) (hf : 5 < fuel) :
    ∃ t t', Fenwick1D.new 5 = some t ∧ t.updates fuel [(0, 5), (2, 3), (4, 1)] = .ok t' ∧
      t'.prefix_sum fuel 0 = .ok 5 ∧ t'.prefix_sum fuel 1 = .ok 5 ∧
      t'.prefix_sum fuel 2 = .ok 8 ∧ t'.prefix_sum fuel 4 = .ok 9 ∧
      t'.range_sum fuel 1 3 = .ok 3 := by
  have hf' : (5 : Int) < (fuel : Int) := by exact_mod_cast hf
  have hops : ∀ op ∈ [((0 : Int), (5 : Int)), (2, 3), (4, 1)], 0 ≤ op.1 ∧ op.1 < 5 := by decide
  have hops0 : ∀ op ∈ [((0 : Int), (5 : Int)), (2, 3), (4, 1)], 0 ≤ op.1 :=
    fun op hop => (hops op hop).1
  obtain ⟨t', hrun, hb⟩ := holdsBlocks_updates (n := 5) (by decide) hf' _ _ []
    (holdsBlocks_new (by decide)) hops
  refine ⟨_, t', new_eq (by decide) (by decide), hrun, ?_, ?_, ?_, ?_, ?_⟩
  · rw [prefix_sum_of_holdsBlocks hb (by decide) hops0 (by decide) (by decide) hf']; decide
  · rw [prefix_sum_of_holdsBlocks hb (by decide) hops0 (by decide) (by decide) hf']; decide
  · rw [prefix_sum_of_holdsBlocks hb (by decide) hops0 (by decide) (by decide) hf']; decide
  · rw [prefix_sum_of_holdsBlocks hb (by decide) hops0 (by decide) (by decide) hf']; decide
  · rw [range_sum_of_holdsBlocks hb (by decide) hops0 (by decide) (by decide) (by decide) hf']
    decide

/-- C4 with the step bound 6. -/
theorem scenario_size_five_witness :
    ∃ t t', Fenwick1D.new 5 = some t ∧ t.updates 6 [(0, 5), (2, 3), (4, 1)] = .ok t' ∧
      t'.prefix_sum 6 0 = .ok 5 ∧ t'.prefix_sum 6 1 = .ok 5 ∧
      t'.prefix_sum 6 2 = .ok 8 ∧ t'.prefix_sum 6 4 = .ok 9 ∧
      t'.range_sum 6 1 3 = .ok 3 :=
  scenario_size_five 6 (by decide)

/-! ## Claims about every state -/

/-- On `n + 1` elements the summing loop started at a position in `[0, n]` returns. -/
theorem prefixLoop_returns {n : Int} {fenw : List Int} (hl : (fenw.length : Int) = n + 1)
    (hn : n < 2147483648) :
    ∀ (fuel : Nat) (i s : Int), 0 ≤ i → i ≤ n → i < (fuel : Int) →
      ∃ v, runLoop (Fenwick1D.prefixStep fenw) fuel { i := i, sum := s } = .ok v := by
  intro fuel
  induction fuel with
  | zero => intro i s h0 _ hf; simp at hf; omega
  | succ f ih =>
    intro i s h0 h1 hf
    rw [runLoop_succ]
    by_cases hi : 0 < i
    · have hlp := lsb_pos hi (by omega)
      have hll := lsb_le hi (by omega)
      have hw : wrap32 (i - lsb i) = i - lsb i := wrap32_of_range (by omega) (by omega)
      obtain ⟨v, hv⟩ := readAt_eq_some (v := fenw) (i := i) (by omega) (by omega)
      simp only [Fenwick1D.prefixStep, if_pos hi, hv, hw]
      exact ih (i - lsb i) _ (by omega) (by omega) (by push_cast at hf; omega)
    · simp only [Fenwick1D.prefixStep, if_neg hi]
      exact ⟨s, rfl⟩

theorem prefix_sum_returns {t : Fenwick1D} {fuel : Nat} {j : Int} (h : t.WF)
    (hj0 : -1 ≤ j) (hj1 : j < t.n) (hf : t.n < (fuel : Int)) :
    ∃ v, t.prefix_sum fuel j = .ok v := by
  obtain ⟨h0, h1, hl, -⟩ := h
  have hw : wrap32 (j + 1) = j + 1 := wrap32_of_range (by omega) (by omega)
  unfold Fenwick1D.prefix_sum
  rw [hw]
  exact prefixLoop_returns hl (by omega) fuel (j + 1) 0 (by omega) (by omega) (by omega)

/-- C5: in every state of a tree of size `n`, for `l, r` in `[0, n)`: if `l <= r`
then both `prefix_sum(r)` and `prefix_sum(l - 1)` return and `range_sum(l, r)`
returns their `int` difference (also for `l = 0`, through `prefix_sum(-1)`), and
if `l > r` then `range_sum(l, r)` returns 0. -/
theorem range_sum_eq (t : Fenwick1D) (l r : Int) (fuel : Nat) (h : t.WF)
    (hl0 : 0 ≤ l) (hl1 : l < t.n) (hr0 : 0 ≤ r) (hr1 : r < t.n) (hf : t.n < (fuel : Int)) :
    (l ≤ r → ∃ a b, t.prefix_sum fuel r = .ok a ∧ t.prefix_sum fuel (l - 1) = .ok b ∧
        t.range_sum fuel l r = .ok (wrap32 (a - b))) ∧
      (r < l → t.range_sum fuel l r = .ok 0) := by
  constructor
  · intro hlr
    obtain ⟨a, ha⟩ := prefix_sum_returns h (by omega) hr1 hf
    obtain ⟨b, hb⟩ := prefix_sum_returns (j := l - 1) h (by omega) (by omega) hf
    have hn := h.2.1
    have hw : wrap32 (l - 1) = l - 1 := wrap32_of_range (by omega) (by omega)
    refine ⟨a, b, ha, hb, ?_⟩
    unfold Fenwick1D.range_sum
    rw [if_neg (by omega), hw, ha, hb]
    rfl
  · intro hlr
    unfold Fenwick1D.range_sum
    rw [if_pos hlr]

/-- C5 on the tree of the concrete scenario, for `range_sum(0, 3)` and `range_sum(3, 0)`. -/
theorem range_sum_eq_witness :
    ((0 : Int) ≤ 3 → ∃ a b, Fenwick1D.prefix_sum 6 { fenw := [0, 5, 5, 3, 8, 1], n := 5 } 3 = .ok a ∧
        Fenwick1D.prefix_sum 6 { fenw := [0, 5, 5, 3, 8, 1], n := 5 } (0 - 1) = .ok b ∧
        Fenwick1D.range_sum 6 { fenw := [0, 5, 5, 3, 8, 1], n := 5 } 0 3 = .ok (wrap32 (a - b))) ∧
      ((3 : Int) < 0 → Fenwick1D.range_sum 6 { fenw := [0, 5, 5, 3, 8, 1], n := 5 } 0 3 = .ok 0) :=
  range_sum_eq { fenw := [0, 5, 5, 3, 8, 1], n := 5 } 0 3 6
    ⟨by decide, by decide, by decide, by decide⟩ (by decide) (by decide) (by decide) (by decide)
    (by decide)

/-- C6: in every state, so on the fresh tree and after any run of updates,
`prefix_sum(-1)` returns 0, and already the first test of the loop guard leaves
the loop, so that no element of `fenw` is read. -/
theorem prefix_sum_neg_one (t : Fenwick1D) (fuel : Nat) :
    Fenwick1D.prefixStep t.fenw { i := wrap32 (-1 + 1), sum := 0 } = .exit 0 ∧
      t.prefix_sum (fuel + 1) (-1) = .ok 0 := by
  have hw : wrap32 (-1 + 1) = 0 := by decide
  have hs : Fenwick1D.prefixStep t.fenw { i := 0, sum := 0 } = .exit 0 := by
    simp [Fenwick1D.prefixStep]
  refine ⟨by rw [hw, hs], ?_⟩
  unfold Fenwick1D.prefix_sum
  rw [hw, runLoop_succ, hs]

/-! ## Algebra of `update` -/

theorem wf_update {t : Fenwick1D} {fenw' : List Int} (delta i : Int) (h : t.WF)
    (hlen : fenw'.length = t.fenw.length)
    (hk : ∀ k : Int, 0 ≤ k → k ≤ t.n →
      readAt fenw' k =
        if covers k (i + 1) = true then (readAt t.fenw k).map fun v => wrap32 (v + delta)
        else readAt t.fenw k) :
    Fenwick1D.WF { fenw := fenw', n := t.n } := by
  obtain ⟨h0, h1, hl, hx⟩ := h
  refine ⟨h0, h1, by simp only [hlen]; exact hl, ?_⟩
  intro x hx'
  change x ∈ fenw' at hx'
  have hl' : (fenw'.length : Int) = t.n + 1 := by rw [hlen]; exact hl
  obtain ⟨m, hm⟩ := List.mem_iff_getElem?.1 hx'
  have hmlt : m < fenw'.length := by
    by_contra hc
    rw [List.getElem?_eq_none (by omega)] at hm
    cases hm
  have hr : readAt fenw' (m : Int) = some x := by simp [readAt, hm]
  rw [hk (m : Int) (by omega) (by omega)] at hr
  obtain ⟨v, hv⟩ := readAt_eq_some (v := t.fenw) (i := (m : Int)) (by omega) (by omega)
  rw [hv] at hr
  by_cases hc : covers (m : Int) (i + 1) = true
  · rw [if_pos hc] at hr
    rw [← Option.some.inj hr]
    exact wrap32_wrap32 _
  · rw [if_neg hc] at hr
    rw [← Option.some.inj hr]
    exact hx v (readAt_mem hv)

/-- An in-range `update` on a state of size below `2^30` returns a state, and
describes its elements. -/
theorem update_wf {t : Fenwick1D} {fuel : Nat} {i : Int} (delta : Int) (h : t.WF)
    (hn : t.n < 1073741824) (hi0 : 0 ≤ i) (hi1 : i < t.n) (hf : t.n < (fuel : Int)) :
    ∃ t', t.update fuel i delta = .ok t' ∧ t'.WF ∧ t'.n = t.n ∧
      ∀ k : Int, 0 ≤ k → k ≤ t.n → ∃ v, readAt t.fenw k = some v ∧
        readAt t'.fenw k = some (if covers k (i + 1) = true then wrap32 (v + delta) else v) := by
  obtain ⟨fenw', hr, hlen, hk⟩ := update_spec delta h.2.2.1 hn hi0 hi1 hf
  refine ⟨_, hr, wf_update delta i h hlen hk, rfl, ?_⟩
  intro k hk0 hk1
  obtain ⟨v, hv⟩ := readAt_eq_some (v := t.fenw) (i := k) hk0 (by have := h.2.2.1; omega)
  refine ⟨v, hv, ?_⟩
  show readAt fenw' k = _
  rw [hk k hk0 hk1, hv]
  by_cases hc : covers k (i + 1) = true
  · simp [hc]
  · simp [hc]

theorem state_ext {t u : Fenwick1D} (ht : t.WF) (hu : u.WF) (hn : u.n = t.n)
    (h : ∀ k : Int, 0 ≤ k → k ≤ t.n → readAt t.fenw k = readAt u.fenw k) : t = u := by
  obtain ⟨-, -, hlt, -⟩ := ht
  obtain ⟨-, -, hlu, -⟩ := hu
  have hfe : t.fenw = u.fenw :=
    list_ext_readAt (by omega) (fun k hk0 hk1 => h k hk0 (by omega))
  cases t; cases u
  simp only at hfe hn
  subst hfe hn
  rfl

/-- C7, for sizes below `2^30`: in every state, for `i` in `[0, n)`, the call
`update(i, 0)` returns the state it started from, so that every `prefix_sum(j)`
is what it was before. -/
theorem update_zero (t : Fenwick1D) (i : Int) (fuel : Nat) (h : t.WF)
    (hn : t.n < 1073741824) (hi0 : 0 ≤ i) (hi1 : i < t.n) (hf : t.n < (fuel : Int)) :
    t.update fuel i 0 = .ok t ∧
      ∀ t', t.update fuel i 0 = .ok t' → ∀ j : Int, -1 ≤ j → j < t.n →
        t'.prefix_sum fuel j = t.prefix_sum fuel j := by
  obtain ⟨t', hr, hwf, hn', hk⟩ := update_wf 0 h hn hi0 hi1 hf
  have ht : t = t' := by
    apply state_ext h hwf hn'
    intro k hk0 hk1
    obtain ⟨v, hv, hv'⟩ := hk k hk0 hk1
    rw [hv, hv']
    have hx : wrap32 v = v := h.2.2.2 v (readAt_mem hv)
    by_cases hc : covers k (i + 1) = true
    · simp [hc, hx]
    · simp [hc]
  subst ht
  refine ⟨hr, ?_⟩
  intro t' hr' j _ _
  rw [hr] at hr'
  cases hr'
  rfl

/-- C7 on the tree of the concrete scenario, for `update(2, 0)`. -/
theorem update_zero_witness :
    Fenwick1D.update 6 { fenw := [0, 5, 5, 3, 8, 1], n := 5 } 2 0 =
        .ok { fenw := [0, 5, 5, 3, 8, 1], n := 5 } ∧
      ∀ t', Fenwick1D.update 6 { fenw := [0, 5, 5, 3, 8, 1], n := 5 } 2 0 = .ok t' →
        ∀ j : Int, -1 ≤ j → j < 5 →
          t'.prefix_sum 6 j = Fenwick1D.prefix_sum 6 { fenw := [0, 5, 5, 3, 8, 1], n := 5 } j :=
  update_zero { fenw := [0, 5, 5, 3, 8, 1], n := 5 } 2 6
    ⟨by decide, by decide, by decide, by decide⟩ (by decide) (by decide) (by decide) (by decide)

theorem wf_large : Fenwick1D.WF { fenw := List.replicate 1073741825 0, n := 1073741824 } := by
  refine ⟨by decide, by decide, length_large, ?_⟩
  intro x hx
  rw [List.eq_of_mem_replicate hx]
  decide

/-- C7 as stated fails at size `2^30`: the fresh tree of that size is a state,
`1073741823` is in `[0, n)`, and `update(1073741823, 0)` faults instead of
returning the state unchanged. -/
theorem update_zero_fails_at_large_size :
    ∃ t : Fenwick1D, Fenwick1D.new 1073741824 = some t ∧ t.WF ∧ 1073741823 < t.n ∧
      t.update 2 1073741823 0 = .fault ∧ ∀ fuel : Nat, t.update fuel 1073741823 0 ≠ .ok t := by
  have hov := update_overflow (t := { fenw := List.replicate 1073741825 0, n := 1073741824 }) 0
    length_large (le_refl _)
  exact ⟨_, new_large, wf_large, by decide, hov.1 2 (le_refl _), fun fuel => hov.2 fuel _⟩

theorem covers_self {k : Int} (h0 : 0 < k) (h1 : k < 2147483648) : covers k k = true := by
  have := lsb_pos h0 h1
  rw [covers_iff]
  omega

/-- C8, for sizes below `2^30`: in every state, for `i` in `[0, n)` and deltas
`d1`, `d2`, the calls `update(i, d1)` then `update(i, d2)` return the state that
the single call `update(i, d1 + d2)` returns; and when `d1 = d2` is a nonzero
`int`, that state differs from the state after the first call. -/
theorem update_additive (t : Fenwick1D) (i d1 d2 : Int) (fuel : Nat) (h : t.WF)
    (hn : t.n < 1073741824) (hi0 : 0 ≤ i) (hi1 : i < t.n) (hf : t.n < (fuel : Int)) :
    ∃ t1 t2, t.update fuel i d1 = .ok t1 ∧ t1.update fuel i d2 = .ok t2 ∧
      t.update fuel i (wrap32 (d1 + d2)) = .ok t2 ∧
      (d1 = d2 → wrap32 d1 = d1 → d1 ≠ 0 → t2 ≠ t1) := by
  obtain ⟨t1, hr1, hwf1, hn1, hk1⟩ := update_wf d1 h hn hi0 hi1 hf
  have hf1 : t1.n < (fuel : Int) := by omega
  obtain ⟨t2, hr2, hwf2, hn2, hk2⟩ := update_wf d2 hwf1 (by omega) hi0 (by omega) hf1
  obtain ⟨t3, hr3, hwf3, hn3, hk3⟩ := update_wf (wrap32 (d1 + d2)) h hn hi0 hi1 hf
  have h23 : t3 = t2 := by
    apply state_ext hwf3 hwf2 (by omega)
    intro k hk0 hk
    obtain ⟨v, hv, hv1⟩ := hk1 k hk0 (by omega)
    obtain ⟨v', hv', hv2⟩ := hk2 k hk0 (by omega)
    obtain ⟨v'', hv'', hv3⟩ := hk3 k hk0 (by omega)
    rw [hv1] at hv'
    rw [hv] at hv''
    rw [hv2, hv3, ← Option.some.inj hv', ← Option.some.inj hv'']
    by_cases hc : covers k (i + 1) = true
    · simp only [hc, if_true]
      congr 1
      unfold wrap32; omega
    · simp only [hc]
      rfl
  subst h23
  refine ⟨t1, t3, hr1, hr2, hr3, ?_⟩
  intro hd hdr hd0 heq
  subst hd
  obtain ⟨v, hv, hv1⟩ := hk1 (i + 1) (by omega) (by omega)
  obtain ⟨v', hv', hv2⟩ := hk2 (i + 1) (by omega) (by omega)
  rw [heq, hv'] at hv2
  have hc := covers_self (k := i + 1) (by omega) (by omega)
  rw [if_pos hc] at hv2
  have hx : wrap32 v' = v' := hwf1.2.2.2 v' (readAt_mem hv')
  have := Option.some.inj hv2
  unfold wrap32 at this hx hdr
  omega

/-- C8 on the tree of the concrete scenario, for `update(2, 3)` twice. -/
theorem update_additive_witness :
    ∃ t1 t2, Fenwick1D.update 6 { fenw := [0, 5, 5, 3, 8, 1], n := 5 } 2 3 = .ok t1 ∧
      t1.update 6 2 3 = .ok t2 ∧
      Fenwick1D.update 6 { fenw := [0, 5, 5, 3, 8, 1], n := 5 } 2 (wrap32 (3 + 3)) = .ok t2 ∧
      ((3 : Int) = 3 → wrap32 3 = 3 → (3 : Int) ≠ 0 → t2 ≠ t1) :=
  update_additive { fenw := [0, 5, 5, 3, 8, 1], n := 5 } 2 3 3 6
    ⟨by decide, by decide, by decide, by decide⟩ (by decide) (by decide) (by decide) (by decide)

/-- C8 as stated fails at size `2^30`: on the fresh tree of that size, with
`1073741823` in `[0, n)`, the first call `update(1073741823, 1)` faults and no
step bound lets it return a state. -/
theorem update_additive_fails_at_large_size :
    ∃ t : Fenwick1D, Fenwick1D.new 1073741824 = some t ∧ t.WF ∧ 1073741823 < t.n ∧
      t.update 2 1073741823 1 = .fault ∧
      ∀ (fuel : Nat) (t1 : Fenwick1D), t.update fuel 1073741823 1 ≠ .ok t1 := by
  have hov := update_overflow (t := { fenw := List.replicate 1073741825 0, n := 1073741824 }) 1
    length_large (le_refl _)
  exact ⟨_, new_large, wf_large, by decide, hov.1 2 (le_refl _), hov.2⟩

/-! ## Indices outside `[0, n)` -/

/-- At position 0 the loop of `update` rewrites `fenw[0]` and stays at position
0, whatever the step bound. -/
theorem updateLoop_zero {n : Int} (delta : Int) (hn : 0 ≤ n) :
    ∀ (fuel : Nat) (fenw : List Int), 0 < fenw.length →
      runLoop (Fenwick1D.updateStep n delta) fuel { fenw := fenw, i := 0 } = .timeout := by
  intro fuel
  induction fuel with
  | zero => intro fenw _; rfl
  | succ f ih =>
    intro fenw hl
    obtain ⟨v, hv⟩ := readAt_eq_some (v := fenw) (i := 0) (le_refl _) (by omega)
    have hz : wrap32 (0 + lsb 0) = 0 := by decide
    rw [runLoop_succ]
    simp only [Fenwick1D.updateStep, if_pos hn, hv, hz]
    exact ih _ (by rw [length_writeAt]; exact hl)

/-- C9 as the code has it: in every state, for an `int` index `i`,
`update(i, delta)` reads outside `fenw` at once when `i < -1` and when
`i = 2^31 - 1` (where `i + 1` wraps to `-2^31`); for `i = -1` it never returns
and never leaves `fenw[0]`; and for `n <= i < 2^31 - 1` the loop guard fails at
once and the call returns the state unchanged. -/
theorem update_out_of_range (t : Fenwick1D) (i delta : Int) (h : t.WF)
    (hi0 : -2147483648 ≤ i) (hi1 : i ≤ 2147483647) :
    ((i < -1 ∨ i = 2147483647) → ∀ fuel : Nat, t.update (fuel + 1) i delta = .fault) ∧
      (i = -1 → ∀ fuel : Nat, t.update fuel i delta = .timeout) ∧
      (t.n ≤ i → i < 2147483647 → ∀ fuel : Nat, t.update (fuel + 1) i delta = .ok t) := by
  obtain ⟨h0, h1, hl, -⟩ := h
  refine ⟨?_, ?_, ?_⟩
  · intro hi fuel
    have hneg : wrap32 (i + 1) < 0 := by unfold wrap32; omega
    have hle : wrap32 (i + 1) ≤ t.n := by omega
    unfold Fenwick1D.update
    rw [runLoop_succ]
    simp only [Fenwick1D.updateStep, if_pos hle, readAt_eq_none_of_neg hneg]
    rfl
  · intro hi fuel
    subst hi
    have hw : wrap32 (-1 + 1) = 0 := by decide
    unfold Fenwick1D.update
    rw [hw, updateLoop_zero delta h0 fuel t.fenw (by omega)]
    rfl
  · intro hi hi' fuel
    have hw : wrap32 (i + 1) = i + 1 := wrap32_of_range (by omega) (by omega)
    have hgt : ¬ (i + 1 ≤ t.n) := by omega
    unfold Fenwick1D.update
    rw [hw, runLoop_succ]
    simp only [Fenwick1D.updateStep, if_neg hgt]
    rfl

/-- C9 on a tree of size 5 for the index 5. -/
theorem update_out_of_range_witness :
    (((5 : Int) < -1 ∨ (5 : Int) = 2147483647) → ∀ fuel : Nat,
        Fenwick1D.update (fuel + 1) { fenw := [0, 5, 5, 3, 8, 1], n := 5 } 5 1 = .fault) ∧
      ((5 : Int) = -1 → ∀ fuel : Nat,
        Fenwick1D.update fuel { fenw := [0, 5, 5, 3, 8, 1], n := 5 } 5 1 = .timeout) ∧
      ((5 : Int) ≤ 5 → (5 : Int) < 2147483647 → ∀ fuel : Nat,
        Fenwick1D.update (fuel + 1) { fenw := [0, 5, 5, 3, 8, 1], n := 5 } 5 1 =
          .ok { fenw := [0, 5, 5, 3, 8, 1], n := 5 }) :=
  update_out_of_range { fenw := [0, 5, 5, 3, 8, 1], n := 5 } 5 1
    ⟨by decide, by decide, by decide, by decide⟩ (by decide) (by decide)

/-- C9 as stated fails: on the fresh tree of size 5 the calls `update(5, 1)` and
`update(7, 1)`, with indices outside `[0, 5)`, leave the loop at the first test
of its guard and return the tree unchanged, and `update(-1, 1)` is still
running after 100 passes without a fault. -/
theorem update_out_of_range_completes :
    ∃ t : Fenwick1D, Fenwick1D.new 5 = some t ∧
      Fenwick1D.updateStep t.n 1 { fenw := t.fenw, i := wrap32 (5 + 1) } = .exit t.fenw ∧
      t.update 1 5 1 = .ok t ∧ t.update 1 7 1 = .ok t ∧ t.update 100 (-1) 1 = .timeout := by
  refine ⟨{ fenw := [0, 0, 0, 0, 0, 0], n := 5 }, by decide, by decide, by decide, by decide, ?_⟩
  decide

/-- C10 as the code has it: in every state, for an `int` index `i`,
`prefix_sum(i)` reads outside `fenw` at once when `n <= i < 2^31 - 1`; when
`i < -1`, and when `i = 2^31 - 1` (where `i + 1` wraps to `-2^31`), the loop
guard fails at once and the call returns 0 without reading `fenw`. -/
theorem prefix_sum_out_of_range (t : Fenwick1D) (i : Int) (h : t.WF)
    (hi0 : -2147483648 ≤ i) (hi1 : i ≤ 2147483647) :
    (t.n ≤ i → i < 2147483647 → ∀ fuel : Nat, t.prefix_sum (fuel + 1) i = .fault) ∧
      ((i < -1 ∨ i = 2147483647) →
        Fenwick1D.prefixStep t.fenw { i := wrap32 (i + 1), sum := 0 } = .exit 0 ∧
        ∀ fuel : Nat, t.prefix_sum (fuel + 1) i = .ok 0) := by
  obtain ⟨h0, h1, hl, -⟩ := h
  refine ⟨?_, ?_⟩
  · intro hi hi' fuel
    have hw : wrap32 (i + 1) = i + 1 := wrap32_of_range (by omega) (by omega)
    have hpos : 0 < i + 1 := by omega
    unfold Fenwick1D.prefix_sum
    rw [hw, runLoop_succ]
    simp only [Fenwick1D.prefixStep, if_pos hpos,
      readAt_eq_none_of_le (v := t.fenw) (i := i + 1) (by omega)]
  · intro hi
    have hneg : ¬ (0 < wrap32 (i + 1)) := by unfold wrap32; omega
    have hs : Fenwick1D.prefixStep t.fenw { i := wrap32 (i + 1), sum := 0 } = .exit 0 := by
      simp only [Fenwick1D.prefixStep, if_neg hneg]
    refine ⟨hs, ?_⟩
    intro fuel
    unfold Fenwick1D.prefix_sum
    rw [runLoop_succ, hs]

/-- C10 on a tree of size 5 for the index -3. -/
theorem prefix_sum_out_of_range_witness :
    ((5 : Int) ≤ -3 → (-3 : Int) < 2147483647 → ∀ fuel : Nat,
        Fenwick1D.prefix_sum (fuel + 1) { fenw := [0, 5, 5, 3, 8, 1], n := 5 } (-3) = .fault) ∧
      (((-3 : Int) < -1 ∨ (-3 : Int) = 2147483647) →
        Fenwick1D.prefixStep [0, 5, 5, 3, 8, 1] { i := wrap32 (-3 + 1), sum := 0 } = .exit 0 ∧
        ∀ fuel : Nat,
          Fenwick1D.prefix_sum (fuel + 1) { fenw := [0, 5, 5, 3, 8, 1], n := 5 } (-3) = .ok 0) :=
  prefix_sum_out_of_range { fenw := [0, 5, 5, 3, 8, 1], n := 5 } (-3)
    ⟨by decide, by decide, by decide, by decide⟩ (by decide) (by decide)

/-- C10 as stated fails: on the tree of the concrete scenario `prefix_sum(-2)`
and `prefix_sum(-2147483648)`, with indices below -1, leave the loop at the
first test of its guard and return 0; nothing is read. -/
theorem prefix_sum_out_of_range_returns :
    Fenwick1D.prefixStep [0, 5, 5, 3, 8, 1] { i := wrap32 (-2 + 1), sum := 0 } = .exit 0 ∧
      Fenwick1D.prefix_sum 1 { fenw := [0, 5, 5, 3, 8, 1], n := 5 } (-2) = .ok 0 ∧
      Fenwick1D.prefix_sum 1 { fenw := [0, 5, 5, 3, 8, 1], n := 5 } (-2147483648) = .ok 0 := by
  decide

/-! ## `Naive1D_SumOnQuery` against the reference sums -/

theorem holdsCells_new {n : Int} (h0 : 0 ≤ n) : HoldsCells (List.replicate n.toNat 0) n [] := by
  refine ⟨by simp only [List.length_replicate]; omega, ?_⟩
  intro k hk0 hk1
  have : wrap32 (cellSum [] k) = 0 := by
    have e : cellSum [] k = 0 := rfl
    rw [e]; decide
  rw [this]
  exact readAt_replicate hk0 (by omega)

theorem holdsCells_write {arr : List Int} {n : Int} {ops : List (Int × Int)} {i : Int}
    (delta : Int) (h : HoldsCells arr n ops) (hi0 : 0 ≤ i) (hi1 : i < n) :
    ∃ v, readAt arr i = some v ∧
      HoldsCells (writeAt arr i (wrap32 (v + delta))) n (ops ++ [(i, delta)]) := by
  obtain ⟨hl, hk⟩ := h
  refine ⟨_, hk i hi0 hi1, by rw [length_writeAt]; exact hl, ?_⟩
  intro k hk0 hk1
  rw [readAt_writeAt _ hi0 (by omega) hk0]
  unfold cellSum
  rw [sumWhere_append, sumWhere_cons, sumWhere_nil]
  by_cases hki : k = i
  · subst hki
    simp [wrap32_add_left]
  · have : ¬ i = k := fun h => hki h.symm
    rw [if_neg hki, hk k hk0 hk1]
    simp [this, cellSum]

theorem cellSum_add_range (ops : List (Int × Int)) {j i : Int} (h : j ≤ i) :
    cellSum ops j + rangeDeltaSum ops (j + 1) i = rangeDeltaSum ops j i := by
  symm
  unfold cellSum rangeDeltaSum
  apply sumWhere_split
  intro op _
  simp only [Bool.and_eq_true, decide_eq_true_eq]
  constructor
  · constructor
    · intro hp
      by_cases hc : op.1 = j
      · exact Or.inl hc
      · exact Or.inr ⟨by omega, hp.2⟩
    · rintro (hq | hr) <;> omega
  · rintro ⟨hq, hr⟩; omega

theorem rangeDeltaSum_empty (ops : List (Int × Int)) {j i : Int} (h : i < j) :
    rangeDeltaSum ops j i = 0 := by
  apply sumWhere_eq_zero
  intro op _
  simp only [Bool.and_eq_false_iff, decide_eq_false_iff_not]
  omega

theorem rangeDeltaSum_zero (ops : List (Int × Int)) (i : Int) (h : ∀ op ∈ ops, 0 ≤ op.1) :
    rangeDeltaSum ops 0 i = deltaSum ops i := by
  apply sumWhere_congr
  intro op hop
  have := h op hop
  simp [this]

/-- The loop of `Naive1D_SumOnQuery::prefix_sum` from `j` adds the cells `j..i`. -/
theorem naivePrefixLoop_spec {arr : List Int} {n : Int} {ops : List (Int × Int)} {i : Int}
    (h : HoldsCells arr n ops) (hn : n < 2147483648) (hi : i < n) :
    ∀ (fuel : Nat) (j s : Int), 0 ≤ j → j ≤ i + 1 → i + 1 - j < (fuel : Int) → wrap32 s = s →
      runLoop (Naive1D_SumOnQuery.prefixStep arr i) fuel { i := j, sum := s } =
        .ok (wrap32 (s + rangeDeltaSum ops j i)) := by
  intro fuel
  induction fuel with
  | zero => intro j s _ h1 hf _; simp at hf; omega
  | succ f ih =>
    intro j s h0 h1 hf hs
    rw [runLoop_succ]
    by_cases hji : j ≤ i
    · have hw : wrap32 (j + 1) = j + 1 := wrap32_of_range (by omega) (by omega)
      simp only [Naive1D_SumOnQuery.prefixStep, if_pos hji, h.2 j h0 (by omega), hw]
      rw [ih (j + 1) _ (by omega) (by omega) (by push_cast at hf; omega) (wrap32_wrap32 _),
        wrap32_add_left, ← cellSum_add_range ops hji]
      congr 1
      unfold wrap32; omega
    · simp only [Naive1D_SumOnQuery.prefixStep, if_neg hji]
      rw [rangeDeltaSum_empty ops (by omega), add_zero, hs]

theorem naive_prefix_sum_spec {t : Naive1D_SumOnQuery} {n : Int} {ops : List (Int × Int)}
    {fuel : Nat} {j : Int} (h : HoldsCells t.arr n ops) (hn : n < 2147483648)
    (hops : ∀ op ∈ ops, 0 ≤ op.1) (hj0 : -1 ≤ j) (hj1 : j < n) (hf : n < (fuel : Int)) :
    t.prefix_sum fuel j = .ok (wrap32 (deltaSum ops j)) := by
  unfold Naive1D_SumOnQuery.prefix_sum
  rw [naivePrefixLoop_spec h hn hj1 fuel 0 0 (le_refl _) (by omega) (by omega) (by decide),
    rangeDeltaSum_zero ops j hops]
  simp

/-! ## `Naive1D_PrefixArray` against the reference sums -/

theorem readAt_natCast (v : List Int) (m : Nat) : readAt v (m : Int) = v[m]? := by
  simp [readAt]

theorem writeAt_natCast (v : List Int) (m : Nat) (x : Int) :
    writeAt v (m : Int) x = v.set m x := by
  simp [writeAt]

theorem holdsPrefixes_new {n : Int} (h0 : 0 ≤ n) :
    HoldsPrefixes (List.replicate (n + 1).toNat 0) n [] := by
  refine ⟨by simp only [List.length_replicate]; omega, ?_⟩
  intro k hk0 hk1
  have : wrap32 (deltaSum [] (k - 1)) = 0 := by
    have e : deltaSum [] (k - 1) = 0 := rfl
    rw [e]; decide
  rw [this]
  exact readAt_replicate hk0 (by omega)

theorem deltaSum_succ (ops : List (Int × Int)) (k : Int) :
    deltaSum ops (k - 1) + cellSum ops k = deltaSum ops k := by
  symm
  unfold cellSum deltaSum
  apply sumWhere_split
  intro op _
  simp only [decide_eq_true_eq]
  constructor
  · constructor
    · intro hp
      by_cases hc : op.1 = k
      · exact Or.inr hc
      · exact Or.inl (by omega)
    · rintro (hq | hr) <;> omega
  · rintro ⟨hq, hr⟩; omega

theorem deltaSum_snoc_of_lt (ops : List (Int × Int)) {i k : Int} (delta : Int) (h : k < i) :
    deltaSum (ops ++ [(i, delta)]) k = deltaSum ops k := by
  unfold deltaSum
  rw [sumWhere_append, sumWhere_cons, sumWhere_nil]
  have : ¬ i ≤ k := by omega
  simp [this]

/-- The loop of `Naive1D_PrefixArray::update` from `j` on rewrites the sums
`j..n` from the cells. -/
theorem rebuildLoop_spec {arr : List Int} {n : Int} {past : List (Int × Int)}
    (harr : HoldsCells arr n past) (hn : n < 2147483647) :
    ∀ (fuel : Nat) (j : Nat) (sums : List Int), (sums.length : Int) = n + 1 → 1 ≤ j →
      (j : Int) ≤ n + 1 → n + 1 - (j : Int) < (fuel : Int) →
      (∀ k : Int, 0 ≤ k → k < j → readAt sums k = some (wrap32 (deltaSum past (k - 1)))) →
      ∃ sums', runLoop (Naive1D_PrefixArray.updateStep arr) fuel { sums := sums, j := j } =
          .ok sums' ∧ HoldsPrefixes sums' n past := by
  intro fuel
  induction fuel with
  | zero => intro j sums _ _ h1 hf _; simp at hf; omega
  | succ f ih =>
    intro j sums hl hj1 hj2 hf hk
    rw [runLoop_succ]
    by_cases hj : j < sums.length
    · have hidx : (j + 18446744073709551615) % 18446744073709551616 = j - 1 := by omega
      have hnext : (j + 1) % 18446744073709551616 = j + 1 := by omega
      have hp := hk ((j - 1 : Nat) : Int) (by omega) (by omega)
      have ha := harr.2 ((j - 1 : Nat) : Int) (by omega) (by omega)
      rw [readAt_natCast] at hp ha
      simp only [Naive1D_PrefixArray.updateStep, if_pos hj, hidx, hnext, hp, ha]
      apply ih (j + 1) _ (by simp only [List.length_set]; exact hl) (by omega)
        (by push_cast; omega) (by push_cast at hf ⊢; omega)
      intro k hk0 hk1
      rw [← writeAt_natCast, readAt_writeAt _ (by omega) (by omega) hk0]
      by_cases hkj : k = (j : Int)
      · rw [if_pos hkj]
        have e : ((j - 1 : Nat) : Int) = k - 1 := by omega
        rw [e, wrap32_add_left, wrap32_add_right, deltaSum_succ past (k - 1)]
      · rw [if_neg hkj]
        exact hk k hk0 (by push_cast at hk1; omega)
    · simp only [Naive1D_PrefixArray.updateStep, if_neg hj]
      exact ⟨sums, rfl, hl, fun k hk0 hk1 => hk k hk0 (by omega)⟩

theorem prefixArray_update_spec {t : Naive1D_PrefixArray} {n : Int} {past : List (Int × Int)}
    {fuel : Nat} {i : Int} (delta : Int) (ha : HoldsCells t.arr n past)
    (hp : HoldsPrefixes t.sums n past) (hn : n < 2147483647) (hi0 : 0 ≤ i) (hi1 : i < n)
    (hf : n < (fuel : Int)) :
    ∃ t', t.update fuel i delta = .ok t' ∧ HoldsCells t'.arr n (past ++ [(i, delta)]) ∧
      HoldsPrefixes t'.sums n (past ++ [(i, delta)]) := by
  obtain ⟨v, hv, ha'⟩ := holdsCells_write delta ha hi0 hi1
  have hw : wrap32 (i + 1) = i + 1 := wrap32_of_range (by omega) (by omega)
  have hj : toSizeT (i + 1) = (i + 1).toNat := by unfold toSizeT; omega
  obtain ⟨sums', hr, hp'⟩ := rebuildLoop_spec ha' hn fuel (i + 1).toNat t.sums hp.1 (by omega)
    (by omega) (by omega) (by
      intro k hk0 hk1
      rw [deltaSum_snoc_of_lt past delta (by omega)]
      exact hp.2 k hk0 (by omega))
  refine ⟨{ arr := writeAt t.arr i (wrap32 (v + delta)), sums := sums' }, ?_, ha', hp'⟩
  unfold Naive1D_PrefixArray.update
  simp only [hv, hw, hj, hr, Outcome.bind]

theorem prefixArray_prefix_sum_spec {t : Naive1D_PrefixArray} {n : Int}
    {past : List (Int × Int)} {j : Int} (hp : HoldsPrefixes t.sums n past)
    (hn : n < 2147483647) (hj0 : -1 ≤ j) (hj1 : j < n) :
    t.prefix_sum j = .ok (wrap32 (deltaSum past j)) := by
  have hw : wrap32 (j + 1) = j + 1 := wrap32_of_range (by omega) (by omega)
  unfold Naive1D_PrefixArray.prefix_sum
  rw [hw, hp.2 (j + 1) (by omega) (by omega)]
  simp

/-! ## The three structures on one workload -/

theorem inRange_update {n i delta : Int} (h : (Op.update i delta).inRange n = true) :
    0 ≤ i ∧ i < n := by
  simpa [Op.inRange] using h

theorem inRange_query {n j : Int} (h : (Op.query j).inRange n = true) : -1 ≤ j ∧ j < n := by
  simpa [Op.inRange] using h

theorem nonneg_snoc {past : List (Int × Int)} {i : Int} (delta : Int)
    (h : ∀ op ∈ past, 0 ≤ op.1) (hi : 0 ≤ i) : ∀ op ∈ past ++ [(i, delta)], 0 ≤ op.1 := by
  intro op hop
  rcases List.mem_append.1 hop with h' | h'
  · exact h op h'
  · rw [List.mem_singleton] at h'
    rw [h']; exact hi

theorem fenwick_run_spec {n : Int} {fuel : Nat} (hn : n < 1073741824) (hf : n < (fuel : Int)) :
    ∀ (ops : List Op) (t : Fenwick1D) (past : List (Int × Int)), HoldsBlocks t n past →
      (∀ op ∈ past, 0 ≤ op.1) → (∀ op ∈ ops, op.inRange n = true) →
      t.run fuel ops = .ok (refRun past ops) := by
  intro ops
  induction ops with
  | nil => intro t past _ _ _; rfl
  | cons op ops ih =>
    intro t past hb hpast hops
    have hop := hops op (List.mem_cons_self _ _)
    have hrest : ∀ o ∈ ops, o.inRange n = true := fun o ho => hops o (List.mem_cons_of_mem _ ho)
    cases op with
    | update i delta =>
      obtain ⟨hi0, hi1⟩ := inRange_update hop
      obtain ⟨t', hr, hb'⟩ := holdsBlocks_update delta hb hn hi0 hi1 hf
      simp only [Fenwick1D.run, hr, Outcome.bind, refRun]
      exact ih t' _ hb' (nonneg_snoc delta hpast hi0) hrest
    | query j =>
      obtain ⟨hj0, hj1⟩ := inRange_query hop
      simp only [Fenwick1D.run, refRun,
        prefix_sum_of_holdsBlocks hb (by omega) hpast hj0 hj1 hf, Outcome.bind,
        ih t past hb hpast hrest]

theorem sumOnQuery_run_spec {n : Int} {fuel : Nat} (hn : n < 2147483648)
    (hf : n < (fuel : Int)) :
    ∀ (ops : List Op) (t : Naive1D_SumOnQuery) (past : List (Int × Int)),
      HoldsCells t.arr n past → (∀ op ∈ past, 0 ≤ op.1) →
      (∀ op ∈ ops, op.inRange n = true) → t.run fuel ops = .ok (refRun past ops) := by
  intro ops
  induction ops with
  | nil => intro t past _ _ _; rfl
  | cons op ops ih =>
    intro t past hb hpast hops
    have hop := hops op (List.mem_cons_self _ _)
    have hrest : ∀ o ∈ ops, o.inRange n = true := fun o ho => hops o (List.mem_cons_of_mem _ ho)
    cases op with
    | update i delta =>
      obtain ⟨hi0, hi1⟩ := inRange_update hop
      obtain ⟨v, hv, hb'⟩ := holdsCells_write delta hb hi0 hi1
      simp only [Naive1D_SumOnQuery.run, Naive1D_SumOnQuery.update, hv, Outcome.bind, refRun]
      exact ih _ _ hb' (nonneg_snoc delta hpast hi0) hrest
    | query j =>
      obtain ⟨hj0, hj1⟩ := inRange_query hop
      simp only [Naive1D_SumOnQuery.run, refRun,
        naive_prefix_sum_spec hb hn hpast hj0 hj1 hf, Outcome.bind,
        ih t past hb hpast hrest]

theorem prefixArray_run_spec {n : Int} {fuel : Nat} (hn : n < 2147483647)
    (hf : n < (fuel : Int)) :
    ∀ (ops : List Op) (t : Naive1D_PrefixArray) (past : List (Int × Int)),
      HoldsCells t.arr n past → HoldsPrefixes t.sums n past →
      (∀ op ∈ ops, op.inRange n = true) → t.run fuel ops = .ok (refRun past ops) := by
  intro ops
  induction ops with
  | nil => intro t past _ _ _; rfl
  | cons op ops ih =>
    intro t past ha hp hops
    have hop := hops op (List.mem_cons_self _ _)
    have hrest : ∀ o ∈ ops, o.inRange n = true := fun o ho => hops o (List.mem_cons_of_mem _ ho)
    cases op with
    | update i delta =>
      obtain ⟨hi0, hi1⟩ := inRange_update hop
      obtain ⟨t', hr, ha', hp'⟩ := prefixArray_update_spec delta ha hp hn hi0 hi1 hf
      simp only [Naive1D_PrefixArray.run, hr, Outcome.bind, refRun]
      exact ih t' _ ha' hp' hrest
    | query j =>
      obtain ⟨hj0, hj1⟩ := inRange_query hop
      simp only [Naive1D_PrefixArray.run, refRun,
        prefixArray_prefix_sum_spec hp hn hj0 hj1, Outcome.bind, ih t past ha hp hrest]

/-- C3, for sizes below `2^30`: on every workload of `update(i, delta)` with `i`
in `[0, n)` and `prefix_sum(j)` with `j` in `[-1, n)`, run in the same order on
a fresh `Fenwick1D`, a fresh `Naive1D_SumOnQuery` and a fresh
`Naive1D_PrefixArray` of size `n`, the three runs return, and return the same
list of query results. -/
theorem cross_structure_equivalence (n : Int) (ops : List Op) (fuel : Nat)
    (hn0 : 0 ≤ n) (hn1 : n < 1073741824) (hops : ∀ op ∈ ops, op.inRange n = true)
    (hf : n < (fuel : Int)) :
    ∃ (f : Fenwick1D) (s : Naive1D_SumOnQuery) (p : Naive1D_PrefixArray) (results : List Int),
      Fenwick1D.new n = some f ∧ Naive1D_SumOnQuery.new n = some s ∧
      Naive1D_PrefixArray.new n = some p ∧ f.run fuel ops = .ok results ∧
      s.run fuel ops = .ok results ∧ p.run fuel ops = .ok results := by
  have hw : wrap32 (n + 1) = n + 1 := wrap32_of_range (by omega) (by omega)
  have hnil : ∀ op ∈ ([] : List (Int × Int)), 0 ≤ op.1 := fun op hop => by cases hop
  refine ⟨_, { arr := List.replicate n.toNat 0 },
    { arr := List.replicate n.toNat 0, sums := List.replicate (n + 1).toNat 0 },
    refRun [] ops, new_eq hn0 (by omega), ?_, ?_,
    fenwick_run_spec hn1 hf ops _ [] (holdsBlocks_new hn0) hnil hops,
    sumOnQuery_run_spec (by omega) hf ops _ [] (holdsCells_new hn0) hnil hops,
    prefixArray_run_spec (by omega) hf ops _ [] (holdsCells_new hn0) (holdsPrefixes_new hn0)
      hops⟩
  · unfold Naive1D_SumOnQuery.new
    rw [if_pos hn0]
  · unfold Naive1D_PrefixArray.new
    rw [hw, if_pos ⟨hn0, by omega⟩]

/-- C3 on size 5 for the workload of the concrete scenario with queries in between. -/
theorem cross_structure_equivalence_witness :
    ∃ (f : Fenwick1D) (s : Naive1D_SumOnQuery) (p : Naive1D_PrefixArray) (results : List Int),
      Fenwick1D.new 5 = some f ∧ Naive1D_SumOnQuery.new 5 = some s ∧
      Naive1D_PrefixArray.new 5 = some p ∧
      f.run 6 [.update 0 5, .query 0, .update 2 3, .query (-1), .update 4 1, .query 4] =
        .ok results ∧
      s.run 6 [.update 0 5, .query 0, .update 2 3, .query (-1), .update 4 1, .query 4] =
        .ok results ∧
      p.run 6 [.update 0 5, .query 0, .update 2 3, .query (-1), .update 4 1, .query 4] =
        .ok results :=
  cross_structure_equivalence 5
    [.update 0 5, .query 0, .update 2 3, .query (-1), .update 4 1, .query 4] 6
    (by decide) (by decide) (by decide) (by decide)

theorem fenwick_run_overflow {t : Fenwick1D} (delta : Int) (ops : List Op)
    (hl : (t.fenw.length : Int) = t.n + 1) (hn : 1073741824 ≤ t.n) :
    t.run 2 (.update 1073741823 delta :: ops) = .fault ∧
      ∀ (fuel : Nat) (results : List Int),
        t.run fuel (.update 1073741823 delta :: ops) ≠ .ok results := by
  have hov := update_overflow delta hl hn
  constructor
  · simp only [Fenwick1D.run, hov.1 2 (le_refl _), Outcome.bind]
  · intro fuel results hr
    cases hu : Fenwick1D.update fuel t 1073741823 delta with
    | ok t1 => exact hov.2 fuel t1 hu
    | fault => simp [Fenwick1D.run, hu, Outcome.bind] at hr
    | timeout => simp [Fenwick1D.run, hu, Outcome.bind] at hr

theorem sumOnQuery_run_large {t : Naive1D_SumOnQuery} {n : Int} (h : HoldsCells t.arr n [])
    (hn0 : 1073741824 ≤ n) (hn1 : n < 2147483648) :
    t.run 2 [.update 1073741823 1, .query 0] = .ok [0] := by
  obtain ⟨v, hv, hb⟩ := holdsCells_write (i := 1073741823) 1 h (by decide) (by omega)
  have hq := naivePrefixLoop_spec hb hn1 (i := 0) (by omega) 2 0 0 (le_refl _) (by decide)
    (by decide) (by decide)
  have he : wrap32 (0 + rangeDeltaSum ([] ++ [((1073741823 : Int), (1 : Int))]) 0 0) = 0 := by
    decide
  rw [he] at hq
  simp only [Naive1D_SumOnQuery.run, Naive1D_SumOnQuery.update, hv, Outcome.bind,
    Naive1D_SumOnQuery.prefix_sum, hq]

/-- C3 as stated fails at size `2^30`: on the workload `update(2^30 - 1, 1)`,
`prefix_sum(0)`, both in range, the run on the fresh `Fenwick1D` faults in the
update and returns no results under any step bound, while the run on the fresh
`Naive1D_SumOnQuery` returns the result 0. -/
theorem cross_structure_differs_at_large_size :
    ∃ (f : Fenwick1D) (s : Naive1D_SumOnQuery), Fenwick1D.new 1073741824 = some f ∧
      Naive1D_SumOnQuery.new 1073741824 = some s ∧
      f.run 2 [.update 1073741823 1, .query 0] = .fault ∧
      (∀ (fuel : Nat) (results : List Int),
        f.run fuel [.update 1073741823 1, .query 0] ≠ .ok results) ∧
      s.run 2 [.update 1073741823 1, .query 0] = .ok [0] := by
  have hov := fenwick_run_overflow
    (t := { fenw := List.replicate 1073741825 0, n := 1073741824 }) 1 [.query 0]
    length_large (le_refl _)
  refine ⟨_, { arr := List.replicate (1073741824 : Int).toNat 0 }, new_large, ?_, hov.1, hov.2,
    sumOnQuery_run_large (holdsCells_new (n := 1073741824) (by decide)) (le_refl _)
      (by decide)⟩
  unfold Naive1D_SumOnQuery.new
  rw [if_pos (by decide)]

/-! ## The lowest set bit -/

/-- C19: for every `int` `x` with `0 < x <= 2^31 - 1`, `lsb(x) = x & -x` is the
value of the lowest set bit of `x`: it is a power of two, it divides `x`, the
quotient `x / lsb(x)` is odd, and `1 <= lsb(x) <= x`; and `lsb(0) = 0`. -/
theorem lsb_lowest_set_bit (x : Int) (h0 : 0 < x) (h1 : x ≤ 2147483647) :
    (∃ k : Nat, lsb x = 2 ^ k) ∧ lsb x ∣ x ∧ (x / lsb x) % 2 = 1 ∧ 1 ≤ lsb x ∧ lsb x ≤ x ∧
      lsb 0 = 0 := by
  obtain ⟨t, ht, hd, hnd⟩ := lsb_spec h0 (by omega)
  have hp := lsb_pos h0 (by omega)
  have hl := lsb_le h0 (by omega)
  refine ⟨⟨t, ht⟩, by rw [ht]; exact hd, ?_, by omega, hl, lsb_zero⟩
  rw [ht]
  obtain ⟨q, hq⟩ := hd
  have h2 : (2 : Int) ^ t ≠ 0 := by positivity
  rw [hq, Int.mul_ediv_cancel_left _ h2]
  rcases Int.emod_two_eq q with h | h
  · exfalso
    apply hnd
    obtain ⟨q', hq'⟩ : (2 : Int) ∣ q := Int.dvd_of_emod_eq_zero h
    exact ⟨q', by rw [hq, hq', pow_succ]; ring⟩
  · exact h

/-- C19 at `x = 12`, whose lowest set bit is 4. -/
theorem lsb_lowest_set_bit_witness :
    (∃ k : Nat, lsb 12 = 2 ^ k) ∧ lsb 12 ∣ 12 ∧ (12 / lsb 12) % 2 = 1 ∧ 1 ≤ lsb 12 ∧
      lsb 12 ≤ 12 ∧ lsb 0 = 0 :=
  lsb_lowest_set_bit 12 (by decide) (by decide)

/-- The lowest set bit of some `int`s, evaluated. -/
theorem lsb_eval :
    lsb 12 = 4 ∧ lsb 1 = 1 ∧ lsb 2147483647 = 1 ∧ lsb 1073741824 = 1073741824 ∧
      lsb (-2147483648) = -2147483648 := by
  decide

/-! ## The call `update(-1, delta)` -/

theorem loopState_succ {σ ρ : Type} (step : σ → Step σ ρ) (k : Nat) (s : σ) :
    loopState step (k + 1) s =
      match step s with
      | .next s' => loopState step k s'
      | .exit _ => none
      | .fault => none := rfl

theorem loopEntries_succ {σ ρ : Type} (step : σ → Step σ ρ) (fuel : Nat) (s : σ) :
    loopEntries step (fuel + 1) s =
      match step s with
      | .next s' => s :: loopEntries step fuel s'
      | .exit _ => []
      | .fault => [s] := rfl

/-- From position 0 the loop of `update` has, after `k` passes, added
`k * delta` to `fenw[0]`, changed nothing else and is again at position 0. -/
theorem updateLoop_zero_state {n : Int} (delta : Int) (hn : 0 ≤ n) :
    ∀ (k : Nat) (fenw : List Int) (v : Int), readAt fenw 0 = some v → wrap32 v = v →
      ∃ fenw', loopState (Fenwick1D.updateStep n delta) k { fenw := fenw, i := 0 } =
          some { fenw := fenw', i := 0 } ∧
        fenw'.length = fenw.length ∧
        readAt fenw' 0 = some (wrap32 (v + k * delta)) ∧
        ∀ j : Int, 0 < j → readAt fenw' j = readAt fenw j := by
  intro k
  induction k with
  | zero =>
    intro fenw v hv hx
    exact ⟨fenw, rfl, rfl, by simp [hv, hx], fun _ _ => rfl⟩
  | succ k ih =>
    intro fenw v hv hx
    have hz : wrap32 (0 + lsb 0) = 0 := by decide
    have hlen : (0 : Int) < fenw.length := by
      by_contra hc
      rw [readAt_eq_none_of_le (by omega)] at hv
      cases hv
    have hv1 : readAt (writeAt fenw 0 (wrap32 (v + delta))) 0 = some (wrap32 (v + delta)) := by
      rw [readAt_writeAt _ (le_refl _) hlen (le_refl _), if_pos rfl]
    obtain ⟨fenw', hs, hl, h0, hj⟩ := ih (writeAt fenw 0 (wrap32 (v + delta)))
      (wrap32 (v + delta)) hv1 (wrap32_wrap32 _)
    refine ⟨fenw', ?_, by rw [hl, length_writeAt], ?_, ?_⟩
    · rw [loopState_succ]
      simp only [Fenwick1D.updateStep, if_pos hn, hv, hz]
      exact hs
    · rw [h0, wrap32_add_left]
      congr 2
      push_cast
      ring
    · intro j hj0
      rw [hj j hj0, readAt_writeAt _ (le_refl _) hlen (le_of_lt hj0), if_neg (by omega)]

/-- C18: on every tree with `n >= 0`, `update(-1, delta)` starts its loop at
position 0; after every number `k` of passes the loop is at position 0 again
with `k * delta` added to `fenw[0]` and nothing else changed, the guard
`0 <= n` holds and the next pass runs; so under no step bound does the call
return. -/
theorem update_neg_one_diverges (t : Fenwick1D) (delta : Int) (k : Nat) (h : t.WF) :
    ∃ (fenw' : List Int) (v : Int) (s' : UpdateLoop), readAt t.fenw 0 = some v ∧
      loopState (Fenwick1D.updateStep t.n delta) k { fenw := t.fenw, i := wrap32 (-1 + 1) } =
        some { fenw := fenw', i := 0 } ∧
      readAt fenw' 0 = some (wrap32 (v + k * delta)) ∧
      (∀ j : Int, 0 < j → readAt fenw' j = readAt t.fenw j) ∧
      (0 : Int) ≤ t.n ∧ lsb 0 = 0 ∧
      Fenwick1D.updateStep t.n delta { fenw := fenw', i := 0 } = .next s' ∧
      t.update k (-1) delta = .timeout := by
  obtain ⟨h0, h1, hl, hx⟩ := h
  obtain ⟨v, hv⟩ := readAt_eq_some (v := t.fenw) (i := 0) (le_refl _) (by omega)
  obtain ⟨fenw', hs, hlen, hr0, hj⟩ :=
    updateLoop_zero_state delta h0 k t.fenw v hv (hx v (readAt_mem hv))
  have hw : wrap32 (-1 + 1) = 0 := by decide
  refine ⟨fenw', v,
    { fenw := writeAt fenw' 0 (wrap32 (wrap32 (v + k * delta) + delta)), i := wrap32 (0 + lsb 0) },
    hv, by rw [hw]; exact hs, hr0, hj, h0, lsb_zero, ?_, ?_⟩
  · simp only [Fenwick1D.updateStep, if_pos h0, hr0]
  · unfold Fenwick1D.update
    rw [hw, updateLoop_zero delta h0 k t.fenw (by omega)]
    rfl

/-- C18 on the tree of the concrete scenario, for `update(-1, 2)` after 3 passes. -/
theorem update_neg_one_diverges_witness :
    ∃ (fenw' : List Int) (v : Int) (s' : UpdateLoop),
      readAt [0, 5, 5, 3, 8, 1] 0 = some v ∧
      loopState (Fenwick1D.updateStep 5 2) 3 { fenw := [0, 5, 5, 3, 8, 1], i := wrap32 (-1 + 1) } =
        some { fenw := fenw', i := 0 } ∧
      readAt fenw' 0 = some (wrap32 (v + (3 : Nat) * 2)) ∧
      (∀ j : Int, 0 < j → readAt fenw' j = readAt [0, 5, 5, 3, 8, 1] j) ∧
      (0 : Int) ≤ 5 ∧ lsb 0 = 0 ∧
      Fenwick1D.updateStep 5 2 { fenw := fenw', i := 0 } = .next s' ∧
      Fenwick1D.update 3 { fenw := [0, 5, 5, 3, 8, 1], n := 5 } (-1) 2 = .timeout :=
  update_neg_one_diverges { fenw := [0, 5, 5, 3, 8, 1], n := 5 } 2 3
    ⟨by decide, by decide, by decide, by decide⟩

/-- The loop of `update(-1, 2)` on the tree of the concrete scenario after 3 passes. -/
theorem update_neg_one_eval :
    loopState (Fenwick1D.updateStep 5 2) 3 { fenw := [0, 5, 5, 3, 8, 1], i := wrap32 (-1 + 1) } =
      some { fenw := [6, 5, 5, 3, 8, 1], i := 0 } := by
  decide

/-! ## Order of updates -/

/-- C17, for sizes below `2^30`: in every state, for `i, j` in `[0, n)` and
deltas `d1, d2`, the calls `update(i, d1)` then `update(j, d2)` return the same
state as `update(j, d2)` then `update(i, d1)`. -/
theorem update_commute (t : Fenwick1D) (i j d1 d2 : Int) (fuel : Nat) (h : t.WF)
    (hn : t.n < 1073741824) (hi0 : 0 ≤ i) (hi1 : i < t.n) (hj0 : 0 ≤ j) (hj1 : j < t.n)
    (hf : t.n < (fuel : Int)) :
    ∃ t1 t2 t12, t.update fuel i d1 = .ok t1 ∧ t1.update fuel j d2 = .ok t12 ∧
      t.update fuel j d2 = .ok t2 ∧ t2.update fuel i d1 = .ok t12 := by
  obtain ⟨t1, hr1, hwf1, hn1, hk1⟩ := update_wf d1 h hn hi0 hi1 hf
  obtain ⟨t2, hr2, hwf2, hn2, hk2⟩ := update_wf d2 h hn hj0 hj1 hf
  have hf1 : t1.n < (fuel : Int) := by omega
  have hf2 : t2.n < (fuel : Int) := by omega
  obtain ⟨t12, hr12, hwf12, hn12, hk12⟩ := update_wf d2 hwf1 (by omega) hj0 (by omega) hf1
  obtain ⟨t21, hr21, hwf21, hn21, hk21⟩ := update_wf d1 hwf2 (by omega) hi0 (by omega) hf2
  have heq : t21 = t12 := by
    apply state_ext hwf21 hwf12 (by omega)
    intro k hk0 hk
    obtain ⟨v, hv, hv1⟩ := hk1 k hk0 (by omega)
    obtain ⟨w, hw, hw2⟩ := hk2 k hk0 (by omega)
    obtain ⟨v', hv', hv12⟩ := hk12 k hk0 (by omega)
    obtain ⟨w', hw', hw21⟩ := hk21 k hk0 (by omega)
    rw [hv1] at hv'
    rw [hw2] at hw'
    rw [hv] at hw
    rw [hv12, hw21, ← Option.some.inj hv', ← Option.some.inj hw', ← Option.some.inj hw]
    by_cases hci : covers k (i + 1) = true <;> by_cases hcj : covers k (j + 1) = true
    · simp only [hci, hcj, if_true]
      congr 1
      unfold wrap32; omega
    · simp only [hci, hcj, if_true]
      rfl
    · simp only [hci, hcj, if_true]
      rfl
    · simp only [hci, hcj]
      rfl
  subst heq
  exact ⟨t1, t2, t21, hr1, hr12, hr2, hr21⟩

/-- C17 on the tree of the concrete scenario, for `update(0, 3)` and `update(2, -4)`. -/
theorem update_commute_witness :
    ∃ t1 t2 t12, Fenwick1D.update 6 { fenw := [0, 5, 5, 3, 8, 1], n := 5 } 0 3 = .ok t1 ∧
      t1.update 6 2 (-4) = .ok t12 ∧
      Fenwick1D.update 6 { fenw := [0, 5, 5, 3, 8, 1], n := 5 } 2 (-4) = .ok t2 ∧
      t2.update 6 0 3 = .ok t12 :=
  update_commute { fenw := [0, 5, 5, 3, 8, 1], n := 5 } 0 2 3 (-4) 6
    ⟨by decide, by decide, by decide, by decide⟩ (by decide) (by decide) (by decide) (by decide)
    (by decide) (by decide)

/-- C17 as stated fails at size `2^30`: in the fresh state of that size, with
`i = j = 1073741823` in `[0, n)`, `d1 = 1` and `d2 = 2`, the first call of
either order faults, so neither order returns a state. -/
theorem update_commute_fails_at_large_size :
    ∃ t : Fenwick1D, Fenwick1D.new 1073741824 = some t ∧ t.WF ∧ 1073741823 < t.n ∧
      t.update 2 1073741823 1 = .fault ∧ t.update 2 1073741823 2 = .fault ∧
      (∀ (fuel : Nat) (t1 : Fenwick1D), t.update fuel 1073741823 1 ≠ .ok t1) ∧
      ∀ (fuel : Nat) (t2 : Fenwick1D), t.update fuel 1073741823 2 ≠ .ok t2 := by
  have hov1 := update_overflow (t := { fenw := List.replicate 1073741825 0, n := 1073741824 }) 1
    length_large (le_refl _)
  have hov2 := update_overflow (t := { fenw := List.replicate 1073741825 0, n := 1073741824 }) 2
    length_large (le_refl _)
  exact ⟨_, new_large, wf_large, by decide, hov1.1 2 (le_refl _), hov2.1 2 (le_refl _),
    hov1.2, hov2.2⟩

/-! ## The chain of positions of `update` -/

theorem chain_succ (n : Int) (fuel : Nat) (j : Int) :
    chain n (fuel + 1) j = if j ≤ n then j :: chain n fuel (j + lsb j) else [] := rfl

theorem chain_bounds {n : Int} (hn : n < 1073741824) :
    ∀ (fuel : Nat) (j : Int), 0 < j → ∀ e ∈ chain n fuel j, j ≤ e ∧ e ≤ n := by
  intro fuel
  induction fuel with
  | zero => intro j _ e he; cases he
  | succ f ih =>
    intro j hj e he
    rw [chain_succ] at he
    by_cases hjn : j ≤ n
    · rw [if_pos hjn] at he
      rcases List.mem_cons.1 he with h | h
      · rw [h]; exact ⟨le_refl _, hjn⟩
      · have hlp := lsb_pos hj (by omega)
        have := ih (j + lsb j) (by omega) e h
        exact ⟨by omega, this.2⟩
    · rw [if_neg hjn] at he
      cases he

theorem chain_sorted {n : Int} (hn : n < 1073741824) :
    ∀ (fuel : Nat) (j : Int), 0 < j → (chain n fuel j).Pairwise (· < ·) := by
  intro fuel
  induction fuel with
  | zero => intro j _; exact List.Pairwise.nil
  | succ f ih =>
    intro j hj
    rw [chain_succ]
    by_cases hjn : j ≤ n
    · rw [if_pos hjn]
      have hlp := lsb_pos hj (by omega)
      refine List.Pairwise.cons ?_ (ih (j + lsb j) (by omega))
      intro e he
      have := (chain_bounds hn f (j + lsb j) (by omega) e he).1
      omega
    · rw [if_neg hjn]
      exact List.Pairwise.nil

/-- A chain that starts where the lowest set bit is at least `2^b` and has
`m + 1` positions reaches a position of at least `2^(b + m)`. -/
theorem chain_length {n : Int} (hn : n < 1073741824) :
    ∀ (fuel : Nat) (j : Int) (b : Nat), 0 < j → (2 : Int) ^ b ≤ lsb j →
      chain n fuel j = [] ∨ (2 : Int) ^ (b + (chain n fuel j).length - 1) ≤ n := by
  intro fuel
  induction fuel with
  | zero => intro j b _ _; exact Or.inl rfl
  | succ f ih =>
    intro j b hj hb
    rw [chain_succ]
    by_cases hjn : j ≤ n
    · rw [if_pos hjn]
      right
      have hlp := lsb_pos hj (by omega)
      have hll := lsb_le hj (by omega)
      have hnx := lsb_next hj (by omega) (by omega)
      have hb' : (2 : Int) ^ (b + 1) ≤ lsb (j + lsb j) := by
        rw [pow_succ]; omega
      rcases ih (j + lsb j) (b + 1) (by omega) hb' with h | h
      · rw [h]
        simp only [List.length_cons, List.length_nil]
        have : b + (0 + 1) - 1 = b := by omega
        rw [this]
        omega
      · simp only [List.length_cons]
        have hne : (chain n f (j + lsb j)).length ≠ 0 ∨ (chain n f (j + lsb j)).length = 0 := by
          omega
        rcases hne with hne | hne
        · have : b + ((chain n f (j + lsb j)).length + 1) - 1 =
              b + 1 + (chain n f (j + lsb j)).length - 1 := by omega
          rw [this]; exact h
        · rw [hne]
          have : b + (0 + 1) - 1 = b := by omega
          rw [this]
          omega
    · rw [if_neg hjn]
      exact Or.inl rfl

theorem chain_length_le_log {n : Int} (hn : n < 1073741824) (fuel : Nat)
    {j : Int} (hj : 0 < j) (hjn : j ≤ n) :
    (chain n fuel j).length ≤ Nat.log 2 n.toNat + 1 := by
  have hb : (2 : Int) ^ 0 ≤ lsb j := by
    have := lsb_pos hj (by omega)
    simp only [pow_zero]; omega
  rcases chain_length hn fuel j 0 hj hb with h | h
  · rw [h]; simp
  · have hc : ((2 ^ (0 + (chain n fuel j).length - 1) : Nat) : Int) ≤ n := by
      push_cast; exact h
    have hc' : 2 ^ (0 + (chain n fuel j).length - 1) ≤ n.toNat := by omega
    have hne : n.toNat ≠ 0 := by omega
    have := (Nat.pow_le_iff_le_log (by norm_num : 1 < 2) hne).1 hc'
    omega

/-- On a tree of size below `2^30` the loop of `update` started at a position
`i > 0` enters its body exactly at the positions of the chain from `i`, ends,
and has added `delta` at those positions and nowhere else. -/
theorem updateLoop_chain {n : Int} (delta : Int) (hn : n < 1073741824) :
    ∀ (fuel : Nat) (fenw : List Int) (i : Int), (fenw.length : Int) = n + 1 → 0 < i →
      0 < fuel → n + 1 - i < (fuel : Int) →
      (loopEntries (Fenwick1D.updateStep n delta) fuel { fenw := fenw, i := i }).map
          (fun s => s.i) = chain n fuel i ∧
        ∃ fenw', runLoop (Fenwick1D.updateStep n delta) fuel { fenw := fenw, i := i } =
            .ok fenw' ∧
          fenw'.length = fenw.length ∧
          ∀ k : Int, 0 ≤ k → k ≤ n →
            readAt fenw' k =
              if k ∈ chain n fuel i then (readAt fenw k).map fun v => wrap32 (v + delta)
              else readAt fenw k := by
  intro fuel
  induction fuel with
  | zero => intro fenw i _ _ hpos _; omega
  | succ f ih =>
    intro fenw i hl hi _ hf
    rw [runLoop_succ, loopEntries_succ, chain_succ]
    by_cases hin : i ≤ n
    · obtain ⟨v, hv⟩ := readAt_eq_some (v := fenw) (i := i) (by omega) (by omega)
      have hlp := lsb_pos hi (by omega)
      have hll := lsb_le hi (by omega)
      have hw : wrap32 (i + lsb i) = i + lsb i := wrap32_of_range (by omega) (by omega)
      obtain ⟨he, fenw', hr, hlen, hk⟩ := ih (writeAt fenw i (wrap32 (v + delta))) (i + lsb i)
        (by rw [length_writeAt]; exact hl) (by omega) (by omega)
        (by push_cast at hf ⊢; omega)
      have hnot : i ∉ chain n f (i + lsb i) := by
        intro hmem
        have := (chain_bounds hn f (i + lsb i) (by omega) i hmem).1
        omega
      simp only [Fenwick1D.updateStep, if_pos hin, hv, hw, List.map_cons, he]
      refine ⟨trivial, fenw', hr, by rw [hlen, length_writeAt], ?_⟩
      intro k hk0 hkn
      rw [hk k hk0 hkn, readAt_writeAt _ (by omega) (by omega) hk0]
      by_cases hki : k = i
      · subst hki
        rw [if_neg hnot, if_pos rfl, if_pos (List.mem_cons_self _ _), hv]
        rfl
      · rw [if_neg hki]
        by_cases hm : k ∈ chain n f (i + lsb i)
        · rw [if_pos hm, if_pos (List.mem_cons_of_mem _ hm)]
        · have hm' : k ∉ i :: chain n f (i + lsb i) := by
            intro h
            rcases List.mem_cons.1 h with h | h
            · exact hki h
            · exact hm h
          rw [if_neg hm, if_neg hm']
    · simp only [Fenwick1D.updateStep, if_neg hin, List.map_nil]
      refine ⟨trivial, fenw, rfl, rfl, ?_⟩
      intro k _ _
      simp

/-- An in-range `update` on a state of size below `2^30`: its accesses are the
chain from `i + 1`, and it returns the state with `delta` added there. -/
theorem update_chain {t : Fenwick1D} {fuel : Nat} {i : Int} (delta : Int) (h : t.WF)
    (hn : t.n < 1073741824) (hi0 : 0 ≤ i) (hi1 : i < t.n) (hf : t.n < (fuel : Int)) :
    t.updateTouches fuel i delta = chain t.n fuel (i + 1) ∧
      ∃ t', t.update fuel i delta = .ok t' ∧ t'.n = t.n ∧
        t'.fenw.length = t.fenw.length ∧
        ∀ k : Int, 0 ≤ k → k ≤ t.n → ∃ v, readAt t.fenw k = some v ∧
          readAt t'.fenw k =
            some (if k ∈ chain t.n fuel (i + 1) then wrap32 (v + delta) else v) := by
  have hw : wrap32 (i + 1) = i + 1 := wrap32_of_range (by omega) (by omega)
  obtain ⟨he, fenw', hr, hlen, hk⟩ := updateLoop_chain delta hn fuel t.fenw (i + 1) h.2.2.1
    (by omega) (by omega) (by omega)
  refine ⟨by unfold Fenwick1D.updateTouches; rw [hw, he],
    { fenw := fenw', n := t.n }, ?_, rfl, hlen, ?_⟩
  · unfold Fenwick1D.update
    rw [hw, hr]
    rfl
  · intro k hk0 hk1
    obtain ⟨v, hv⟩ := readAt_eq_some (v := t.fenw) (i := k) hk0 (by have := h.2.2.1; omega)
    refine ⟨v, hv, ?_⟩
    show readAt fenw' k = _
    rw [hk k hk0 hk1, hv]
    by_cases hc : k ∈ chain t.n fuel (i + 1)
    · simp [hc]
    · simp [hc]

/-! ## Set bits and the loop of `prefix_sum` -/

theorem popcountLow_succ (w m : Nat) :
    popcountLow (w + 1) m = m % 2 + popcountLow w (m / 2) := rfl

/-- Clearing the lowest set bit removes one set bit. -/
theorem popcountLow_clear (t : Nat) : ∀ (w p : Nat), 0 < p → p < 2 ^ w → 2 ^ t ∣ p →
    ¬ 2 ^ (t + 1) ∣ p → popcountLow w (p - 2 ^ t) + 1 = popcountLow w p := by
  induction t with
  | zero =>
    intro w p h0 hw _ hnd
    obtain ⟨w, rfl⟩ : ∃ v, w = v + 1 := by
      cases w with
      | zero => simp at hw; omega
      | succ v => exact ⟨v, rfl⟩
    have hodd : p % 2 = 1 := by
      simp only [zero_add, pow_one, Nat.dvd_iff_mod_eq_zero] at hnd
      omega
    rw [popcountLow_succ, popcountLow_succ, pow_zero]
    have e1 : (p - 1) % 2 = 0 := by omega
    have e2 : (p - 1) / 2 = p / 2 := by omega
    rw [e1, e2, hodd]; omega
  | succ t ih =>
    intro w p h0 hw hd hnd
    obtain ⟨w, rfl⟩ : ∃ v, w = v + 1 := by
      cases w with
      | zero => simp at hw; omega
      | succ v => exact ⟨v, rfl⟩
    obtain ⟨q, rfl⟩ : ∃ q, p = 2 * q := by
      obtain ⟨c, hc⟩ := hd
      exact ⟨2 ^ t * c, by rw [hc, pow_succ]; ring⟩
    have hq0 : 0 < q := by omega
    have hqw : q < 2 ^ w := by rw [pow_succ] at hw; omega
    have hqd : 2 ^ t ∣ q := by
      rw [pow_succ, mul_comm] at hd
      exact (Nat.mul_dvd_mul_iff_left (by norm_num)).1 hd
    have hqn : ¬ 2 ^ (t + 1) ∣ q := by
      intro h
      apply hnd
      rw [pow_succ 2 (t + 1), mul_comm]
      exact Nat.mul_dvd_mul_left 2 h
    have hle : 2 ^ t ≤ q := Nat.le_of_dvd hq0 hqd
    have e0 : 2 * q - 2 ^ (t + 1) = 2 * (q - 2 ^ t) := by rw [pow_succ]; omega
    rw [e0, popcountLow_succ, popcountLow_succ]
    have e1 : (2 * (q - 2 ^ t)) % 2 = 0 := by omega
    have e2 : (2 * (q - 2 ^ t)) / 2 = q - 2 ^ t := by omega
    have e3 : (2 * q) % 2 = 0 := by omega
    have e4 : (2 * q) / 2 = q := by omega
    rw [e1, e2, e3, e4, zero_add, zero_add]
    exact ih w q hq0 hqw hqd hqn

theorem popcountLow_le_log : ∀ (w m : Nat), 0 < m → popcountLow w m ≤ Nat.log 2 m + 1 := by
  intro w
  induction w with
  | zero => intro m _; simp [popcountLow]
  | succ w ih =>
    intro m hm
    rw [popcountLow_succ]
    by_cases h1 : m / 2 = 0
    · rw [h1]
      have : popcountLow w 0 = 0 := by
        clear ih
        induction w with
        | zero => rfl
        | succ v ihv => rw [popcountLow_succ, ihv]
      rw [this]
      omega
    · have := ih (m / 2) (by omega)
      have hlog : Nat.log 2 m = Nat.log 2 (m / 2) + 1 := by
        rw [Nat.log_div_base]
        have : 1 ≤ Nat.log 2 m := Nat.log_pos (by norm_num) (by omega)
        omega
      omega

theorem popcount_zero : popcount 0 = 0 := by decide

theorem popcount_clear {x : Int} (h0 : 0 < x) (h1 : x < 2147483648) :
    popcount (x - lsb x) + 1 = popcount x := by
  obtain ⟨t, ht, hd, hnd⟩ := lsb_spec h0 h1
  have hll := lsb_le h0 h1
  have hlp := lsb_pos h0 h1
  obtain ⟨a, rfl⟩ : ∃ a : Nat, x = (a : Int) := ⟨x.toNat, by omega⟩
  have hda : 2 ^ t ∣ a := by
    have : ((2 ^ t : Nat) : Int) ∣ (a : Int) := by push_cast; exact hd
    exact Int.natCast_dvd_natCast.1 this
  have hna : ¬ 2 ^ (t + 1) ∣ a := by
    intro h
    apply hnd
    have : ((2 ^ (t + 1) : Nat) : Int) ∣ (a : Int) := Int.natCast_dvd_natCast.2 h
    simpa using this
  have hle : 2 ^ t ≤ a := Nat.le_of_dvd (by omega) hda
  have e1 : bits32 (a : Int) = a := by unfold bits32; omega
  have e2 : bits32 ((a : Int) - lsb (a : Int)) = a - 2 ^ t := by
    rw [ht]
    have hc : ((2 ^ t : Nat) : Int) = (2 : Int) ^ t := by push_cast; rfl
    rw [← hc]
    unfold bits32
    omega
  unfold popcount
  rw [e1, e2]
  exact popcountLow_clear t 32 a (by omega) (by norm_num; omega) hda hna

theorem popcount_le_log {x n : Int} (h0 : 0 ≤ x) (hxn : x ≤ n) (hn : n < 2147483648) :
    popcount x ≤ Nat.log 2 n.toNat + 1 := by
  by_cases hx : x = 0
  · rw [hx, popcount_zero]; omega
  · have e1 : bits32 x = x.toNat := by unfold bits32; omega
    unfold popcount
    rw [e1]
    have := popcountLow_le_log 32 x.toNat (by omega)
    have hm : Nat.log 2 x.toNat ≤ Nat.log 2 n.toNat := Nat.log_mono_right (by omega)
    omega

/-- On `n + 1` elements the summing loop started at a position `i` in `[0, n]`
enters its body `popcount i` times, always at positions in `[1, i]`, is at
position 0 after these passes and then returns. -/
theorem prefixLoop_passes {n : Int} {fenw : List Int} (hl : (fenw.length : Int) = n + 1)
    (hn : n < 2147483648) :
    ∀ (fuel : Nat) (i s : Int), 0 ≤ i → i ≤ n → i < (fuel : Int) →
      (loopEntries (Fenwick1D.prefixStep fenw) fuel { i := i, sum := s }).length = popcount i ∧
        (∀ e ∈ loopEntries (Fenwick1D.prefixStep fenw) fuel { i := i, sum := s },
          1 ≤ e.i ∧ e.i ≤ i) ∧
        ∃ v, loopState (Fenwick1D.prefixStep fenw) (popcount i) { i := i, sum := s } =
            some { i := 0, sum := v } ∧
          runLoop (Fenwick1D.prefixStep fenw) fuel { i := i, sum := s } = .ok v := by
  intro fuel
  induction fuel with
  | zero => intro i s h0 _ hf; simp at hf; omega
  | succ f ih =>
    intro i s h0 h1 hf
    rw [runLoop_succ, loopEntries_succ]
    by_cases hi : 0 < i
    · have hlp := lsb_pos hi (by omega)
      have hll := lsb_le hi (by omega)
      have hw : wrap32 (i - lsb i) = i - lsb i := wrap32_of_range (by omega) (by omega)
      obtain ⟨v, hv⟩ := readAt_eq_some (v := fenw) (i := i) (by omega) (by omega)
      have hpc := popcount_clear hi (show i < 2147483648 by omega)
      obtain ⟨hlen, hmem, r, hs, hr⟩ := ih (i - lsb i) (wrap32 (s + v)) (by omega) (by omega)
        (by push_cast at hf; omega)
      have hstep : Fenwick1D.prefixStep fenw { i := i, sum := s } =
          .next { i := i - lsb i, sum := wrap32 (s + v) } := by
        simp only [Fenwick1D.prefixStep, if_pos hi, hv, hw]
      rw [hstep]
      refine ⟨by simp only [List.length_cons, hlen]; exact hpc, ?_, r, ?_, hr⟩
      · intro e he
        rcases List.mem_cons.1 he with h | h
        · rw [h]; exact ⟨hi, le_refl _⟩
        · have := hmem e h
          exact ⟨this.1, by omega⟩
      · rw [← hpc, loopState_succ, hstep]
        exact hs
    · have hi0 : i = 0 := by omega
      subst hi0
      have hstep : Fenwick1D.prefixStep fenw { i := 0, sum := s } = .exit s := by
        simp only [Fenwick1D.prefixStep, lt_irrefl, if_false]
      rw [hstep, popcount_zero]
      exact ⟨rfl, fun e he => absurd he (List.not_mem_nil e), s, rfl, rfl⟩

theorem prefix_sum_passes {t : Fenwick1D} {fuel : Nat} {j : Int} (h : t.WF)
    (hj0 : -1 ≤ j) (hj1 : j < t.n) (hf : t.n < (fuel : Int)) :
    (t.prefixTouches fuel j).length = popcount (j + 1) ∧
      (∀ k ∈ t.prefixTouches fuel j, 1 ≤ k ∧ k ≤ j + 1) ∧
      ∃ v, loopState (Fenwick1D.prefixStep t.fenw) (popcount (j + 1))
            { i := wrap32 (j + 1), sum := 0 } = some { i := 0, sum := v } ∧
        t.prefix_sum fuel j = .ok v := by
  obtain ⟨h0, h1, hl, -⟩ := h
  have hw : wrap32 (j + 1) = j + 1 := wrap32_of_range (by omega) (by omega)
  obtain ⟨hlen, hmem, v, hs, hr⟩ := prefixLoop_passes hl (by omega) fuel (j + 1) 0 (by omega)
    (by omega) (by omega)
  unfold Fenwick1D.prefixTouches Fenwick1D.prefix_sum
  rw [hw]
  refine ⟨by rw [List.length_map]; exact hlen, ?_, v, hs, hr⟩
  intro k hk
  obtain ⟨e, he, rfl⟩ := List.mem_map.1 hk
  exact hmem e he

theorem updateTouches_overflow {t : Fenwick1D} (delta : Int)
    (hl : (t.fenw.length : Int) = t.n + 1) (hn : 1073741824 ≤ t.n) (fuel : Nat) :
    t.updateTouches (fuel + 2) 1073741823 delta = [1073741824, -2147483648] := by
  obtain ⟨v, hv⟩ := readAt_eq_some (v := t.fenw) (i := 1073741824) (by omega) (by omega)
  have hw : wrap32 (1073741823 + 1) = 1073741824 := by decide
  have hstep : wrap32 (1073741824 + lsb 1073741824) = -2147483648 := by decide
  have hneg : (-2147483648 : Int) ≤ t.n := by omega
  unfold Fenwick1D.updateTouches
  rw [hw, loopEntries_succ]
  simp only [Fenwick1D.updateStep, if_pos hn, hv, hstep]
  rw [loopEntries_succ]
  simp only [Fenwick1D.updateStep, if_pos hneg,
    readAt_eq_none_of_neg (show (-2147483648 : Int) < 0 by decide), List.map_cons, List.map_nil]

/-! ## Work, frame and bounds of the calls -/

/-- C11, with the bound `n < 2^30` for `update`: in every state of size
`n >= 1`, `update(i, delta)` with `i` in `[0, n)` enters its loop body at most
`floor(log2 n) + 1` times and then returns; `prefix_sum(j)` with `j` in
`[-1, n)` enters its loop body exactly `popcount(j + 1)` times, which is at most
`floor(log2 n) + 1`, is then at position 0 and returns. -/
theorem logarithmic_work (t : Fenwick1D) (i j delta : Int) (fuel : Nat) (h : t.WF)
    (hn : 1 ≤ t.n) (hi0 : 0 ≤ i) (hi1 : i < t.n) (hj0 : -1 ≤ j) (hj1 : j < t.n)
    (hf : t.n < (fuel : Int)) :
    (t.n < 1073741824 →
        (t.updateTouches fuel i delta).length ≤ Nat.log 2 t.n.toNat + 1 ∧
        ∃ t', t.update fuel i delta = .ok t') ∧
      (t.prefixTouches fuel j).length = popcount (j + 1) ∧
      popcount (j + 1) ≤ Nat.log 2 t.n.toNat + 1 ∧
      ∃ v, loopState (Fenwick1D.prefixStep t.fenw) (popcount (j + 1))
            { i := wrap32 (j + 1), sum := 0 } = some { i := 0, sum := v } ∧
        t.prefix_sum fuel j = .ok v := by
  obtain ⟨hlen, -, hv⟩ := prefix_sum_passes h hj0 hj1 hf
  refine ⟨?_, hlen, popcount_le_log (by omega) (by omega) (by have := h.2.1; omega), hv⟩
  intro hn30
  obtain ⟨ht, t', hr, -⟩ := update_chain delta h hn30 hi0 hi1 hf
  rw [ht]
  exact ⟨chain_length_le_log hn30 fuel (by omega) (by omega), t', hr⟩

/-- C11 on the tree of the concrete scenario, for `update(0, 1)` and `prefix_sum(4)`. -/
theorem logarithmic_work_witness :
    ((5 : Int) < 1073741824 →
        (Fenwick1D.updateTouches 6 { fenw := [0, 5, 5, 3, 8, 1], n := 5 } 0 1).length ≤
          Nat.log 2 (5 : Int).toNat + 1 ∧
        ∃ t', Fenwick1D.update 6 { fenw := [0, 5, 5, 3, 8, 1], n := 5 } 0 1 = .ok t') ∧
      (Fenwick1D.prefixTouches 6 { fenw := [0, 5, 5, 3, 8, 1], n := 5 } 4).length =
        popcount (4 + 1) ∧
      popcount (4 + 1) ≤ Nat.log 2 (5 : Int).toNat + 1 ∧
      ∃ v, loopState (Fenwick1D.prefixStep [0, 5, 5, 3, 8, 1]) (popcount (4 + 1))
            { i := wrap32 (4 + 1), sum := 0 } = some { i := 0, sum := v } ∧
        Fenwick1D.prefix_sum 6 { fenw := [0, 5, 5, 3, 8, 1], n := 5 } 4 = .ok v :=
  logarithmic_work { fenw := [0, 5, 5, 3, 8, 1], n := 5 } 0 4 1 6
    ⟨by decide, by decide, by decide, by decide⟩ (by decide) (by decide) (by decide) (by decide)
    (by decide) (by decide)

/-- The accesses of the concrete scenario's tree in `update(0, 1)` and `prefix_sum(4)`. -/
theorem touches_eval :
    Fenwick1D.updateTouches 6 { fenw := [0, 5, 5, 3, 8, 1], n := 5 } 0 1 = [1, 2, 4] ∧
      Fenwick1D.prefixTouches 6 { fenw := [0, 5, 5, 3, 8, 1], n := 5 } 4 = [5, 4] ∧
      popcount 5 = 2 ∧ chain 5 6 1 = [1, 2, 4] := by
  decide

/-- C11 as stated fails at size `2^30`: in the fresh state of that size the
in-range call `update(1073741823, 1)` does not terminate normally: its second
pass reads `fenw[-2147483648]`. -/
theorem logarithmic_work_fails_at_large_size :
    ∃ t : Fenwick1D, Fenwick1D.new 1073741824 = some t ∧ t.WF ∧ 1073741823 < t.n ∧
      t.updateTouches 2 1073741823 1 = [1073741824, -2147483648] ∧
      t.update 2 1073741823 1 = .fault ∧
      ∀ (fuel : Nat) (t' : Fenwick1D), t.update fuel 1073741823 1 ≠ .ok t' := by
  have hov := update_overflow (t := { fenw := List.replicate 1073741825 0, n := 1073741824 }) 1
    length_large (le_refl _)
  exact ⟨_, new_large, wf_large, by decide,
    updateTouches_overflow 1 length_large (le_refl _) 0, hov.1 2 (le_refl _), hov.2⟩

/-- C14, for sizes below `2^30`: in every state, for `i` in `[0, n)`,
`update(i, delta)` accesses `fenw` exactly at the chain `i + 1`,
`j + lsb(j)`, ... of positions `<= n`, each once, and returns the state in which
`delta` is added to `fenw[j]` for each `j` of the chain while every other
element, `fenw[0]` among them, the length of `fenw` and the size `n` are as
before. -/
theorem update_frame (t : Fenwick1D) (i delta : Int) (fuel : Nat) (h : t.WF)
    (hn : t.n < 1073741824) (hi0 : 0 ≤ i) (hi1 : i < t.n) (hf : t.n < (fuel : Int)) :
    t.updateTouches fuel i delta = chain t.n fuel (i + 1) ∧
      (chain t.n fuel (i + 1)).Nodup ∧ 0 ∉ chain t.n fuel (i + 1) ∧
      ∃ t', t.update fuel i delta = .ok t' ∧ t'.n = t.n ∧
        t'.fenw.length = t.fenw.length ∧
        ∀ k : Int, 0 ≤ k → k ≤ t.n → ∃ v, readAt t.fenw k = some v ∧
          readAt t'.fenw k =
            some (if k ∈ chain t.n fuel (i + 1) then wrap32 (v + delta) else v) := by
  obtain ⟨ht, hrest⟩ := update_chain delta h hn hi0 hi1 hf
  refine ⟨ht, ?_, ?_, hrest⟩
  · exact (chain_sorted hn fuel (i + 1) (by omega)).imp (fun hab => ne_of_lt hab)
  · intro hmem
    have := (chain_bounds hn fuel (i + 1) (by omega) 0 hmem).1
    omega

/-- C14 on the tree of the concrete scenario, for `update(0, 2)`. -/
theorem update_frame_witness :
    Fenwick1D.updateTouches 6 { fenw := [0, 5, 5, 3, 8, 1], n := 5 } 0 2 = chain 5 6 (0 + 1) ∧
      (chain 5 6 (0 + 1)).Nodup ∧ 0 ∉ chain 5 6 (0 + 1) ∧
      ∃ t', Fenwick1D.update 6 { fenw := [0, 5, 5, 3, 8, 1], n := 5 } 0 2 = .ok t' ∧ t'.n = 5 ∧
        t'.fenw.length = [(0 : Int), 5, 5, 3, 8, 1].length ∧
        ∀ k : Int, 0 ≤ k → k ≤ 5 → ∃ v, readAt [0, 5, 5, 3, 8, 1] k = some v ∧
          readAt t'.fenw k = some (if k ∈ chain 5 6 (0 + 1) then wrap32 (v + 2) else v) :=
  update_frame { fenw := [0, 5, 5, 3, 8, 1], n := 5 } 0 2 6
    ⟨by decide, by decide, by decide, by decide⟩ (by decide) (by decide) (by decide) (by decide)

/-- The state of the concrete scenario after `update(0, 2)`. -/
theorem update_frame_eval :
    Fenwick1D.update 6 { fenw := [0, 5, 5, 3, 8, 1], n := 5 } 0 2 =
      .ok { fenw := [0, 7, 7, 3, 10, 1], n := 5 } := by
  decide

/-- C14 as stated fails at size `2^30`: in the fresh state of that size the
in-range call `update(1073741823, 3)` adds 3 to `fenw[1073741824]` and then
reads `fenw[-2147483648]`, a position that is not in the chain of positions
`<= n` reached by adding `lsb`; it returns no state. -/
theorem update_frame_fails_at_large_size :
    ∃ t : Fenwick1D, Fenwick1D.new 1073741824 = some t ∧ t.WF ∧ 1073741823 < t.n ∧
      chain t.n 2 (1073741823 + 1) = [1073741824] ∧
      t.updateTouches 2 1073741823 3 = [1073741824, -2147483648] ∧
      ∀ (fuel : Nat) (t' : Fenwick1D), t.update fuel 1073741823 3 ≠ .ok t' := by
  have hov := update_overflow (t := { fenw := List.replicate 1073741825 0, n := 1073741824 }) 3
    length_large (le_refl _)
  exact ⟨_, new_large, wf_large, by decide, by decide,
    updateTouches_overflow 3 length_large (le_refl _) 0, hov.2⟩

/-- C15, with the bound `n < 2^30` for `update`: in every state, every position
at which `update(i, delta)` accesses `fenw` for `i` in `[0, n)`, and every
position at which `prefix_sum(j)` reads `fenw` for `j` in `[-1, n)`, lies in
`[1, n]`, and both calls return; so does `range_sum(l, r)` for `l, r` in
`[0, n)`, whose reads are those of `prefix_sum(r)` and `prefix_sum(l - 1)`. -/
theorem accesses_in_bounds (t : Fenwick1D) (i j l r delta : Int) (fuel : Nat) (h : t.WF)
    (hi0 : 0 ≤ i) (hi1 : i < t.n) (hj0 : -1 ≤ j) (hj1 : j < t.n) (hl0 : 0 ≤ l)
    (hl1 : l < t.n) (hr0 : 0 ≤ r) (hr1 : r < t.n) (hf : t.n < (fuel : Int)) :
    (t.n < 1073741824 →
        (∀ k ∈ t.updateTouches fuel i delta, 1 ≤ k ∧ k ≤ t.n) ∧
        ∃ t', t.update fuel i delta = .ok t') ∧
      (∀ k ∈ t.prefixTouches fuel j, 1 ≤ k ∧ k ≤ t.n) ∧
      (∃ v, t.prefix_sum fuel j = .ok v) ∧
      (∀ k ∈ t.prefixTouches fuel r ++ t.prefixTouches fuel (wrap32 (l - 1)),
        1 ≤ k ∧ k ≤ t.n) ∧
      ∃ v, t.range_sum fuel l r = .ok v := by
  have hn := h.2.1
  have hw : wrap32 (l - 1) = l - 1 := wrap32_of_range (by omega) (by omega)
  obtain ⟨-, hmj, vj, -, hvj⟩ := prefix_sum_passes h hj0 hj1 hf
  obtain ⟨-, hmr, vr, -, hvr⟩ := prefix_sum_passes (j := r) h (by omega) hr1 hf
  obtain ⟨-, hml, vl, -, hvl⟩ := prefix_sum_passes (j := l - 1) h (by omega) (by omega) hf
  refine ⟨?_, ?_, ⟨vj, hvj⟩, ?_, ?_⟩
  · intro hn30
    obtain ⟨ht, t', hr, -⟩ := update_chain delta h hn30 hi0 hi1 hf
    rw [ht]
    refine ⟨?_, t', hr⟩
    intro k hk
    have := chain_bounds hn30 fuel (i + 1) (by omega) k hk
    exact ⟨by omega, this.2⟩
  · intro k hk
    have := hmj k hk
    exact ⟨this.1, by omega⟩
  · intro k hk
    rw [hw] at hk
    rcases List.mem_append.1 hk with hk' | hk'
    · have := hmr k hk'
      exact ⟨this.1, by omega⟩
    · have := hml k hk'
      exact ⟨this.1, by omega⟩
  · unfold Fenwick1D.range_sum
    by_cases hlr : l > r
    · rw [if_pos hlr]; exact ⟨0, rfl⟩
    · rw [if_neg hlr, hw, hvr, hvl]
      exact ⟨_, rfl⟩

/-- C15 on the tree of the concrete scenario, for `update(2, 1)`, `prefix_sum(4)`
and `range_sum(1, 3)`. -/
theorem accesses_in_bounds_witness :
    ((5 : Int) < 1073741824 →
        (∀ k ∈ Fenwick1D.updateTouches 6 { fenw := [0, 5, 5, 3, 8, 1], n := 5 } 2 1,
          1 ≤ k ∧ k ≤ 5) ∧
        ∃ t', Fenwick1D.update 6 { fenw := [0, 5, 5, 3, 8, 1], n := 5 } 2 1 = .ok t') ∧
      (∀ k ∈ Fenwick1D.prefixTouches 6 { fenw := [0, 5, 5, 3, 8, 1], n := 5 } 4,
        1 ≤ k ∧ k ≤ 5) ∧
      (∃ v, Fenwick1D.prefix_sum 6 { fenw := [0, 5, 5, 3, 8, 1], n := 5 } 4 = .ok v) ∧
      (∀ k ∈ Fenwick1D.prefixTouches 6 { fenw := [0, 5, 5, 3, 8, 1], n := 5 } 3 ++
          Fenwick1D.prefixTouches 6 { fenw := [0, 5, 5, 3, 8, 1], n := 5 } (wrap32 (1 - 1)),
        1 ≤ k ∧ k ≤ 5) ∧
      ∃ v, Fenwick1D.range_sum 6 { fenw := [0, 5, 5, 3, 8, 1], n := 5 } 1 3 = .ok v :=
  accesses_in_bounds { fenw := [0, 5, 5, 3, 8, 1], n := 5 } 2 4 1 3 1 6
    ⟨by decide, by decide, by decide, by decide⟩ (by decide) (by decide) (by decide) (by decide)
    (by decide) (by decide) (by decide) (by decide) (by decide)

/-- C15 as stated fails at size `2^30`: in the fresh state of that size the
in-range call `update(1073741823, 5)` accesses `fenw` at the position
`-2147483648`, outside `[1, n]`, and faults there. -/
theorem accesses_in_bounds_fails_at_large_size :
    ∃ t : Fenwick1D, Fenwick1D.new 1073741824 = some t ∧ t.WF ∧ 1073741823 < t.n ∧
      t.updateTouches 2 1073741823 5 = [1073741824, -2147483648] ∧
      ¬ (1 ≤ (-2147483648 : Int)) ∧ t.update 2 1073741823 5 = .fault := by
  have hov := update_overflow (t := { fenw := List.replicate 1073741825 0, n := 1073741824 }) 5
    length_large (le_refl _)
  exact ⟨_, new_large, wf_large, by decide,
    updateTouches_overflow 5 length_large (le_refl _) 0, by decide, hov.1 2 (le_refl _)⟩

/-! ## The decomposition invariant -/

theorem sum_range_eq_zero (f : Nat → Int) (N : Nat) (h : ∀ m, m < N → f m = 0) :
    ((List.range N).map f).sum = 0 := by
  induction N with
  | zero => rfl
  | succ N ih =>
    rw [List.range_succ, List.map_append, List.sum_append,
      ih (fun m hm => h m (by omega))]
    simp [h N (by omega)]

/-- Changing one summand by `d` changes the sum by `d`. -/
theorem sum_range_update (f g : Nat → Int) (j : Nat) (d : Int) (N : Nat)
    (hj : g j = f j + d) (hne : ∀ m, m ≠ j → g m = f m) :
    ((List.range N).map g).sum = ((List.range N).map f).sum + if j < N then d else 0 := by
  induction N with
  | zero => simp
  | succ N ih =>
    rw [List.range_succ, List.map_append, List.map_append, List.sum_append, List.sum_append, ih]
    simp only [List.map_cons, List.map_nil, List.sum_cons, List.sum_nil, add_zero]
    by_cases h1 : j < N
    · have h2 : j < N + 1 := by omega
      rw [if_pos h1, if_pos h2, hne N (by omega)]; ring
    · by_cases h3 : j = N
      · subst h3
        rw [if_neg h1, if_pos (by omega), hj]; ring
      · rw [if_neg h1, if_neg (by omega), hne N (by omega)]; ring

theorem segSum_replicate (m : Nat) (lo hi : Int) : segSum (List.replicate m 0) lo hi = 0 := by
  unfold segSum
  apply sum_range_eq_zero
  intro k _
  unfold readAt
  split
  · rw [List.getElem?_replicate]
    split <;> rfl
  · rfl

/-- Writing `x` over the element `a` at position `i` changes the sums of the
segments that hold `i` by `x - a`. -/
theorem segSum_writeAt {arr : List Int} {i a : Int} (x : Int) (lo hi : Int)
    (ha : readAt arr i = some a) (hi0 : 0 ≤ i) (hlo : 0 ≤ lo) :
    segSum (writeAt arr i x) lo hi =
      segSum arr lo hi + if lo ≤ i ∧ i < hi then x - a else 0 := by
  have hlen : i < arr.length := by
    by_contra hc
    rw [readAt_eq_none_of_le (by omega)] at ha
    cases ha
  unfold segSum
  by_cases hli : lo ≤ i
  · rw [sum_range_update (fun (m : Nat) => (readAt arr (lo + (m : Int))).getD 0)
      (fun (m : Nat) => (readAt (writeAt arr i x) (lo + (m : Int))).getD 0) (i - lo).toNat (x - a)]
    · congr 1
      by_cases hih : i < hi
      · rw [if_pos (by omega), if_pos ⟨hli, hih⟩]
      · rw [if_neg (by omega), if_neg (fun h => hih h.2)]
    · have e : lo + ((i - lo).toNat : Int) = i := by omega
      simp only [e]
      rw [readAt_writeAt _ hi0 hlen hi0, if_pos rfl, ha]
      simp
    · intro m hm
      have hne : lo + (m : Int) ≠ i := by omega
      show (readAt (writeAt arr i x) (lo + (m : Int))).getD 0 = (readAt arr (lo + (m : Int))).getD 0
      rw [readAt_writeAt _ hi0 hlen (by omega), if_neg hne]
  · rw [if_neg (fun h => hli h.1), add_zero]
    congr 1
    apply List.map_congr_left
    intro m _
    have hne : lo + (m : Int) ≠ i := by omega
    rw [readAt_writeAt _ hi0 hlen (by omega), if_neg hne]

theorem decomposed_new {n : Int} (h0 : 0 ≤ n) :
    Decomposed { fenw := List.replicate (n + 1).toNat 0, n := n } (List.replicate n.toNat 0) := by
  refine ⟨by simp only [List.length_replicate]; omega, ?_⟩
  intro k hk0 hk1
  change k ≤ n at hk1
  rw [segSum_replicate]
  have : wrap32 0 = 0 := by decide
  rw [this]
  exact readAt_replicate (by omega) (by omega)

theorem decomposed_update {t : Fenwick1D} {arr : List Int} {fuel : Nat} {i : Int}
    (delta : Int) (h : t.WF) (hd : Decomposed t arr) (hn : t.n < 1073741824)
    (hi0 : 0 ≤ i) (hi1 : i < t.n) (hf : t.n < (fuel : Int)) :
    ∃ (t' : Fenwick1D) (a : Int), readAt arr i = some a ∧ t.update fuel i delta = .ok t' ∧
      t'.WF ∧ Decomposed t' (writeAt arr i (wrap32 (a + delta))) := by
  obtain ⟨hla, hk⟩ := hd
  obtain ⟨a, ha⟩ := readAt_eq_some (v := arr) (i := i) hi0 (by omega)
  obtain ⟨fenw', hr, hlen, hk'⟩ := update_spec delta h.2.2.1 hn hi0 hi1 hf
  refine ⟨_, a, ha, hr, wf_update delta i h hlen hk', by rw [length_writeAt]; exact hla, ?_⟩
  intro k hk0 hk1
  change k ≤ t.n at hk1
  show readAt fenw' k = _
  have hlp := lsb_pos (x := k) (by omega) (by omega)
  have hll := lsb_le (x := k) (by omega) (by omega)
  rw [hk' k (by omega) hk1, hk k hk0 hk1, segSum_writeAt _ _ _ ha hi0 (by omega)]
  by_cases hc : covers k (i + 1) = true
  · have hc' := (covers_iff _ _).1 hc
    rw [if_pos hc, if_pos ⟨by omega, by omega⟩]
    simp only [Option.map_some']
    congr 1
    unfold wrap32; omega
  · have hc' : ¬ (k - lsb k ≤ i ∧ i < k) := by
      intro hh
      apply hc
      rw [covers_iff]
      omega
    rw [if_neg hc, if_neg hc', add_zero]

/-- C13, for sizes below `2^30`: the Fenwick decomposition holds for the fresh
tree of size `n` with the all-zero array, and in every state in which it holds
for an array `arr`, `update(i, delta)` with `i` in `[0, n)` returns a state in
which it holds for `arr` after `arr[i] += delta`. -/
theorem decomposition_invariant (n : Int) (hn0 : 0 ≤ n) (hn1 : n < 1073741824) :
    (∃ t, Fenwick1D.new n = some t ∧ t.WF ∧ Decomposed t (List.replicate n.toNat 0)) ∧
      ∀ (t : Fenwick1D) (arr : List Int) (i delta : Int) (fuel : Nat), t.WF → t.n = n →
        Decomposed t arr → 0 ≤ i → i < n → n < (fuel : Int) →
        ∃ (t' : Fenwick1D) (a : Int), readAt arr i = some a ∧
          t.update fuel i delta = .ok t' ∧ t'.WF ∧
          Decomposed t' (writeAt arr i (wrap32 (a + delta))) := by
  constructor
  · have hlt : n < 2147483647 := by omega
    refine ⟨_, new_eq hn0 hlt, ⟨hn0, hlt, ?_, ?_⟩, decomposed_new hn0⟩
    · simp only [List.length_replicate]; omega
    · intro x hx
      rw [List.eq_of_mem_replicate hx]
      decide
  · intro t arr i delta fuel hwf htn hd hi0 hi1 hf
    subst htn
    exact decomposed_update delta hwf hd hn1 hi0 hi1 hf

/-- C13 at size 5. -/
theorem decomposition_invariant_witness :
    (∃ t, Fenwick1D.new 5 = some t ∧ t.WF ∧ Decomposed t (List.replicate (5 : Int).toNat 0)) ∧
      ∀ (t : Fenwick1D) (arr : List Int) (i delta : Int) (fuel : Nat), t.WF → t.n = 5 →
        Decomposed t arr → 0 ≤ i → i < 5 → 5 < (fuel : Int) →
        ∃ (t' : Fenwick1D) (a : Int), readAt arr i = some a ∧
          t.update fuel i delta = .ok t' ∧ t'.WF ∧
          Decomposed t' (writeAt arr i (wrap32 (a + delta))) :=
  decomposition_invariant 5 (by decide) (by decide)

/-- C13 as stated fails at size `2^30`: the fresh tree of that size holds the
decomposition of the all-zero array, `1073741823` is in `[0, n)`, and
`update(1073741823, 1)` faults, so that no state is left in which the
decomposition of the updated array could hold. -/
theorem decomposition_invariant_fails_at_large_size :
    ∃ t : Fenwick1D, Fenwick1D.new 1073741824 = some t ∧ t.WF ∧
      Decomposed t (List.replicate (1073741824 : Int).toNat 0) ∧ 1073741823 < t.n ∧
      t.update 3 1073741823 1 = .fault ∧
      ∀ (fuel : Nat) (t' : Fenwick1D), t.update fuel 1073741823 1 ≠ .ok t' := by
  have hov := update_overflow (t := { fenw := List.replicate 1073741825 0, n := 1073741824 }) 1
    length_large (le_refl _)
  exact ⟨_, new_large, wf_large, decomposed_new (n := 1073741824) (by decide), by decide,
    hov.1 3 (by decide), hov.2⟩

/-! ## The prefix array of `Naive1D_PrefixArray` -/

theorem segSum_empty (arr : List Int) (lo : Int) : segSum arr lo lo = 0 := by
  unfold segSum
  have : (lo - lo).toNat = 0 := by omega
  rw [this]
  rfl

theorem segSum_succ (arr : List Int) {lo hi : Int} (h : lo ≤ hi) :
    segSum arr lo (hi + 1) = segSum arr lo hi + (readAt arr hi).getD 0 := by
  unfold segSum
  have e : (hi + 1 - lo).toNat = (hi - lo).toNat + 1 := by omega
  have e' : lo + (((hi - lo).toNat : Nat) : Int) = hi := by omega
  rw [e, List.range_succ, List.map_append, List.sum_append]
  simp only [List.map_cons, List.map_nil, List.sum_cons, List.sum_nil, add_zero, e']

/-- The loop of `Naive1D_PrefixArray::update` from `j` on writes the positions
`j..n` of `prefix`, each from its left neighbour and the array, and leaves the
positions below `j` as they were. -/
theorem rebuildLoop_arr {arr : List Int} {n : Int} (harr : (arr.length : Int) = n)
    (hn : n < 2147483647) :
    ∀ (fuel : Nat) (j : Nat) (sums : List Int), (sums.length : Int) = n + 1 → 1 ≤ j →
      (j : Int) ≤ n + 1 → n + 1 - (j : Int) < (fuel : Int) →
      (∀ k : Int, 0 ≤ k → k < j → readAt sums k = some (wrap32 (segSum arr 0 k))) →
      ∃ sums', runLoop (Naive1D_PrefixArray.updateStep arr) fuel { sums := sums, j := j } =
          .ok sums' ∧ (sums'.length : Int) = n + 1 ∧
        (∀ k : Int, 0 ≤ k → k < j → readAt sums' k = readAt sums k) ∧
        (∀ k : Int, 0 ≤ k → k ≤ n → readAt sums' k = some (wrap32 (segSum arr 0 k))) ∧
        ∀ m ∈ (loopEntries (Naive1D_PrefixArray.updateStep arr) fuel
            { sums := sums, j := j }).map (fun s => s.j), j ≤ m ∧ (m : Int) ≤ n := by
  intro fuel
  induction fuel with
  | zero => intro j sums _ _ h1 hf _; simp at hf; omega
  | succ f ih =>
    intro j sums hl hj1 hj2 hf hk
    rw [runLoop_succ, loopEntries_succ]
    by_cases hj : j < sums.length
    · have hidx : (j + 18446744073709551615) % 18446744073709551616 = j - 1 := by omega
      have hnext : (j + 1) % 18446744073709551616 = j + 1 := by omega
      have hp := hk ((j - 1 : Nat) : Int) (by omega) (by omega)
      obtain ⟨a, ha⟩ := readAt_eq_some (v := arr) (i := ((j - 1 : Nat) : Int)) (by omega)
        (by omega)
      have ha' := ha
      rw [readAt_natCast] at hp ha'
      have hstep : Naive1D_PrefixArray.updateStep arr { sums := sums, j := j } =
          .next { sums := sums.set j (wrap32 (wrap32 (segSum arr 0 ((j - 1 : Nat) : Int)) + a)),
                  j := j + 1 } := by
        simp only [Naive1D_PrefixArray.updateStep, if_pos hj, hidx, hnext, hp, ha']
      have hval : wrap32 (wrap32 (segSum arr 0 ((j - 1 : Nat) : Int)) + a) =
          wrap32 (segSum arr 0 (j : Int)) := by
        have e : (j : Int) = ((j - 1 : Nat) : Int) + 1 := by omega
        rw [e, segSum_succ arr (by omega), ha, wrap32_add_left]
        rfl
      rw [hstep, hval]
      have hread : ∀ k : Int, 0 ≤ k →
          readAt (sums.set j (wrap32 (segSum arr 0 (j : Int)))) k =
            if k = (j : Int) then some (wrap32 (segSum arr 0 (j : Int))) else readAt sums k := by
        intro k hk0
        rw [← writeAt_natCast, readAt_writeAt _ (by omega) (by omega) hk0]
      obtain ⟨sums', hr, hl', hlow, hall, hent⟩ := ih (j + 1)
        (sums.set j (wrap32 (segSum arr 0 (j : Int))))
        (by simp only [List.length_set]; exact hl) (by omega)
        (by push_cast; omega) (by push_cast at hf ⊢; omega)
        (by
          intro k hk0 hk1
          rw [hread k hk0]
          by_cases hkj : k = (j : Int)
          · rw [if_pos hkj, hkj]
          · rw [if_neg hkj]
            exact hk k hk0 (by push_cast at hk1; omega))
      refine ⟨sums', hr, hl', ?_, hall, ?_⟩
      · intro k hk0 hk1
        rw [hlow k hk0 (by push_cast; omega), hread k hk0, if_neg (by omega)]
      · intro m hm
        simp only [List.map_cons, List.mem_cons] at hm
        rcases hm with h | h
        · rw [h]; exact ⟨le_refl _, by omega⟩
        · have := hent m h
          exact ⟨by omega, this.2⟩
    · have hstep : Naive1D_PrefixArray.updateStep arr { sums := sums, j := j } =
          .exit sums := by
        simp only [Naive1D_PrefixArray.updateStep, if_neg hj]
      rw [hstep]
      refine ⟨sums, rfl, hl, fun _ _ _ => rfl, fun k hk0 hk1 => hk k hk0 (by omega), ?_⟩
      intro m hm
      simp at hm

theorem prefixConsistent_all {p : Naive1D_PrefixArray} {n : Int} (h : PrefixConsistent p n) :
    ∀ k : Int, 0 ≤ k → k ≤ n → readAt p.sums k = some (wrap32 (segSum p.arr 0 k)) := by
  intro k hk0 hk1
  by_cases hk : k = 0
  · subst hk
    rw [segSum_empty, h.2.2.1]
    rfl
  · exact h.2.2.2 k (by omega) hk1

/-- C16: for a size `n` with `n + 1` an `int`, the consistency of the prefix
array holds after construction; from every consistent state, `update(i, delta)`
with `i` in `[0, n)` returns a consistent state in which `delta` is added to
`arr[i]`, having written `prefix` only at positions in `[i + 1, n]` and left
`prefix[0..i]` unchanged; and in every consistent state `prefix_sum(j)`, which
is `prefix[j + 1]`, returns the `int` sum of `arr[0..j]` for every `j` in
`[-1, n)`. -/
theorem prefix_array_consistent (n : Int) (hn0 : 0 ≤ n) (hn1 : n < 2147483647) :
    (∃ p, Naive1D_PrefixArray.new n = some p ∧ PrefixConsistent p n) ∧
      (∀ (p : Naive1D_PrefixArray) (i delta : Int) (fuel : Nat), PrefixConsistent p n →
        0 ≤ i → i < n → n < (fuel : Int) →
        ∃ (p' : Naive1D_PrefixArray) (a : Int), readAt p.arr i = some a ∧
          p.update fuel i delta = .ok p' ∧
          p'.arr = writeAt p.arr i (wrap32 (a + delta)) ∧
          (∀ m ∈ p.updateWrites fuel i delta, i + 1 ≤ (m : Int) ∧ (m : Int) ≤ n) ∧
          (∀ k : Int, 0 ≤ k → k ≤ i → readAt p'.sums k = readAt p.sums k) ∧
          PrefixConsistent p' n) ∧
      ∀ (p : Naive1D_PrefixArray) (j : Int), PrefixConsistent p n → -1 ≤ j → j < n →
        readAt p.sums (j + 1) = some (wrap32 (segSum p.arr 0 (j + 1))) ∧
        p.prefix_sum j = .ok (wrap32 (segSum p.arr 0 (j + 1))) := by
  have hw1 : wrap32 (n + 1) = n + 1 := wrap32_of_range (by omega) (by omega)
  refine ⟨?_, ?_, ?_⟩
  · refine ⟨{ arr := List.replicate n.toNat 0, sums := List.replicate (n + 1).toNat 0 }, ?_, ?_,
      ?_, ?_, ?_⟩
    · unfold Naive1D_PrefixArray.new
      rw [hw1, if_pos ⟨hn0, by omega⟩]
    · simp only [List.length_replicate]; omega
    · simp only [List.length_replicate]; omega
    · exact readAt_replicate (le_refl _) (by omega)
    · intro k hk0 hk1
      rw [segSum_replicate]
      exact readAt_replicate (by omega) (by omega)
  · intro p i delta fuel hc hi0 hi1 hf
    obtain ⟨hla, hls, h0, hk⟩ := hc
    obtain ⟨a, ha⟩ := readAt_eq_some (v := p.arr) (i := i) hi0 (by omega)
    have hw : wrap32 (i + 1) = i + 1 := wrap32_of_range (by omega) (by omega)
    have hj : toSizeT (i + 1) = (i + 1).toNat := by unfold toSizeT; omega
    have hcast : (((i + 1).toNat : Nat) : Int) = i + 1 := by omega
    have hpre : ∀ k : Int, 0 ≤ k → k < ((i + 1).toNat : Nat) →
        readAt p.sums k = some (wrap32 (segSum (writeAt p.arr i (wrap32 (a + delta))) 0 k)) := by
      intro k hk0 hk1
      rw [segSum_writeAt _ _ _ ha hi0 (le_refl _), if_neg (by omega), add_zero]
      exact prefixConsistent_all ⟨hla, hls, h0, hk⟩ k hk0 (by omega)
    have hla' : ((writeAt p.arr i (wrap32 (a + delta))).length : Int) = n := by
      rw [length_writeAt]; exact hla
    obtain ⟨sums', hr, hl', hlow, hall, hent⟩ :=
      rebuildLoop_arr hla' hn1 fuel (i + 1).toNat p.sums hls (by omega) (by omega) (by omega)
        hpre
    refine ⟨{ arr := writeAt p.arr i (wrap32 (a + delta)), sums := sums' }, a, ha, ?_, rfl, ?_,
      ?_, ?_⟩
    · unfold Naive1D_PrefixArray.update
      simp only [ha, hw, hj, hr, Outcome.bind]
    · intro m hm
      unfold Naive1D_PrefixArray.updateWrites at hm
      simp only [ha, hw, hj] at hm
      have := hent m hm
      exact ⟨by omega, this.2⟩
    · intro k hk0 hk1
      exact hlow k hk0 (by omega)
    · refine ⟨by rw [length_writeAt]; exact hla, hl', ?_, ?_⟩
      · have := hall 0 (le_refl _) hn0
        rw [segSum_empty] at this
        rw [this]
        rfl
      · intro k hk0 hk1
        exact hall k (by omega) hk1
  · intro p j hc hj0 hj1
    have hw : wrap32 (j + 1) = j + 1 := wrap32_of_range (by omega) (by omega)
    have hv := prefixConsistent_all hc (j + 1) (by omega) (by omega)
    refine ⟨hv, ?_⟩
    unfold Naive1D_PrefixArray.prefix_sum
    rw [hw, hv]

/-- C16 at size 5. -/
theorem prefix_array_consistent_witness :
    (∃ p, Naive1D_PrefixArray.new 5 = some p ∧ PrefixConsistent p 5) ∧
      (∀ (p : Naive1D_PrefixArray) (i delta : Int) (fuel : Nat), PrefixConsistent p 5 →
        0 ≤ i → i < 5 → 5 < (fuel : Int) →
        ∃ (p' : Naive1D_PrefixArray) (a : Int), readAt p.arr i = some a ∧
          p.update fuel i delta = .ok p' ∧
          p'.arr = writeAt p.arr i (wrap32 (a + delta)) ∧
          (∀ m ∈ p.updateWrites fuel i delta, i + 1 ≤ (m : Int) ∧ (m : Int) ≤ 5) ∧
          (∀ k : Int, 0 ≤ k → k ≤ i → readAt p'.sums k = readAt p.sums k) ∧
          PrefixConsistent p' 5) ∧
      ∀ (p : Naive1D_PrefixArray) (j : Int), PrefixConsistent p 5 → -1 ≤ j → j < 5 →
        readAt p.sums (j + 1) = some (wrap32 (segSum p.arr 0 (j + 1))) ∧
        p.prefix_sum j = .ok (wrap32 (segSum p.arr 0 (j + 1))) :=
  prefix_array_consistent 5 (by decide) (by decide)

/-- The prefix array of size 5 after `update(0,5)`, `update(2,3)`, `update(4,1)`. -/
theorem prefix_array_eval :
    (Naive1D_PrefixArray.update 6 { arr := [5, 0, 0, 0, 0], sums := [0, 5, 5, 5, 5, 5] } 2 3 =
        .ok { arr := [5, 0, 3, 0, 0], sums := [0, 5, 5, 8, 8, 8] }) ∧
      Naive1D_PrefixArray.updateWrites 6
        { arr := [5, 0, 0, 0, 0], sums := [0, 5, 5, 5, 5, 5] } 2 3 = [3, 4, 5] ∧
      Naive1D_PrefixArray.prefix_sum { arr := [5, 0, 3, 0, 0], sums := [0, 5, 5, 8, 8, 8] } 2 =
        .ok 8 ∧
      segSum [5, 0, 3, 0, 0] 0 3 = 8 := by
  decide

/-! ## The workloads of the benchmark -/

theorem rng_eq (g : Rng) (draws : Nat → Nat) (p : Nat) (h1 : g.draws = draws) (h2 : g.pos = p) :
    g = { draws := draws, pos := p } := by
  cases g
  simp only at h1 h2
  subst h1 h2
  rfl

theorem readsStream_pos_le {α : Type} {f : Rng → α × Rng} (hf : ReadsStream f)
    (draws : Nat → Nat) (p : Nat) : p ≤ (f { draws := draws, pos := p }).2.pos := by
  have h := ((hf draws 0).2.1 p).2
  rw [Nat.add_zero] at h
  have h0 : (f { draws := dropDraws p draws, pos := 0 }).2.pos + p ≤
      (f { draws := draws, pos := p }).2.pos := Nat.le_of_eq h
  exact Nat.le_trans (Nat.le_add_left _ _) h0

theorem readsStream_snd {α : Type} {f : Rng → α × Rng} (hf : ReadsStream f)
    (draws : Nat → Nat) (p : Nat) :
    (f { draws := draws, pos := p }).2 =
      { draws := draws, pos := (f { draws := draws, pos := p }).2.pos } :=
  rng_eq _ _ _ (hf draws p).1 rfl

theorem readsStream_agree {α : Type} {f : Rng → α × Rng} (hf : ReadsStream f)
    (draws draws' : Nat → Nat) (p : Nat)
    (h : ∀ q : Nat, p ≤ q → q < (f { draws := draws, pos := p }).2.pos → draws' q = draws q) :
    f { draws := draws', pos := p } =
      ((f { draws := draws, pos := p }).1,
        { draws := draws', pos := (f { draws := draws, pos := p }).2.pos }) := by
  have h1 := (hf draws p).2.2 draws' h
  have h2 := readsStream_snd hf draws' p
  rw [h1.2] at h2
  exact Prod.ext h1.1 h2

theorem readsStream_pure {α : Type} (a : α) : ReadsStream (fun r : Rng => (a, r)) := by
  intro draws p
  refine ⟨rfl, fun c => ⟨rfl, ?_⟩, fun draws' _ => ⟨rfl, rfl⟩⟩
  show p + c = c + p
  exact Nat.add_comm p c

theorem readsStream_seq {α β γ : Type} (f : Rng → α × Rng) (g : α → Rng → β × Rng)
    (h : α → β → γ) (hf : ReadsStream f) (hg : ∀ a, ReadsStream (g a)) :
    ReadsStream (fun r : Rng => (h (f r).1 (g (f r).1 (f r).2).1, (g (f r).1 (f r).2).2)) := by
  intro draws p
  have e1 := readsStream_snd hf draws p
  refine ⟨?_, ?_, ?_⟩
  · show (g (f { draws := draws, pos := p }).1 (f { draws := draws, pos := p }).2).2.draws = draws
    rw [e1]
    exact (hg _ draws _).1
  · intro c
    have s1 := (hf draws p).2.1 c
    have e2 := readsStream_snd hf (dropDraws c draws) p
    have e3 := readsStream_snd hf draws (c + p)
    show h (f { draws := dropDraws c draws, pos := p }).1
          (g (f { draws := dropDraws c draws, pos := p }).1
            (f { draws := dropDraws c draws, pos := p }).2).1 =
        h (f { draws := draws, pos := c + p }).1
          (g (f { draws := draws, pos := c + p }).1 (f { draws := draws, pos := c + p }).2).1 ∧
      (g (f { draws := dropDraws c draws, pos := p }).1
            (f { draws := dropDraws c draws, pos := p }).2).2.pos + c =
        (g (f { draws := draws, pos := c + p }).1 (f { draws := draws, pos := c + p }).2).2.pos
    rw [e2, e3, s1.1, ← s1.2, Nat.add_comm _ c]
    have s2 := (hg (f { draws := draws, pos := c + p }).1 draws
      (f { draws := dropDraws c draws, pos := p }).2.pos).2.1 c
    exact ⟨by rw [s2.1], s2.2⟩
  · intro draws' hag
    show h (f { draws := draws', pos := p }).1
          (g (f { draws := draws', pos := p }).1 (f { draws := draws', pos := p }).2).1 =
        h (f { draws := draws, pos := p }).1
          (g (f { draws := draws, pos := p }).1 (f { draws := draws, pos := p }).2).1 ∧
      (g (f { draws := draws', pos := p }).1 (f { draws := draws', pos := p }).2).2.pos =
        (g (f { draws := draws, pos := p }).1 (f { draws := draws, pos := p }).2).2.pos
    have hag' : ∀ q : Nat, p ≤ q →
        q < (g (f { draws := draws, pos := p }).1
          { draws := draws, pos := (f { draws := draws, pos := p }).2.pos }).2.pos →
        draws' q = draws q := by
      intro q h1 h2
      apply hag q h1
      show q < (g (f { draws := draws, pos := p }).1 (f { draws := draws, pos := p }).2).2.pos
      rw [e1]
      exact h2
    have hle := readsStream_pos_le (hg (f { draws := draws, pos := p }).1) draws
      (f { draws := draws, pos := p }).2.pos
    have a1 := readsStream_agree hf draws draws' p
      (fun q h1 h2 => hag' q h1 (Nat.lt_of_lt_of_le h2 hle))
    have hp := readsStream_pos_le hf draws p
    have a2 := readsStream_agree (hg (f { draws := draws, pos := p }).1) draws draws'
      (f { draws := draws, pos := p }).2.pos
      (fun q h1 h2 => hag' q (Nat.le_trans hp h1) h2)
    rw [a1]
    simp only
    rw [a2, e1]
    exact ⟨rfl, rfl⟩

theorem uniform_readsStream (lo hi : Int) : ReadsStream (uniform lo hi) := by
  intro draws p
  refine ⟨rfl, fun c => ⟨rfl, ?_⟩, fun draws' h => ⟨?_, rfl⟩⟩
  · show p + 1 + c = c + p + 1
    omega
  · show lo + ((draws' p : Nat) : Int) % (hi - lo + 1) = lo + ((draws p : Nat) : Int) % (hi - lo + 1)
    rw [h p (Nat.le_refl p) (Nat.lt_succ_self p)]

theorem oneDrawDists_readStream : oneDrawDists.ReadStream :=
  ⟨uniform_readsStream _ _, uniform_readsStream _ _, uniform_readsStream _ _⟩

theorem benchQueries_readsStream (D : Dists) (hD : D.ReadStream) (k : Nat) :
    ReadsStream (benchQueries D k) := by
  induction k with
  | zero => exact readsStream_pure []
  | succ k ih =>
    exact readsStream_seq D.idx_dist (fun _ => benchQueries D k)
      (fun idx rest => Op.query idx :: rest) hD.1 (fun _ => ih)

theorem benchUpdates_readsStream (D : Dists) (hD : D.ReadStream) (k : Nat) :
    ReadsStream (benchUpdates D k) := by
  induction k with
  | zero => exact readsStream_pure []
  | succ k ih =>
    exact readsStream_seq D.idx_dist
      (fun idx r => (Op.update idx (D.delta_dist r).1 :: (benchUpdates D k (D.delta_dist r).2).1,
        (benchUpdates D k (D.delta_dist r).2).2))
      (fun _ ops => ops) hD.1
      (fun idx => readsStream_seq D.delta_dist (fun _ => benchUpdates D k)
        (fun delta rest => Op.update idx delta :: rest) hD.2.2 (fun _ => ih))

theorem readsStream_ite {α : Type} (c : Prop) [Decidable c] (f g : Rng → α × Rng)
    (hf : ReadsStream f) (hg : ReadsStream g) :
    ReadsStream (fun r : Rng => if c then f r else g r) := by
  by_cases hc : c
  · simp only [if_pos hc]
    exact hf
  · simp only [if_neg hc]
    exact hg

theorem benchMixed_readsStream (D : Dists) (hD : D.ReadStream) (k : Nat) :
    ReadsStream (benchMixed D k) := by
  induction k with
  | zero => exact readsStream_pure []
  | succ k ih =>
    have hq : ∀ idx : Int, ReadsStream (fun r : Rng =>
        (Op.query idx :: (benchMixed D k r).1, (benchMixed D k r).2)) := fun idx =>
      readsStream_seq (fun r : Rng => ((), r)) (fun _ => benchMixed D k)
        (fun _ rest => Op.query idx :: rest) (readsStream_pure ()) (fun _ => ih)
    have hu : ∀ idx : Int, ReadsStream (fun r : Rng =>
        (Op.update idx (D.delta_dist r).1 :: (benchMixed D k (D.delta_dist r).2).1,
          (benchMixed D k (D.delta_dist r).2).2)) := fun idx =>
      readsStream_seq D.delta_dist (fun _ => benchMixed D k)
        (fun delta rest => Op.update idx delta :: rest) hD.2.2 (fun _ => ih)
    have hop : ∀ idx : Int, ReadsStream (fun r : Rng =>
        if (D.op_dist r).1 = 0 then
          (Op.query idx :: (benchMixed D k (D.op_dist r).2).1, (benchMixed D k (D.op_dist r).2).2)
        else
          (Op.update idx (D.delta_dist (D.op_dist r).2).1 ::
              (benchMixed D k (D.delta_dist (D.op_dist r).2).2).1,
            (benchMixed D k (D.delta_dist (D.op_dist r).2).2).2)) := by
      intro idx
      have h := readsStream_seq D.op_dist
        (fun op r => if op = 0 then
            (Op.query idx :: (benchMixed D k r).1, (benchMixed D k r).2)
          else
            (Op.update idx (D.delta_dist r).1 :: (benchMixed D k (D.delta_dist r).2).1,
              (benchMixed D k (D.delta_dist r).2).2))
        (fun _ ops => ops) hD.2.1
        (fun op => readsStream_ite (op = 0) _ _ (hq idx) (hu idx))
      exact h
    exact readsStream_seq D.idx_dist
      (fun idx r =>
        if (D.op_dist r).1 = 0 then
          (Op.query idx :: (benchMixed D k (D.op_dist r).2).1, (benchMixed D k (D.op_dist r).2).2)
        else
          (Op.update idx (D.delta_dist (D.op_dist r).2).1 ::
              (benchMixed D k (D.delta_dist (D.op_dist r).2).2).1,
            (benchMixed D k (D.delta_dist (D.op_dist r).2).2).2))
      (fun _ ops => ops) hD.1 hop

theorem benchQueries_length (D : Dists) (k : Nat) (g : Rng) :
    (benchQueries D k g).1.length = k := by
  induction k generalizing g with
  | zero => rfl
  | succ k ih =>
    show ((benchQueries D k (D.idx_dist g).2).1.length) + 1 = k + 1
    rw [ih]

theorem benchUpdates_length (D : Dists) (k : Nat) (g : Rng) :
    (benchUpdates D k g).1.length = k := by
  induction k generalizing g with
  | zero => rfl
  | succ k ih =>
    show ((benchUpdates D k (D.delta_dist (D.idx_dist g).2).2).1.length) + 1 = k + 1
    rw [ih]

theorem benchMixed_length (D : Dists) (k : Nat) (g : Rng) :
    (benchMixed D k g).1.length = k := by
  induction k generalizing g with
  | zero => rfl
  | succ k ih =>
    by_cases h : (D.op_dist (D.idx_dist g).2).1 = 0
    · have e : benchMixed D (k + 1) g =
          (Op.query (D.idx_dist g).1 :: (benchMixed D k (D.op_dist (D.idx_dist g).2).2).1,
            (benchMixed D k (D.op_dist (D.idx_dist g).2).2).2) := by
        show (if (D.op_dist (D.idx_dist g).2).1 = 0 then _ else _) = _
        rw [if_pos h]
      rw [e]
      show ((benchMixed D k (D.op_dist (D.idx_dist g).2).2).1.length) + 1 = k + 1
      rw [ih]
    · have e : benchMixed D (k + 1) g =
          (Op.update (D.idx_dist g).1 (D.delta_dist (D.op_dist (D.idx_dist g).2).2).1 ::
            (benchMixed D k (D.delta_dist (D.op_dist (D.idx_dist g).2).2).2).1,
            (benchMixed D k (D.delta_dist (D.op_dist (D.idx_dist g).2).2).2).2) := by
        show (if (D.op_dist (D.idx_dist g).2).1 = 0 then _ else _) = _
        rw [if_neg h]
      rw [e]
      show ((benchMixed D k (D.delta_dist (D.op_dist (D.idx_dist g).2).2).2).1.length) + 1 = k + 1
      rw [ih]

theorem cutDraws_lt (s c : Nat) (draws : Nat → Nat) (q : Nat) (h : q < s) :
    cutDraws s c draws q = draws q := if_pos h

theorem cutDraws_ge (s c : Nat) (draws : Nat → Nat) (q : Nat) (h : s ≤ q) :
    cutDraws s c draws q = dropDraws c draws q := if_neg (Nat.not_lt.mpr h)

theorem readsStream_cut {α : Type} {f : Rng → α × Rng} (hf : ReadsStream f)
    (draws : Nat → Nat) (s c : Nat) :
    f { draws := cutDraws s c draws, pos := s } =
      ((f { draws := draws, pos := c + s }).1,
        { draws := cutDraws s c draws, pos := (f { draws := dropDraws c draws, pos := s }).2.pos }) := by
  rw [readsStream_agree hf (dropDraws c draws) (cutDraws s c draws) s
    (fun q h1 _ => cutDraws_ge s c draws q h1), ((hf draws s).2.1 c).1]

theorem benchTest_eq (loop : Nat → Rng → List Op × Rng) (operations : Nat)
    (hL : ReadsStream (loop operations)) (draws : Nat → Nat) (p : Nat) :
    benchTest loop operations { draws := draws, pos := p } =
      ({ fenw := (loop operations { draws := draws, pos := p }).1,
         naive1 := (loop operations { draws := draws, pos :=
      (loop operations { draws := draws, pos := p }).2.pos }).1,
         naive2 := (loop operations { draws := draws, pos :=
      (loop operations { draws := draws, pos :=
      (loop operations { draws := draws, pos := p }).2.pos }).2.pos }).1,
         start := p,
         taken1 := (loop operations { draws := draws, pos := p }).2.pos - p,
         taken2 := (loop operations { draws := draws, pos :=
      (loop operations { draws := draws, pos := p }).2.pos }).2.pos - p },
       { draws := draws, pos :=
      (loop operations { draws := draws, pos :=
      (loop operations { draws := draws, pos :=
      (loop operations { draws := draws, pos := p }).2.pos }).2.pos }).2.pos }) := by
  have ea := readsStream_snd hL draws p
  have eb := readsStream_snd hL draws (loop operations { draws := draws, pos := p }).2.pos
  have ec := readsStream_snd hL draws (loop operations { draws := draws, pos :=
      (loop operations { draws := draws, pos := p }).2.pos }).2.pos
  show (({ fenw := (loop operations { draws := draws, pos := p }).1,
           naive1 := (loop operations (loop operations { draws := draws, pos := p }).2).1,
           naive2 := (loop operations (loop operations
             (loop operations { draws := draws, pos := p }).2).2).1,
           start := p,
           taken1 := (loop operations { draws := draws, pos := p }).2.pos - p,
           taken2 := (loop operations (loop operations { draws := draws, pos := p }).2).2.pos - p } :
        Workloads),
    (loop operations (loop operations (loop operations { draws := draws, pos := p }).2).2).2) = _
  rw [ea]
  simp only
  rw [eb]
  simp only
  rw [ec]

theorem benchTest_agree (loop : Nat → Rng → List Op × Rng) (operations : Nat)
    (hL : ReadsStream (loop operations)) (draws draws' : Nat → Nat) (p : Nat)
    (h : ∀ q : Nat, p ≤ q →
      q < (benchTest loop operations { draws := draws, pos := p }).2.pos → draws' q = draws q) :
    benchTest loop operations { draws := draws', pos := p } =
      ((benchTest loop operations { draws := draws, pos := p }).1,
        { draws := draws', pos :=
      (benchTest loop operations { draws := draws, pos := p }).2.pos }) := by
  rw [benchTest_eq loop operations hL draws p] at h ⊢
  simp only at h ⊢
  have l1 := readsStream_pos_le hL draws p
  have l2 := readsStream_pos_le hL draws (loop operations { draws := draws, pos := p }).2.pos
  have l3 := readsStream_pos_le hL draws (loop operations { draws := draws, pos :=
      (loop operations { draws := draws, pos := p }).2.pos }).2.pos
  have a1 := readsStream_agree hL draws draws' p
    (fun q h1 h2 => h q h1 (Nat.lt_of_lt_of_le h2 (Nat.le_trans l2 l3)))
  have a2 := readsStream_agree hL draws draws' (loop operations { draws := draws, pos := p }).2.pos
    (fun q h1 h2 => h q (Nat.le_trans l1 h1) (Nat.lt_of_lt_of_le h2 l3))
  have a3 := readsStream_agree hL draws draws' (loop operations { draws := draws, pos :=
      (loop operations { draws := draws, pos := p }).2.pos }).2.pos
    (fun q h1 h2 => h q (Nat.le_trans l1 (Nat.le_trans l2 h1)) h2)
  rw [benchTest_eq loop operations hL draws' p, a1]
  simp only
  rw [a2]
  simp only
  rw [a3]

theorem benchTest_fenw_agree (loop : Nat → Rng → List Op × Rng) (operations : Nat)
    (hL : ReadsStream (loop operations)) (draws draws' : Nat → Nat) (p : Nat)
    (h : ∀ q : Nat, p ≤ q →
      q < p + (benchTest loop operations { draws := draws, pos := p }).1.taken1 →
      draws' q = draws q) :
    (benchTest loop operations { draws := draws', pos := p }).1.fenw =
        (benchTest loop operations { draws := draws, pos := p }).1.fenw ∧
      (benchTest loop operations { draws := draws', pos := p }).1.taken1 =
        (benchTest loop operations { draws := draws, pos := p }).1.taken1 := by
  rw [benchTest_eq loop operations hL draws p] at h ⊢
  simp only at h ⊢
  have l1 := readsStream_pos_le hL draws p
  have a1 := readsStream_agree hL draws draws' p
    (fun q h1 h2 => h q h1 (by omega))
  rw [benchTest_eq loop operations hL draws' p, a1]
  exact ⟨rfl, rfl⟩

theorem benchTest_successive (loop : Nat → Rng → List Op × Rng) (operations : Nat)
    (hL : ReadsStream (loop operations)) (draws : Nat → Nat) (p : Nat) :
    (benchTest loop operations { draws := draws, pos := p }).1.start = p ∧
      (benchTest loop operations { draws := draws, pos := p }).1.naive1 =
        (benchTest loop operations
          { draws := cutDraws p
              (benchTest loop operations { draws := draws, pos := p }).1.taken1 draws,
            pos := p }).1.fenw ∧
      (benchTest loop operations { draws := draws, pos := p }).1.naive2 =
        (benchTest loop operations
          { draws := cutDraws p
              (benchTest loop operations { draws := draws, pos := p }).1.taken2 draws,
            pos := p }).1.fenw ∧
      (benchTest loop operations { draws := draws, pos := p }).1.taken1 ≤
        (benchTest loop operations { draws := draws, pos := p }).1.taken2 ∧
      p + (benchTest loop operations { draws := draws, pos := p }).1.taken2 ≤
        (benchTest loop operations { draws := draws, pos := p }).2.pos := by
  have l1 := readsStream_pos_le hL draws p
  have l2 := readsStream_pos_le hL draws (loop operations { draws := draws, pos := p }).2.pos
  have l3 := readsStream_pos_le hL draws (loop operations { draws := draws, pos :=
      (loop operations { draws := draws, pos := p }).2.pos }).2.pos
  rw [benchTest_eq loop operations hL draws p]
  simp only
  refine ⟨trivial, ?_, ?_, by omega, by omega⟩
  · rw [benchTest_eq loop operations hL (cutDraws p _ draws) p]
    simp only
    rw [readsStream_cut hL]
    simp only
    rw [Nat.sub_add_cancel l1]
  · rw [benchTest_eq loop operations hL (cutDraws p _ draws) p]
    simp only
    rw [readsStream_cut hL]
    simp only
    rw [Nat.sub_add_cancel (Nat.le_trans l1 l2)]

theorem benchTest_length (loop : Nat → Rng → List Op × Rng) (operations : Nat)
    (hlen : ∀ g : Rng, (loop operations g).1.length = operations) (g : Rng) :
    (benchTest loop operations g).1.fenw.length = operations ∧
      (benchTest loop operations g).1.naive1.length = operations ∧
      (benchTest loop operations g).1.naive2.length = operations :=
  ⟨hlen _, hlen _, hlen _⟩

theorem run_benchmark_test (D : Dists) (hD : D.ReadStream) (draws : Nat → Nat) (T : Test) :
    ∃ (loop : Nat → Rng → List Op × Rng) (s : Nat),
      ReadsStream (loop 50000) ∧ (∀ g : Rng, (loop 50000 g).1.length = 50000) ∧
        ∀ draws' : Nat → Nat, (∀ q : Nat, q < s → draws' q = draws q) →
          T.workloads (run_benchmark D draws') =
            (benchTest loop 50000 { draws := draws', pos := s }).1 := by
  have hQ := benchQueries_readsStream D hD 50000
  have hU := benchUpdates_readsStream D hD 50000
  have hM := benchMixed_readsStream D hD 50000
  have e1 : ∀ draws' : Nat → Nat,
      (∀ q : Nat, q < (benchTest (benchQueries D) 50000 { draws := draws, pos := 0 }).2.pos →
        draws' q = draws q) →
      (benchTest (benchQueries D) 50000 { draws := draws', pos := 0 }).2 =
        { draws := draws',
          pos := (benchTest (benchQueries D) 50000 { draws := draws, pos := 0 }).2.pos } := by
    intro draws' h
    rw [benchTest_agree (benchQueries D) 50000 hQ draws draws' 0 (fun q _ h2 => h q h2)]
  cases T with
  | queries =>
    exact ⟨benchQueries D, 0, hQ, benchQueries_length D 50000, fun _ _ => rfl⟩
  | updates =>
    refine ⟨benchUpdates D, (benchTest (benchQueries D) 50000 { draws := draws, pos := 0 }).2.pos,
      hU, benchUpdates_length D 50000, ?_⟩
    intro draws' h
    show (benchTest (benchUpdates D) 50000
      (benchTest (benchQueries D) 50000 { draws := draws', pos := 0 }).2).1 = _
    rw [e1 draws' h]
  | mixed =>
    refine ⟨benchMixed D, (benchTest (benchUpdates D) 50000 { draws := draws, pos :=
        (benchTest (benchQueries D) 50000 { draws := draws, pos := 0 }).2.pos }).2.pos,
      hM, benchMixed_length D 50000, ?_⟩
    intro draws' h
    have hle := (benchTest_successive (benchUpdates D) 50000 hU draws
      (benchTest (benchQueries D) 50000 { draws := draws, pos := 0 }).2.pos).2.2.2.2
    have hle' := Nat.le_trans (Nat.le_add_right _ _) hle
    show (benchTest (benchMixed D) 50000
      (benchTest (benchUpdates D) 50000
        (benchTest (benchQueries D) 50000 { draws := draws', pos := 0 }).2).2).1 = _
    rw [e1 draws' (fun q hq => h q (Nat.lt_of_lt_of_le hq hle')),
      benchTest_agree (benchUpdates D) 50000 hU draws draws' _ (fun q _ h2 => h q h2)]

theorem benchQueries_head (D : Dists) (k : Nat) (g : Rng) :
    (benchQueries D (k + 1) g).1.head? = some (Op.query (D.idx_dist g).1) := rfl

theorem benchQueries_oneDraw_pos (k : Nat) (g : Rng) :
    (benchQueries oneDrawDists k g).2 = { draws := g.draws, pos := g.pos + k } := by
  induction k generalizing g with
  | zero => rfl
  | succ k ih =>
    show (benchQueries oneDrawDists k { draws := g.draws, pos := g.pos + 1 }).2 = _
    rw [ih]
    show ({ draws := g.draws, pos := g.pos + 1 + k } : Rng) = _
    rw [Nat.add_assoc, Nat.add_comm 1 k]

theorem run_benchmark_queries_oneDraw :
    (Test.queries.workloads (run_benchmark oneDrawDists fun k => k)).fenw.head? =
        some (Op.query 0) ∧
      (Test.queries.workloads (run_benchmark oneDrawDists fun k => k)).naive1.head? =
        some (Op.query 50000) := by
  constructor
  · show (benchQueries oneDrawDists (49999 + 1) { draws := fun k => k, pos := 0 }).1.head? = _
    rw [benchQueries_head]
    rfl
  · show (benchQueries oneDrawDists (49999 + 1)
      (benchQueries oneDrawDists 50000 { draws := fun k => k, pos := 0 }).2).1.head? = _
    rw [benchQueries_oneDraw_pos, benchQueries_head]
    rfl

theorem readsStream_splice {α : Type} {f : Rng → α × Rng} (hf : ReadsStream f)
    (s1 s2 : Nat → Nat) :
    ∃ draws : Nat → Nat,
      (f { draws := draws, pos := 0 }).1 = (f { draws := s1, pos := 0 }).1 ∧
        (f (f { draws := draws, pos := 0 }).2).1 = (f { draws := s2, pos := 0 }).1 := by
  obtain ⟨c, hc⟩ : ∃ c : Nat, (f { draws := s1, pos := 0 }).2.pos = c := ⟨_, rfl⟩
  have hag : ∀ q : Nat, 0 ≤ q → q < (f { draws := s1, pos := 0 }).2.pos →
      (fun k => if k < c then s1 k else s2 (k - c)) q = s1 q := by
    intro q _ h
    rw [hc] at h
    exact if_pos h
  have hdrop : dropDraws c (fun k => if k < c then s1 k else s2 (k - c)) = s2 := by
    funext k
    show (if c + k < c then s1 (c + k) else s2 (c + k - c)) = s2 k
    rw [if_neg (by omega), Nat.add_sub_cancel_left]
  have e1 := readsStream_agree hf s1 (fun k => if k < c then s1 k else s2 (k - c)) 0 hag
  have e2 := ((hf (fun k => if k < c then s1 k else s2 (k - c)) 0).2.1 c).1
  rw [hdrop, Nat.add_zero] at e2
  refine ⟨fun k => if k < c then s1 k else s2 (k - c), ?_, ?_⟩
  · rw [e1]
  · rw [e1]
    simp only
    rw [hc, ← e2]

theorem run_benchmark_queries_differ (D : Dists) (hD : D.ReadStream) (s1 s2 : Nat → Nat)
    (hne : (D.idx_dist { draws := s1, pos := 0 }).1 ≠ (D.idx_dist { draws := s2, pos := 0 }).1) :
    ∃ draws : Nat → Nat,
      (Test.queries.workloads (run_benchmark D draws)).fenw ≠
        (Test.queries.workloads (run_benchmark D draws)).naive1 := by
  obtain ⟨draws, h1, h2⟩ := readsStream_splice (benchQueries_readsStream D hD 50000) s1 s2
  refine ⟨draws, ?_⟩
  show (benchQueries D 50000 { draws := draws, pos := 0 }).1 ≠
    (benchQueries D 50000 (benchQueries D 50000 { draws := draws, pos := 0 }).2).1
  rw [h1, h2]
  intro he
  have hh : (benchQueries D (49999 + 1) { draws := s1, pos := 0 }).1.head? =
      (benchQueries D (49999 + 1) { draws := s2, pos := 0 }).1.head? := congrArg List.head? he
  rw [benchQueries_head, benchQueries_head] at hh
  exact hne (Op.query.inj (Option.some.inj hh))

/-- C12 as the code has it, for distributions that read the generator's stream
from its position on: for every generator stream and in each of the three
tests, the sequence `run_benchmark` issues to the `Naive1D_SumOnQuery` is the
sequence it would issue to the `Fenwick1D` on the stream without the draws that
the loop on the `Fenwick1D` takes in that test, and the sequence it issues to
the `Naive1D_PrefixArray` is the one it would issue to the `Fenwick1D` on the
stream without the draws that the first two loops of the test take. The
sequence issued to the `Fenwick1D`, the position where the test starts and the
number of draws its first loop takes depend only on the draws before the end of
that loop, and each structure is issued 50000 operations. -/
theorem workloads_from_successive_draws (D : Dists) (hD : D.ReadStream) (draws : Nat → Nat)
    (T : Test) :
    (T.workloads (run_benchmark D draws)).naive1 =
        (T.workloads (run_benchmark D
          (cutDraws (T.workloads (run_benchmark D draws)).start
            (T.workloads (run_benchmark D draws)).taken1 draws))).fenw ∧
      (T.workloads (run_benchmark D draws)).naive2 =
        (T.workloads (run_benchmark D
          (cutDraws (T.workloads (run_benchmark D draws)).start
            (T.workloads (run_benchmark D draws)).taken2 draws))).fenw ∧
      (T.workloads (run_benchmark D draws)).taken1 ≤
        (T.workloads (run_benchmark D draws)).taken2 ∧
      (∀ draws' : Nat → Nat,
        (∀ q : Nat, q < (T.workloads (run_benchmark D draws)).start +
            (T.workloads (run_benchmark D draws)).taken1 → draws' q = draws q) →
          (T.workloads (run_benchmark D draws')).fenw =
              (T.workloads (run_benchmark D draws)).fenw ∧
            (T.workloads (run_benchmark D draws')).start =
              (T.workloads (run_benchmark D draws)).start ∧
            (T.workloads (run_benchmark D draws')).taken1 =
              (T.workloads (run_benchmark D draws)).taken1) ∧
      (T.workloads (run_benchmark D draws)).fenw.length = 50000 ∧
      (T.workloads (run_benchmark D draws)).naive1.length = 50000 ∧
      (T.workloads (run_benchmark D draws)).naive2.length = 50000 := by
  obtain ⟨loop, s, hL, hlen, hs⟩ := run_benchmark_test D hD draws T
  have e0 := hs draws (fun _ _ => rfl)
  obtain ⟨hst, hn1, hn2, hle, -⟩ := benchTest_successive loop 50000 hL draws s
  rw [e0, hst]
  refine ⟨?_, ?_, hle, ?_, benchTest_length loop 50000 hlen _⟩
  · rw [hs _ (fun q hq => cutDraws_lt s _ draws q hq)]
    exact hn1
  · rw [hs _ (fun q hq => cutDraws_lt s _ draws q hq)]
    exact hn2
  · intro draws' hag
    rw [hs draws' (fun q hq => hag q (Nat.lt_of_lt_of_le hq (Nat.le_add_right _ _)))]
    have h := benchTest_fenw_agree loop 50000 hL draws draws' s (fun q _ h2 => hag q h2)
    exact ⟨h.1, (benchTest_successive loop 50000 hL draws' s).1, h.2⟩

/-- C12 holds of the one-draw distributions on the stream 0, 1, 2, ..., in
test 1. -/
theorem workloads_from_successive_draws_witness :
    oneDrawDists.ReadStream ∧
      ((Test.queries.workloads (run_benchmark oneDrawDists fun k => k)).naive1 =
          (Test.queries.workloads (run_benchmark oneDrawDists
            (cutDraws (Test.queries.workloads (run_benchmark oneDrawDists fun k => k)).start
              (Test.queries.workloads (run_benchmark oneDrawDists fun k => k)).taken1
              fun k => k))).fenw ∧
        (Test.queries.workloads (run_benchmark oneDrawDists fun k => k)).naive2 =
          (Test.queries.workloads (run_benchmark oneDrawDists
            (cutDraws (Test.queries.workloads (run_benchmark oneDrawDists fun k => k)).start
              (Test.queries.workloads (run_benchmark oneDrawDists fun k => k)).taken2
              fun k => k))).fenw ∧
        (Test.queries.workloads (run_benchmark oneDrawDists fun k => k)).taken1 ≤
          (Test.queries.workloads (run_benchmark oneDrawDists fun k => k)).taken2 ∧
        (∀ draws' : Nat → Nat,
          (∀ q : Nat, q < (Test.queries.workloads (run_benchmark oneDrawDists fun k => k)).start +
              (Test.queries.workloads (run_benchmark oneDrawDists fun k => k)).taken1 →
            draws' q = (fun k => k) q) →
            (Test.queries.workloads (run_benchmark oneDrawDists draws')).fenw =
                (Test.queries.workloads (run_benchmark oneDrawDists fun k => k)).fenw ∧
              (Test.queries.workloads (run_benchmark oneDrawDists draws')).start =
                (Test.queries.workloads (run_benchmark oneDrawDists fun k => k)).start ∧
              (Test.queries.workloads (run_benchmark oneDrawDists draws')).taken1 =
                (Test.queries.workloads (run_benchmark oneDrawDists fun k => k)).taken1) ∧
        (Test.queries.workloads (run_benchmark oneDrawDists fun k => k)).fenw.length = 50000 ∧
        (Test.queries.workloads (run_benchmark oneDrawDists fun k => k)).naive1.length = 50000 ∧
        (Test.queries.workloads (run_benchmark oneDrawDists fun k => k)).naive2.length = 50000) :=
  ⟨oneDrawDists_readStream,
    workloads_from_successive_draws oneDrawDists oneDrawDists_readStream (fun k => k)
      Test.queries⟩

/-- C12 as stated fails. With the one-draw distributions on the stream of draws
0, 1, 2, ..., in test 1 the first operation issued to the `Fenwick1D` is
`prefix_sum(0)`, from the draw 0, and the first issued to the
`Naive1D_SumOnQuery` is `prefix_sum(50000)`, from the draw 50000, so the two
sequences differ. And whatever the distributions, as long as they read the
stream from the generator's position on and `idx_dist` is not constant, there is
a stream on which test 1 issues different sequences to the `Fenwick1D` and the
`Naive1D_SumOnQuery`. -/
theorem workloads_differ :
    (Test.queries.workloads (run_benchmark oneDrawDists fun k => k)).fenw.head? =
        some (Op.query 0) ∧
      (Test.queries.workloads (run_benchmark oneDrawDists fun k => k)).naive1.head? =
        some (Op.query 50000) ∧
      (Test.queries.workloads (run_benchmark oneDrawDists fun k => k)).fenw ≠
        (Test.queries.workloads (run_benchmark oneDrawDists fun k => k)).naive1 ∧
      ∀ D : Dists, D.ReadStream → ∀ s1 s2 : Nat → Nat,
        (D.idx_dist { draws := s1, pos := 0 }).1 ≠ (D.idx_dist { draws := s2, pos := 0 }).1 →
        ∃ draws : Nat → Nat,
          (Test.queries.workloads (run_benchmark D draws)).fenw ≠
            (Test.queries.workloads (run_benchmark D draws)).naive1 := by
  have h := run_benchmark_queries_oneDraw
  have h1 : (Test.queries.workloads (run_benchmark oneDrawDists fun k => k)).fenw.head? =
      some (Op.query 0) := h.1
  have h2 : (Test.queries.workloads (run_benchmark oneDrawDists fun k => k)).naive1.head? =
      some (Op.query 50000) := h.2
  refine ⟨h1, h2, ?_, run_benchmark_queries_differ⟩
  intro he
  rw [he, h2] at h1
  exact absurd h1 (by decide)

end FenwickTree
